import Mathlib

/-!
Verification development for the CTRWfractal percolation / continuous-time
random walk simulator.  The definitions below are a shallow embedding of the
C++ sources (`ctrw.hpp` and the refined header with `Percolate`, `FindRoot`,
`BoundariesSquare`, `BoundariesHoneycomb`, `Permutation`, `RandomWalks`,
`TAMSD`, `AnalyseWalks`, `SeedRNG`).  Machine doubles that hold exact small
integers or dyadic rationals are embedded as `Rat`; `uint32_t`/`size_t`
arithmetic that cannot overflow on the guarded paths is embedded as `Nat`;
armadillo integer columns are embedded as `Array Int`.  The C++ recursion of
`FindRoot` carries no termination proof, so its embedding takes explicit fuel
and returns `none` when the fuel runs out (modelling non-termination); all
theorems about it are stated on runs where the fuel provably suffices.
-/

namespace Perc

/-- Convenient read of an armadillo integer column: `lattice(i)`.
Out-of-range reads are undefined behaviour in the source; the default `0`
is never exercised by the theorems below. -/
def val (lat : Array Int) (i : Nat) : Int := lat.getD i 0

/-- Convenient write to an armadillo integer column: `lattice(i) = v`. -/
def wr (lat : Array Int) (i : Nat) (v : Int) : Array Int := lat.set! i v

/-- `EMPTY = -N - 1`, the sentinel stored at unoccupied sites. -/
def EMPTYval (N : Nat) : Int := -(N : Int) - 1

/-- `FindRoot` without the path-compression writes: pure chase of parent
pointers.  `rootPure lat fuel i` follows `lattice` pointers from `i` until a
negative entry (a root) is found, giving up after `fuel` visited nodes. -/
def rootPure (lat : Array Int) : Nat → Nat → Option Nat
  | 0, _ => none
  | fuel + 1, i =>
    if i < lat.size then
      if val lat i < 0 then some i
      else rootPure lat fuel (val lat i).toNat
    else none

/-- `FindRoot` as written: `return lattice(i) = FindRoot(lattice(i))`.
The recursive call is made on the value read from `lattice(i)`, then the
returned root is written back into `lattice(i)` (full path compression).
`fuel` models the C++ call stack; `none` models a non-terminating run. -/
def findRootC (lat : Array Int) : Nat → Nat → Option (Array Int × Nat)
  | 0, _ => none
  | fuel + 1, i =>
    if i < lat.size then
      if val lat i < 0 then some (lat, i)
      else
        match findRootC lat fuel (val lat i).toNat with
        | none => none
        | some (lat2, r) => some (wr lat2 i (r : Int), r)
    else none

/-- One iteration of the neighbour loop inside `Percolate`, operating on the
state `(lattice, r1, big)` with `s2 = nn(j, s1)` already computed:

  s2 = nn(j, s1);
  if (lattice(s2) != EMPTY) {
    r2 = FindRoot(s2);
    if (r2 != r1) {
      if (lattice(r1) > lattice(r2)) { lattice(r2) += lattice(r1);
        lattice(r1) = r2; r1 = r2; }
      else { lattice(r1) += lattice(r2); lattice(r2) = r1; }
      if (-lattice(r1) > big) { big = -lattice(r1); }
    }
  }

Out-of-range neighbour indices (undefined behaviour in C++) give `none`. -/
def unionNbr (E : Int) : Array Int × Nat × Int → Nat →
    Option (Array Int × Nat × Int)
  | (lat, r1, big), s2 =>
  if s2 < lat.size then
    if val lat s2 ≠ E then
      match findRootC lat lat.size s2 with
      | none => none
      | some (lat2, r2) =>
        if r2 ≠ r1 then
          if val lat2 r1 > val lat2 r2 then
            let lat3 := wr (wr lat2 r2 (val lat2 r2 + val lat2 r1)) r1 (r2 : Int)
            some (lat3, r2, if -(val lat3 r2) > big then -(val lat3 r2) else big)
          else
            let lat3 := wr (wr lat2 r1 (val lat2 r1 + val lat2 r2)) r2 (r1 : Int)
            some (lat3, r1, if -(val lat3 r1) > big then -(val lat3 r1) else big)
        else some (lat2, r1, big)
    else some (lat, r1, big)
  else none

/-- The body of the occupation loop of `Percolate` for one newly occupied
site `s1 = occupation[i]`: set `lattice(s1) = -1`, then run the neighbour
loop `for (j = 0; j < neighbourCount; j++)` via `unionNbr`.  The neighbour
table is embedded as the function `nnf j s = nn(j, s)`. -/
def occupySite (E : Int) (k : Nat) (nnf : Nat → Nat → Nat) :
    Array Int × Int → Nat → Option (Array Int × Int)
  | (lat, big), s1 =>
  if s1 < lat.size then
    ((List.range k).foldlM (fun q j => unionNbr E q (nnf j s1))
        (wr lat s1 (-1), s1, big)).map (fun q => (q.1, q.2.2))
  else none

/-- `Percolate` run on an explicit list of sites (the prefix of the
occupation permutation that the loop visits): initialise every entry to
`EMPTY`, then occupy the sites in order.  `big` starts at `0`. -/
def percolateList (N k : Nat) (nnf : Nat → Nat → Nat) (sites : List Nat) :
    Option (Array Int) :=
  (sites.foldlM (occupySite (EMPTYval N) k nnf)
      (mkArray N (EMPTYval N), (0 : Int))).map (·.1)

/-- Number of iterations of `for (uint32_t i = 0; i < (threshold * N) - 1; i++)`:
the comparison is between the double `threshold*N - 1` and the converted
counter, so the loop runs `max (⌈threshold*N⌉ - 1) 0` times (see
`nSites_guard` below for the guard equivalence). -/
def nSites (q : ℚ) (N : Nat) : Nat := (⌈q * (N : ℚ)⌉ - 1).toNat

/-- `Percolate` as called by `Run`, with the occupation order `occf` (the
contents of the `occupation` array after `Permutation`) and the target
threshold `q`. -/
def percolate (q : ℚ) (N k : Nat) (nnf : Nat → Nat → Nat) (occf : Nat → Nat) :
    Option (Array Int) :=
  percolateList N k nnf ((List.range (nSites q N)).map occf)

/-- The root reported by `FindRoot` (second component of the compressing
run, with the call-stack fuel that a valid lattice needs). -/
def rootD (lat : Array Int) (i : Nat) : Option Nat :=
  (findRootC lat lat.size i).map (fun p => p.2)

/-- Count of occupied (non-`EMPTY`) sites of the final lattice. -/
def numOccupied (N : Nat) (lat : Array Int) : Nat :=
  ((List.range N).filter (fun i => val lat i ≠ EMPTYval N)).length

/-- Site `i` is occupied: in range and not `EMPTY`. -/
def occupiedP (N : Nat) (lat : Array Int) (i : Nat) : Prop :=
  i < N ∧ val lat i ≠ EMPTYval N

instance (N : Nat) (lat : Array Int) (i : Nat) : Decidable (occupiedP N lat i) := by
  unfold occupiedP; infer_instance

/-- `ReachIn N lat d i r`: from site `i`, following parent pointers `d` times
reaches the root `r` (a site with negative, non-`EMPTY` stored value).  Every
site on the chain is in range and occupied. -/
inductive ReachIn (N : Nat) (lat : Array Int) : Nat → Nat → Nat → Prop
  | root (i : Nat) (h1 : i < N) (h2 : val lat i < 0) (h3 : val lat i ≠ EMPTYval N) :
      ReachIn N lat 0 i i
  | step (d i r : Nat) (h1 : i < N) (h2 : 0 ≤ val lat i)
      (h3 : ReachIn N lat d (val lat i).toNat r) : ReachIn N lat (d + 1) i r

/-- `i`'s union-find chain terminates at root `r`. -/
def RootOf (N : Nat) (lat : Array Int) (i r : Nat) : Prop :=
  ∃ d, ReachIn N lat d i r

/-- `b` appears in the neighbour table column of `a`. -/
def adjE (k : Nat) (nnf : Nat → Nat → Nat) (a b : Nat) : Prop :=
  ∃ j < k, nnf j a = b

/-- One step between occupied sites along the (symmetrised) neighbour
relation, with the occupied set given by `S`. -/
def stepE (k : Nat) (nnf : Nat → Nat → Nat) (S : Finset Nat) (a b : Nat) : Prop :=
  a ∈ S ∧ b ∈ S ∧ (adjE k nnf a b ∨ adjE k nnf b a)

/-- `a` and `b` are connected through occupied neighbours. -/
def Conn (k : Nat) (nnf : Nat → Nat → Nat) (S : Finset Nat) (a b : Nat) : Prop :=
  Relation.ReflTransGen (stepE k nnf S) a b

/-! ### Lattice topology: `BoundariesSquare`, `BoundariesHoneycomb` -/

/-- Neighbour column of site `i` of the periodic square lattice
(`BoundariesSquare`, `N = L*L`).  The code first fills the four modular
entries, then overwrites `nn(1)` at the start of a row and `nn(0)` at the end
of a row; the `if`s below give those final values.  C++ `i - L + 1` is
computed in `size_t`: on the guarded branch it equals `i + 1 - L`. -/
def nbrsSquare (L : Nat) (i : Nat) : List Nat :=
  let N := L * L
  [if (i + 1) % L = 0 then i + 1 - L else (i + 1) % N,
   if i % L = 0 then i + L - 1 else (i + N - 1) % N,
   (i + L) % N,
   (i + N - L) % N]

/-- Row/column form of a periodic square-lattice move: from site `i` move
`dr` rows and `dc` columns (both taken mod `L`).  Used to state the closed
form of `nbrsSquare`. -/
def sqNb (L dr dc i : Nat) : Nat :=
  ((i / L + dr) % L) * L + ((i % L + dc) % L)

/-- Entry `firstRow(m-1)` of the honeycomb first-row list, `1 ≤ m ≤ 2L`:
`1 - 0.5*(3*L) + 0.5*((-1)^m * L) + 2*m*L - 1` computed in doubles; every
intermediate is a small dyadic rational, so the double arithmetic is exact
and is embedded as `Rat`. -/
def firstRowEntry (L m : Nat) : ℚ :=
  1 - (3 * (L : ℚ)) / 2 + ((-1 : ℚ) ^ m * (L : ℚ)) / 2 + 2 * (m : ℚ) * (L : ℚ) - 1

/-- Entry `lastRow(m-1)`: `0.5 * L * (4*m + (-1)^(m+1) - 1) - 1`, again exact
dyadic double arithmetic embedded as `Rat`. -/
def lastRowEntry (L m : Nat) : ℚ :=
  (L : ℚ) / 2 * (4 * (m : ℚ) + (-1 : ℚ) ^ (m + 1) - 1) - 1

/-- `firstRowEntry L m` as a natural number (see `firstRowEntry_eq_cast`
below: the double arithmetic is exact, and the value is this natural). -/
def firstRowN (L m : Nat) : Nat :=
  2 * m * L - (if m % 2 = 0 then L else 2 * L)

/-- `lastRowEntry L m` as a natural number (see `lastRowEntry_eq_cast`). -/
def lastRowN (L m : Nat) : Nat :=
  2 * m * L - (if m % 2 = 0 then L + 1 else 1)

/-- The `firstRow` membership test `arma::any(firstRow == i)`. -/
def inFirstRow (L i : Nat) : Prop :=
  ∃ m, 1 ≤ m ∧ m ≤ 2 * L ∧ firstRowN L m = i

/-- The `lastRow` membership test `arma::any(lastRow == i)`. -/
def inLastRow (L i : Nat) : Prop :=
  ∃ m, 1 ≤ m ∧ m ≤ 2 * L ∧ lastRowN L m = i

instance (L i : Nat) : Decidable (inFirstRow L i) := by
  unfold inFirstRow
  exact decidable_of_iff (∃ m < 2 * L + 1, 1 ≤ m ∧ firstRowN L m = i)
    ⟨fun ⟨m, h1, h2, h3⟩ => ⟨m, h2, by omega, h3⟩,
     fun ⟨m, h1, h2, h3⟩ => ⟨m, by omega, h1, h3⟩⟩

instance (L i : Nat) : Decidable (inLastRow L i) := by
  unfold inLastRow
  exact decidable_of_iff (∃ m < 2 * L + 1, 1 ≤ m ∧ lastRowN L m = i)
    ⟨fun ⟨m, h1, h2, h3⟩ => ⟨m, h2, by omega, h3⟩,
     fun ⟨m, h1, h2, h3⟩ => ⟨m, by omega, h1, h3⟩⟩

/-- Neighbour column of site `i` of the periodic honeycomb lattice
(`BoundariesHoneycomb`, `N = 4*L*L`).  `currentCol` is incremented after
every block of `L` sites, so at site `i` it equals `(i / L) % 4`.  C++
`size_t` subtractions that temporarily underflow and are restored by a later
addition (`i - N + L`, `i - 2*L + 1`, `i - L + 1`) are written with the
addition first. -/
def nbrsHoney (L : Nat) (i : Nat) : List Nat :=
  let N := 4 * L * L
  if i = 0 then [i + L, i + 2 * L - 1, i + N - L]
  else if i = N - L then [i - 1, i - L, i + L - N]
  else if i = N - L - 1 then [i - L, i + L, i + 1]
  else if i < L then [i + L - 1, i + L, i + N - L]
  else if N - L < i then [i - L - 1, i - L, i + L - N]
  else if (i / L) % 4 = 0 then
    (if inFirstRow L i then [i - L, i + L, i + 2 * L - 1]
     else [i - L, i + L - 1, i + L])
  else if (i / L) % 4 = 1 then
    (if inLastRow L i then [i - L, i + L, i + 1 - 2 * L]
     else [i - L, i + 1 - L, i + L])
  else if (i / L) % 4 = 2 then
    (if inLastRow L i then [i - L, i + L, i + 1]
     else [i - L, i + L, i + L + 1])
  else
    (if inFirstRow L i then [i - 1, i - L, i + L]
     else [i - L - 1, i - L, i + L])

/-- Neighbour-table entry `nn(j, i)` for lattice mode `0` (square) or `1`
(honeycomb). -/
def nnFun (mode L : Nat) (j i : Nat) : Nat :=
  if mode = 1 then (nbrsHoney L i).getD j 0 else (nbrsSquare L i).getD j 0

/-- Unified honeycomb neighbour: previous column (`currentCol` decremented,
wrapping over the `4*L` columns), same position in the column. -/
def hAm (L i : Nat) : Nat :=
  ((i / L + (4 * L - 1)) % (4 * L)) * L + i % L

/-- Unified honeycomb neighbour: next column (wrapping), same position. -/
def hAp (L i : Nat) : Nat :=
  ((i / L + 1) % (4 * L)) * L + i % L

/-- Unified honeycomb neighbour: the third bond; its direction depends on the
column phase `(i / L) % 4`. -/
def hT (L i : Nat) : Nat :=
  if (i / L) % 4 = 0 then ((i / L + 1) % (4 * L)) * L + (i % L + (L - 1)) % L
  else if (i / L) % 4 = 1 then
    ((i / L + (4 * L - 1)) % (4 * L)) * L + (i % L + 1) % L
  else if (i / L) % 4 = 2 then ((i / L + 1) % (4 * L)) * L + (i % L + 1) % L
  else ((i / L + (4 * L - 1)) % (4 * L)) * L + (i % L + (L - 1)) % L

/-- The neighbour list of site `i` in mode `0` (square) or `1` (honeycomb). -/
def nbrsList (mode L i : Nat) : List Nat :=
  if mode = 1 then nbrsHoney L i else nbrsSquare L i

/-- The candidate start pool of `RandomWalks`.  For `walkMode == 1`:
`latticeMin` is the least stored value among occupied sites
(`lattice.elem(find(lattice > EMPTY)).min()`), `idxMin(0)` is the first index
holding that value, `largestCluster = find(lattice == idxMin(0))` collects the
sites whose stored value equals that index, and `idxMin(0)` itself is appended.
Otherwise the pool is `find(lattice != EMPTY)`, the occupied sites. -/
def startPool (walkMode N : Nat) (lat : Array Int) : List Nat :=
  if walkMode = 1 then
    match (((List.range N).filter fun i => EMPTYval N < val lat i).map
        fun i => val lat i).min? with
    | none => []
    | some m =>
      match (List.range N).filter (fun i => val lat i = m) with
      | [] => []
      | r :: _ => ((List.range N).filter fun i => val lat i = (r : Int)) ++ [r]
  else (List.range N).filter fun i => ¬ val lat i = EMPTYval N

/-- `GetOccupiedNeighbours(pos)`: the neighbour-table entries of `pos` whose
lattice value is not `EMPTY`. -/
def occupiedNeighbours (N k : Nat) (nnf : Nat → Nat → Nat) (lat : Array Int)
    (p : Nat) : List Nat :=
  ((List.range k).map fun j => nnf j p).filter fun q => ¬ val lat q = EMPTYval N

/-- `countMax = std::min(std::max(N, 1e5), 1e8)` of `RandomWalks`. -/
def countMaxOf (N : Nat) : Nat := min (max N 100000) 100000000

/-- The start-site rejection loop of `RandomWalks`: at rejection count
`count`, draw the candidate `pos count`; accept if it has an occupied
neighbour (`ok`) or the cap is reached, otherwise increment the count and
retry.  The do-while always terminates within `countMax + 1` draws, which is
the fuel. -/
def searchFrom (pos : Nat → Nat) (ok : Nat → Bool) (countMax : Nat) :
    Nat → Nat → Nat × Nat
  | 0, count => (pos count, count)
  | fuel + 1, count =>
    if ok (pos count) = true ∨ countMax ≤ count then (pos count, count)
    else searchFrom pos ok countMax fuel (count + 1)

/-- The full rejection search: fuel `countMax + 1`, count starting at `0`. -/
def startSearch (pos : Nat → Nat) (ok : Nat → Bool) (countMax : Nat) :
    Nat × Nat :=
  searchFrom pos ok countMax (countMax + 1) 0

/-- The cap fallback: `walks = pos * ones(simLength); boundaryDetect.zeros()`. -/
def walkFallback (simLength : Nat) (p : Nat) : List Int × List Nat :=
  (List.replicate simLength (p : Int), List.replicate simLength 0)

/-- Per-walk dispatch of `RandomWalks`: on `countLoop == countMax` the walk
degenerates to the stationary fallback, otherwise the stepping loop builds it
from the accepted start site. -/
def walkBuild (simLength countMax : Nat) (res : Nat × Nat)
    (stepped : Nat → List Int × List Nat) : List Int × List Nat :=
  if res.2 = countMax then walkFallback simLength res.1 else stepped res.1

/-- `SquaredDist(x1, x2, y1, y2) = (x1-x2)^2 + (y1-y2)^2`; walk coordinates
are exact rationals in the model, so doubles are embedded as `Rat` and the
only non-finite value arising in `AnalyseWalks` is the `0/0` of `TAMSD`,
modelled by `Option` (`none` = non-finite). -/
def sqDist (a b : ℚ × ℚ) : ℚ := (a.1 - b.1) ^ 2 + (a.2 - b.2) ^ 2

/-- `TAMSD(walk, t, delta)`: `diff = t - delta`, sum the squared displacement
between ticks `i + delta` and `i` for `i < diff`, return `integral / diff`
(`0/0 = NaN`, i.e. `none`, when `diff = 0`; callers only use `delta <= t`). -/
def TAMSD (walk : Nat → ℚ × ℚ) (t delta : Nat) : Option ℚ :=
  if t - delta = 0 then none
  else some ((((List.range (t - delta)).map fun i =>
    sqDist (walk (i + delta)) (walk i)).sum) / ((t - delta : Nat) : ℚ))

/-- Per-walk ensemble-MSD contribution: `eaMSDall(j, i)` (row `j` is lag
`j + 1`) is the squared displacement of walk `i` from its origin. -/
def eaMSDallM (walks : Nat → Nat → ℚ × ℚ) (i j : Nat) : Option ℚ :=
  some (sqDist (walks i (j + 1)) (walks i 0))

/-- Per-walk ensemble-time-average contribution:
`eataMSDall(j, i) = TAMSD(walk_i, j + 1, 1)`; row `0` is `TAMSD(_, 1, 1)`,
the `0/0` case. -/
def eataMSDall (walks : Nat → Nat → ℚ × ℚ) (i j : Nat) : Option ℚ :=
  TAMSD (walks i) (j + 1) 1

/-- NaN-propagating addition of the accumulator in `arma::mean`. -/
def optAdd (a b : Option ℚ) : Option ℚ :=
  match a, b with
  | some x, some y => some (x + y)
  | _, _ => none

/-- NaN-propagating sum. -/
def optSum (l : List (Option ℚ)) : Option ℚ := l.foldl optAdd (some 0)

/-- `arma::mean(A, 1)` at row `j`: the across-walk mean, `NaN` (`none`) if
any entry is non-finite or there are no walks. -/
def rowMean (n : Nat) (A : Nat → Nat → Option ℚ) (j : Nat) : Option ℚ :=
  if n = 0 then none
  else (optSum ((List.range n).map fun i => A i j)).map fun s => s / (n : ℚ)

/-- `x.elem(find_nonfinite(x)).zeros()` applied to a scalar entry. -/
def finZero (x : Option ℚ) : Option ℚ := some (x.getD 0)

/-- The cross-indexed zeroing the code performs:
`eaMSDall.elem(arma::find_nonfinite(eataMSDall)).zeros()` — entry `(j, i)` of
`eaMSDall` is zeroed when the corresponding entry of `eataMSDall` is
non-finite. -/
def eaMSDallZeroed (walks : Nat → Nat → ℚ × ℚ) (i j : Nat) : Option ℚ :=
  match eataMSDall walks i j with
  | none => some 0
  | some _ => eaMSDallM walks i j

/-- Column `0` of `analysis` as the code computes it:
`eaMSD = arma::mean(eaMSDall, 1)` after the cross-indexed zeroing. -/
def analysisCol0 (walks : Nat → Nat → ℚ × ℚ) (n j : Nat) : Option ℚ :=
  rowMean n (eaMSDallZeroed walks) j

/-- Column `0` of `analysis` as the spec words it: zero the non-finite
entries of `eaMSDall` ITSELF, then take the across-walk mean. -/
def analysisCol0Spec (walks : Nat → Nat → ℚ × ℚ) (n j : Nat) : Option ℚ :=
  rowMean n (fun i j2 => finZero (eaMSDallM walks i j2)) j

/-- Column `1` of `analysis`: `eataMSD = arma::mean(eataMSDall, 1)` (no
pre-mean zeroing is applied to `eataMSDall`), then
`eataMSD.elem(find_nonfinite(eataMSD)).zeros()`. -/
def analysisCol1 (walks : Nat → Nat → ℚ × ℚ) (n j : Nat) : Option ℚ :=
  finZero (rowMean n (eataMSDall walks) j)

/-! ### `Permutation` (Fisher-Yates-style shuffle) -/

/-- The constant `permConstant = 2.3283064e-10`; the nearest double differs
from this decimal by less than one part in `10^8`, which is irrelevant to
every property below (the products stay well clear of the integer
boundaries), so the decimal itself is used. -/
def permConstant : ℚ := 23283064 / 100000000000000000

/-- The swap index `j = i + (N - i) * permConstant * u` of `Permutation`,
truncated by the assignment to the integer `j` (the value is nonnegative, so
truncation toward zero is `Int.toNat ∘ Int.floor`). -/
def permIndex (N i u : Nat) : Nat :=
  (⌊(i : ℚ) + ((N : ℚ) - (i : ℚ)) * permConstant * (u : ℚ)⌋).toNat

/-- One swap `t_ = occupation(i); occupation(i) = occupation(j);
occupation(j) = t_`. -/
def swapArr (a : Array Nat) (i j : Nat) : Array Nat :=
  let ti := a.getD i 0
  let tj := a.getD j 0
  (a.set! i tj).set! j ti

/-- `Permutation()`: initialise `occupation(i) = i`, then for each `i < N`
swap entry `i` with entry `permIndex N i u_i`, where `u_i` is the `i`-th
draw of `UniformDistribution` (uniform on `[0, 4294967294]`). -/
def permutation (N : Nat) (us : Nat → Nat) : Array Nat :=
  (List.range N).foldl (fun a i => swapArr a i (permIndex N i (us i)))
    ((List.range N).toArray)

/-- Modelled from the spec: `pcg64(seed)` is a deterministic pseudo-random
generator whose draw sequence is a pure function of the seed.  The pcg64
implementation is an external library, absent from the repository sources, so
the raw 64-bit draw stream is modelled as an explicit seed-determined
function. -/
def pcgStream (seed : Nat) (t : Nat) : Nat :=
  ((seed + t) * 6364136223846793005 + 1442695040888963407) % 18446744073709551616

/-- Modelled from the spec: `SeedRNG` uses `std::random_device` draws when
`seed < 0` (nondeterministic entropy, the `entropy` input of a run) and
`pcg64(seed)` otherwise. -/
def seedRNG (entropy : Nat → Nat) (seed : Int) : Nat → Nat :=
  if seed < 0 then entropy else pcgStream seed.toNat

/-- The stepping loop of `RandomWalks`: from site `p`, take `j` steps, each
time drawing one of the occupied neighbours of the current site
(`pos = neighbours(RandChoice(RNG))`; the uniform draw over `n_elem`
outcomes is modelled as the raw draw reduced mod the list length). -/
def stepWalkFrom (N k : Nat) (nnf : Nat → Nat → Nat) (lat : Array Int)
    (draws : Nat → Nat) : Nat → Nat → List Nat
  | 0, _ => []
  | j + 1, p =>
    let nbrs := occupiedNeighbours N k nnf lat p
    let p2 := nbrs.getD (draws j % max nbrs.length 1) 0
    p2 :: stepWalkFrom N k nnf lat draws j p2

/-- One run of the pipeline `Permutation -> Percolate -> RandomWalks` with a
single shared generator stream: the occupation order consumes the first `N`
draws, then the start-site search and the stepping loop consume later draws
(cursor positions are modelled by the stream index).  Returns the occupation
order, the percolated lattice and the first walk trajectory. -/
def runModel (q : ℚ) (N k L mode wm simLength : Nat) (seed : Int)
    (entropy : Nat → Nat) : Array Nat × Option (Array Int × List Nat) :=
  let stream := seedRNG entropy seed
  let occ := permutation N (fun i => stream i % 4294967295)
  (occ,
    match percolate q N k (nnFun mode L) (fun t => occ.getD t 0) with
    | none => none
    | some lat =>
      let pool := startPool wm N lat
      let pos := fun t => pool.getD (stream (N + t) % max pool.length 1) 0
      let res := startSearch pos (fun p => decide
        (¬ occupiedNeighbours N k (nnFun mode L) lat p = [])) (countMaxOf N)
      some (lat,
        if res.2 = countMaxOf N then List.replicate simLength res.1
        else res.1 :: stepWalkFrom N k (nnFun mode L) lat
          (fun t => stream (N + countMaxOf N + t)) (simLength - 1) res.1))

/-- The union-find part of the invariant maintained by the percolation loop,
with `S` the set of sites occupied so far: the lattice has the right size,
the occupied sites are exactly `S`, every occupied entry is either a parent
pointer to an occupied site or a root size in `[-N, 0)`, every occupied site
reaches a root whose cluster size is at least `2^depth`, and every root
stores the negated cardinality of its cluster. -/
structure UFInv (N : Nat) (S : Finset Nat) (lat : Array Int) : Prop where
  size : lat.size = N
  occ_iff : ∀ i, occupiedP N lat i ↔ i ∈ S
  vals : ∀ i ∈ S, (0 ≤ val lat i ∧ (val lat i).toNat ∈ S) ∨
      (val lat i < 0 ∧ -(N : Int) ≤ val lat i)
  depth : ∀ i ∈ S, ∃ d r, ReachIn N lat d i r ∧ (2 : Int) ^ d ≤ -(val lat r)
  sizes : ∀ r ∈ S, val lat r < 0 →
      -(val lat r) = (Set.ncard {i : Nat | i ∈ S ∧ RootOf N lat i r} : Int)

/-- The full loop invariant: the union-find invariant plus the connectivity
characterisation (two occupied sites are connected through occupied
neighbours iff their chains share a root). -/
structure Inv (N k : Nat) (nnf : Nat → Nat → Nat) (S : Finset Nat)
    (lat : Array Int) extends UFInv N S lat : Prop where
  conn : ∀ a ∈ S, ∀ b ∈ S, (Conn k nnf S a b ↔
      ∃ r, RootOf N lat a r ∧ RootOf N lat b r)

/-- The attach step common to the two union branches of `Percolate`: the
winner root `rw` accumulates the loser root size, and the loser root `rl`
becomes a pointer to `rw` (`lattice(rw) += lattice(rl); lattice(rl) = rw`). -/
def latAttach (lat : Array Int) (rw rl : Nat) : Array Int :=
  wr (wr lat rw (val lat rw + val lat rl)) rl (rw : Int)

/-- Path compression relates `lat` and `lat'`: every in-range entry is either
unchanged, or was a parent pointer on a chain leading to the root `r` and now
points directly at `r`. -/
def CompRel (N : Nat) (lat lat' : Array Int) (r : Nat) : Prop :=
  ∀ j < N, val lat' j = val lat j ∨
    (0 ≤ val lat j ∧ val lat' j = (r : Int) ∧ j ≠ r ∧ RootOf N lat j r)

/-- One connectivity step available after the first `t` neighbours of the
newly occupied site `s` have been processed: either a step between sites
occupied before `s`, or the edge from `s` to one of those first `t`
neighbours. -/
def stepT (k : Nat) (nnf : Nat → Nat → Nat) (S : Finset Nat) (s t : Nat)
    (a b : Nat) : Prop :=
  stepE k nnf S a b ∨
    (∃ j < t, nnf j s ∈ S ∧ ((a = s ∧ b = nnf j s) ∨ (a = nnf j s ∧ b = s)))

/-- Connectivity generated by `stepT`. -/
def ConnT (k : Nat) (nnf : Nat → Nat → Nat) (S : Finset Nat) (s t : Nat)
    (a b : Nat) : Prop :=
  Relation.ReflTransGen (stepT k nnf S s t) a b

/-- Invariant of the neighbour loop inside `Percolate`, after the first `t`
neighbours of the newly occupied site `s` have been processed: the union-find
invariant over `insert s S`, the loop variable `r1` is the current root of
`s`, and connectivity-so-far is matched by shared roots. -/
structure StepInv (N k : Nat) (nnf : Nat → Nat → Nat) (S : Finset Nat)
    (s t : Nat) (lat : Array Int) (r1 : Nat) : Prop where
  uf : UFInv N (insert s S) lat
  r1root : RootOf N lat s r1
  conn : ∀ a ∈ insert s S, ∀ b ∈ insert s S, (ConnT k nnf S s t a b ↔
      ∃ r, RootOf N lat a r ∧ RootOf N lat b r)

/-! ## Theorems -/

/-! ### Array access API -/

theorem size_wr (lat : Array Int) (i : Nat) (v : Int) :
    (wr lat i v).size = lat.size := by
  simp [wr]

theorem val_wr (lat : Array Int) (i : Nat) (v : Int) (j : Nat) :
    val (wr lat i v) j = if j = i ∧ i < lat.size then v else val lat j := by
  unfold val wr
  rcases Nat.lt_or_ge i lat.size with h | h
  · have hs : lat.set! i v = lat.set ⟨i, h⟩ v := by
      simp [Array.set!, Array.setD, h]
    rw [hs]
    rcases Nat.lt_or_ge j lat.size with hj | hj
    · unfold Array.getD
      rw [dif_pos (by simpa using hj), dif_pos hj]
      simp only [Array.get_eq_getElem]
      rw [Array.getElem_set]
      by_cases hij : i = j
      · rw [if_pos hij, if_pos ⟨hij.symm, h⟩]
      · rw [if_neg hij, if_neg (by rintro ⟨rfl, _⟩; exact hij rfl)]
    · unfold Array.getD
      rw [dif_neg (by simpa using not_lt.2 hj), dif_neg (not_lt.2 hj)]
      have : ¬(j = i ∧ i < lat.size) := by rintro ⟨rfl, _⟩; omega
      simp [this]
  · have hs : lat.set! i v = lat := by
      simp [Array.set!, Array.setD, not_lt.2 h]
    rw [hs]
    have : ¬(j = i ∧ i < lat.size) := by rintro ⟨_, h2⟩; omega
    simp [this]

theorem val_wr_self (lat : Array Int) (i : Nat) (v : Int) (h : i < lat.size) :
    val (wr lat i v) i = v := by
  simp [val_wr, h]

theorem val_wr_other (lat : Array Int) (i : Nat) (v : Int) (j : Nat) (h : j ≠ i) :
    val (wr lat i v) j = val lat j := by
  simp [val_wr, h]

theorem val_mkArray (N : Nat) (v : Int) (i : Nat) :
    val (mkArray N v) i = if i < N then v else 0 := by
  unfold val Array.getD
  split
  case isTrue h =>
    simp only [Array.size_mkArray] at h
    simp [Array.get_eq_getElem, Array.getElem_mkArray, h]
  case isFalse h =>
    simp only [Array.size_mkArray] at h
    simp [if_neg h]

/-! ### C10: the occupation shuffle is a permutation -/

theorem permConstant_mul_lt_one (u : Nat) (hu : u ≤ 4294967294) :
    permConstant * (u : ℚ) < 1 := by
  have h1 : (u : ℚ) ≤ 4294967294 := by exact_mod_cast hu
  have h2 : (0 : ℚ) < permConstant := by norm_num [permConstant]
  calc permConstant * (u : ℚ) ≤ permConstant * 4294967294 := by
        exact mul_le_mul_of_nonneg_left h1 (le_of_lt h2)
    _ < 1 := by norm_num [permConstant]

theorem permIndex_ge (N i u : Nat) (hi : i ≤ N) : i ≤ permIndex N i u := by
  unfold permIndex
  have h0 : (0 : ℚ) ≤ ((N : ℚ) - (i : ℚ)) * permConstant * (u : ℚ) := by
    have h1 : (0 : ℚ) ≤ (N : ℚ) - (i : ℚ) := by
      have : (i : ℚ) ≤ (N : ℚ) := by exact_mod_cast hi
      linarith
    have h2 : (0 : ℚ) ≤ permConstant := by norm_num [permConstant]
    have h3 : (0 : ℚ) ≤ (u : ℚ) := by positivity
    exact mul_nonneg (mul_nonneg h1 h2) h3
  have : (i : ℤ) ≤ ⌊(i : ℚ) + ((N : ℚ) - (i : ℚ)) * permConstant * (u : ℚ)⌋ := by
    apply Int.le_floor.2
    push_cast
    linarith
  omega

theorem permIndex_lt (N i u : Nat) (hi : i < N) (hu : u ≤ 4294967294) :
    permIndex N i u < N := by
  unfold permIndex
  have hN : (i : ℚ) < (N : ℚ) := by exact_mod_cast hi
  have hcu : permConstant * (u : ℚ) < 1 := permConstant_mul_lt_one u hu
  have hcu0 : (0 : ℚ) ≤ permConstant * (u : ℚ) := by
    have : (0 : ℚ) ≤ permConstant := by norm_num [permConstant]
    positivity
  have hval : (i : ℚ) + ((N : ℚ) - (i : ℚ)) * permConstant * (u : ℚ) < (N : ℚ) := by
    have h1 : ((N : ℚ) - (i : ℚ)) * (permConstant * (u : ℚ)) < ((N : ℚ) - (i : ℚ)) * 1 := by
      apply mul_lt_mul_of_pos_left hcu
      linarith
    nlinarith
  have : ⌊(i : ℚ) + ((N : ℚ) - (i : ℚ)) * permConstant * (u : ℚ)⌋ < (N : ℤ) := by
    apply Int.floor_lt.2
    push_cast
    linarith
  omega

theorem get_cons_set_perm {α : Type _} (x : α) (xs : List α) (k : Nat)
    (hk : k < xs.length) : (xs.get ⟨k, hk⟩ :: xs.set k x).Perm (x :: xs) := by
  induction xs generalizing k with
  | nil => simp at hk
  | cons y ys ih =>
    cases k with
    | zero => simpa using List.Perm.swap x y ys
    | succ k =>
      have hk2 : k < ys.length := by simpa using hk
      simp only [List.get_cons_succ, List.set_cons_succ]
      exact (List.Perm.swap _ _ _).trans
        ((List.Perm.cons y (ih k hk2)).trans (List.Perm.swap _ _ _))

theorem set_set_swap_perm {α : Type _} (l : List α) (i j : Nat)
    (hi : i < l.length) (hj : j < l.length) :
    ((l.set i (l.get ⟨j, hj⟩)).set j (l.get ⟨i, hi⟩)).Perm l := by
  induction l generalizing i j with
  | nil => simp at hi
  | cons x xs ih =>
    cases i with
    | zero =>
      cases j with
      | zero => simp
      | succ k =>
        have hk : k < xs.length := by simpa using hj
        simpa using get_cons_set_perm x xs k hk
    | succ a =>
      cases j with
      | zero =>
        have ha : a < xs.length := by simpa using hi
        simpa using get_cons_set_perm x xs a ha
      | succ b =>
        have ha : a < xs.length := by simpa using hi
        have hb : b < xs.length := by simpa using hj
        simpa using List.Perm.cons x (ih a b ha hb)

theorem toList_set! {α : Type _} (a : Array α) (i : Nat) (v : α) :
    (a.set! i v).toList = if i < a.size then a.toList.set i v else a.toList := by
  unfold Array.set! Array.setD
  split
  case isTrue h => simp [Array.toList_set, h]
  case isFalse h => simp [h]

theorem getD_eq_toList_get {α : Type _} (a : Array α) (i : Nat) (d : α)
    (h : i < a.size) : a.getD i d = a.toList.get ⟨i, by simpa using h⟩ := by
  unfold Array.getD
  rw [dif_pos h]
  rfl

theorem swapArr_toList_perm (a : Array Nat) (i j : Nat)
    (hi : i < a.size) (hj : j < a.size) : (swapArr a i j).toList.Perm a.toList := by
  have hi2 : i < a.toList.length := by simpa using hi
  have hj2 : j < a.toList.length := by simpa using hj
  unfold swapArr
  rw [toList_set!, if_pos (show j < (a.set! i (a.getD j 0)).size by
    rw [Array.size_set!]; exact hj)]
  rw [toList_set!, if_pos hi]
  rw [getD_eq_toList_get a i 0 hi, getD_eq_toList_get a j 0 hj]
  exact set_set_swap_perm a.toList i j hi2 hj2

theorem swapArr_size (a : Array Nat) (i j : Nat) :
    (swapArr a i j).size = a.size := by
  simp [swapArr, Array.size_set!]

theorem permutation_toList_perm (N : Nat) (us : Nat → Nat)
    (hu : ∀ k, us k ≤ 4294967294) :
    (permutation N us).toList.Perm (List.range N) := by
  unfold permutation
  have main : ∀ (l : List Nat) (a : Array Nat), a.size = N → (∀ x ∈ l, x < N) →
      a.toList.Perm (List.range N) →
      ((l.foldl (fun a i => swapArr a i (permIndex N i (us i))) a).toList).Perm
        (List.range N) := by
    intro l
    induction l with
    | nil => intro a _ _ hp; simpa using hp
    | cons x xs ih =>
      intro a hsz hmem hp
      simp only [List.foldl_cons]
      apply ih
      · simp [swapArr_size, hsz]
      · intro y hy; exact hmem y (List.mem_cons_of_mem x hy)
      · have hx : x < N := hmem x (List.mem_cons_self x xs)
        have hidx : permIndex N x (us x) < N := permIndex_lt N x (us x) hx (hu x)
        exact (swapArr_toList_perm a x (permIndex N x (us x)) (by omega) (by omega)).trans hp
  apply main
  · simp
  · intro x hx; simpa using hx
  · simp

/-- C10: after `Permutation()` runs, the occupation array is a permutation of
`{0, ..., N-1}`: every swap index `j = i + (N-i) * 2.3283064e-10 * u`, for `u`
drawn from `[0, 4294967294]`, lies in `[i, N-1]` after truncation to an
integer, so each step swaps two in-range entries and no element is lost or
duplicated. -/
theorem permutation_is_permutation (N : Nat) (us : Nat → Nat)
    (hu : ∀ k, us k ≤ 4294967294) :
    (∀ i < N, i ≤ permIndex N i (us i) ∧ permIndex N i (us i) < N) ∧
    (permutation N us).toList.Perm (List.range N) :=
  ⟨fun i hi => ⟨permIndex_ge N i (us i) (Nat.le_of_lt hi),
      permIndex_lt N i (us i) hi (hu i)⟩,
   permutation_toList_perm N us hu⟩

theorem permutation_is_permutation_witness :
    (∀ k : Nat, (fun _ : Nat => 2025) k ≤ 4294967294) ∧
    ((∀ i < 5, i ≤ permIndex 5 i 2025 ∧ permIndex 5 i 2025 < 5) ∧
     (permutation 5 (fun _ => 2025)).toList.Perm (List.range 5)) :=
  ⟨fun _ => by norm_num,
   permutation_is_permutation 5 (fun _ => 2025) (fun _ => by norm_num)⟩

/-! ### Union-find chains: basic properties -/

theorem reachIn_bounds {N : Nat} {lat : Array Int} {d i r : Nat}
    (h : ReachIn N lat d i r) : i < N ∧ r < N := by
  induction h with
  | root i h1 _ _ => exact ⟨h1, h1⟩
  | step d i r h1 _ _ ih => exact ⟨h1, ih.2⟩

theorem reachIn_root_val {N : Nat} {lat : Array Int} {d i r : Nat}
    (h : ReachIn N lat d i r) : val lat r < 0 ∧ val lat r ≠ EMPTYval N := by
  induction h with
  | root i _ h2 h3 => exact ⟨h2, h3⟩
  | step _ _ _ _ _ _ ih => exact ih

theorem reachIn_head_occ {N : Nat} {lat : Array Int} {d i r : Nat}
    (h : ReachIn N lat d i r) : val lat i ≠ EMPTYval N := by
  cases h with
  | root i _ h2 h3 => exact h3
  | step d i r h1 h2 h3 =>
    intro he
    rw [he] at h2
    have : (0 : Int) ≤ -(N : Int) - 1 := by simpa [EMPTYval] using h2
    omega

theorem reachIn_from_root {N : Nat} {lat : Array Int} {d i r : Nat}
    (hneg : val lat i < 0) (h : ReachIn N lat d i r) : d = 0 ∧ r = i := by
  cases h with
  | root => exact ⟨rfl, rfl⟩
  | step d i r h1 h2 h3 => omega

theorem reachIn_det {N : Nat} {lat : Array Int} {d i r : Nat}
    (h : ReachIn N lat d i r) : ∀ {d' r'}, ReachIn N lat d' i r' → d = d' ∧ r = r' := by
  induction h with
  | root i h1 h2 h3 =>
    intro d' r' h'
    have := reachIn_from_root h2 h'
    omega
  | step d i r h1 h2 h3 ih =>
    intro d' r' h'
    cases h' with
    | root _ h1x h2x h3x => omega
    | step dx _ rx h1x h2x h3x =>
      have := ih h3x
      omega

theorem rootOf_unique {N : Nat} {lat : Array Int} {i r r' : Nat}
    (h : RootOf N lat i r) (h' : RootOf N lat i r') : r = r' := by
  obtain ⟨d, hd⟩ := h
  obtain ⟨d', hd'⟩ := h'
  exact (reachIn_det hd hd').2

theorem rootOf_of_root {N : Nat} {lat : Array Int} {r : Nat} (h1 : r < N)
    (h2 : val lat r < 0) (h3 : val lat r ≠ EMPTYval N) : RootOf N lat r r :=
  ⟨0, ReachIn.root r h1 h2 h3⟩

theorem rootOf_step {N : Nat} {lat : Array Int} {i r : Nat} (h1 : i < N)
    (h2 : 0 ≤ val lat i) (h : RootOf N lat (val lat i).toNat r) :
    RootOf N lat i r := by
  obtain ⟨d, hd⟩ := h
  exact ⟨d + 1, ReachIn.step d i r h1 h2 hd⟩

theorem reachIn_suffix_rootOf {N : Nat} {lat : Array Int} {d i r : Nat}
    (h : ReachIn N lat d i r) : RootOf N lat r r := by
  induction h with
  | root i h1 h2 h3 => exact rootOf_of_root h1 h2 h3
  | step _ _ _ _ _ _ ih => exact ih

theorem rootPure_eq {N : Nat} {lat : Array Int} (hsz : lat.size = N) {d i r : Nat}
    (h : ReachIn N lat d i r) : ∀ fuel, d < fuel → rootPure lat fuel i = some r := by
  induction h with
  | root i h1 h2 h3 =>
    intro fuel hf
    match fuel, hf with
    | f + 1, _ =>
      unfold rootPure
      rw [if_pos (by omega), if_pos h2]
  | step d i r h1 h2 h3 ih =>
    intro fuel hf
    match fuel, hf with
    | f + 1, _ =>
      unfold rootPure
      rw [if_pos (by omega), if_neg (by omega)]
      exact ih f (by omega)

theorem reachIn_transfer {N : Nat} {lat lat' : Array Int} {d i r : Nat}
    (h : ReachIn N lat d i r)
    (hsame : ∀ j, j < N → RootOf N lat j r → val lat' j = val lat j) :
    ReachIn N lat' d i r := by
  induction h with
  | root i h1 h2 h3 =>
    have hv := hsame i h1 (rootOf_of_root h1 h2 h3)
    exact ReachIn.root i h1 (by rw [hv]; exact h2) (by rw [hv]; exact h3)
  | step d i r h1 h2 h3 ih =>
    have hro : RootOf N lat i r := rootOf_step h1 h2 ⟨d, h3⟩
    have hv := hsame i h1 hro
    refine ReachIn.step d i r h1 (by rw [hv]; exact h2) ?_
    rw [hv]
    exact ih hsame

/-! ### Path compression (`FindRoot`) -/

theorem compRel_refl (N : Nat) (lat : Array Int) (r : Nat) : CompRel N lat lat r :=
  fun _ _ => Or.inl rfl

theorem compRel_val_of_neg {N : Nat} {lat lat' : Array Int} {r : Nat}
    (hc : CompRel N lat lat' r) {j : Nat} (hj : j < N) (hneg : val lat j < 0) :
    val lat' j = val lat j := by
  rcases hc j hj with h | ⟨h0, _, _, _⟩
  · exact h
  · omega

theorem compRel_reachIn_mono {N : Nat} {lat lat' : Array Int} {r : Nat}
    (hc : CompRel N lat lat' r) {d j s : Nat} (h : ReachIn N lat d j s) :
    ∃ d' ≤ d, ReachIn N lat' d' j s := by
  induction h with
  | root j h1 h2 h3 =>
    have hv := compRel_val_of_neg hc h1 h2
    exact ⟨0, le_refl 0, ReachIn.root j h1 (by rw [hv]; exact h2) (by rw [hv]; exact h3)⟩
  | step d j s h1 h2 h3 ih =>
    rcases hc j h1 with hsame | ⟨h0, hval, hne, hro⟩
    · obtain ⟨d', hle, hre⟩ := ih
      exact ⟨d' + 1, by omega,
        ReachIn.step d' j s h1 (by rw [hsame]; exact h2) (by rw [hsame]; exact hre)⟩
    · have hs : s = r := rootOf_unique ⟨d + 1, ReachIn.step d j s h1 h2 h3⟩ hro
      subst hs
      obtain ⟨dr, hdr⟩ := hro
      have hrneg := reachIn_root_val hdr
      have hrN : s < N := (reachIn_bounds hdr).2
      have hvr : val lat' s = val lat s := compRel_val_of_neg hc hrN hrneg.1
      refine ⟨1, by omega, ReachIn.step 0 j s h1 (by rw [hval]; positivity) ?_⟩
      have : (val lat' j).toNat = s := by rw [hval]; simp
      rw [this]
      exact ReachIn.root s hrN (by rw [hvr]; exact hrneg.1) (by rw [hvr]; exact hrneg.2)

theorem compRel_reachIn_rev {N : Nat} {lat lat' : Array Int} {r : Nat}
    (hc : CompRel N lat lat' r) {d j s : Nat} (h : ReachIn N lat' d j s) :
    RootOf N lat j s := by
  induction h with
  | root j h1 h2 h3 =>
    rcases hc j h1 with hsame | ⟨h0, hval, hne, hro⟩
    · exact rootOf_of_root h1 (by rw [← hsame]; exact h2) (by rw [← hsame]; exact h3)
    · rw [hval] at h2
      have : (0 : Int) ≤ (r : Int) := by positivity
      omega
  | step d j s h1 h2 h3 ih =>
    rcases hc j h1 with hsame | ⟨h0, hval, hne, hro⟩
    · rw [hsame] at h2 ih
      exact rootOf_step h1 (by omega) ih
    · -- the chain from j was redirected to the root `r`, whose chain in
      -- `lat'` stops immediately, so `s = r`
      obtain ⟨dr, hdr⟩ := hro
      have hrneg := reachIn_root_val hdr
      have hrN : s = r := by
        have hv' : (val lat' j).toNat = r := by rw [hval]; simp
        rw [hv'] at h3
        have hvr : val lat' r = val lat r :=
          compRel_val_of_neg hc (reachIn_bounds hdr).2 hrneg.1
        have := reachIn_from_root (by rw [hvr]; exact hrneg.1) h3
        omega
      rw [hrN]
      exact ⟨dr, hdr⟩

theorem compRel_rootOf_iff {N : Nat} {lat lat' : Array Int} {r : Nat}
    (hc : CompRel N lat lat' r) {j s : Nat} :
    RootOf N lat j s ↔ RootOf N lat' j s := by
  constructor
  · rintro ⟨d, hd⟩
    obtain ⟨d', _, hd'⟩ := compRel_reachIn_mono hc hd
    exact ⟨d', hd'⟩
  · rintro ⟨d, hd⟩
    exact compRel_reachIn_rev hc hd

theorem compRel_occ_iff {N : Nat} {lat lat' : Array Int} {r : Nat}
    (hc : CompRel N lat lat' r) {j : Nat} (hj : j < N) :
    val lat' j = EMPTYval N ↔ val lat j = EMPTYval N := by
  have hE : EMPTYval N < 0 := by unfold EMPTYval; omega
  rcases hc j hj with hsame | ⟨h0, hval, hne, hro⟩
  · rw [hsame]
  · constructor
    · intro h
      rw [hval] at h
      have : (0 : Int) ≤ (r : Int) := by positivity
      omega
    · intro h
      rw [h] at h0
      omega

theorem findRootC_spec {N : Nat} : ∀ (fuel : Nat) (lat : Array Int) (i d r : Nat),
    lat.size = N → ReachIn N lat d i r → d < fuel →
    ∃ lat', findRootC lat fuel i = some (lat', r) ∧ lat'.size = N ∧
      CompRel N lat lat' r := by
  intro fuel
  induction fuel with
  | zero => intro _ _ _ _ _ _ h; omega
  | succ f ih =>
    intro lat i d r hsz hre hf
    have hiN : i < N := (reachIn_bounds hre).1
    unfold findRootC
    rw [if_pos (by omega)]
    by_cases hneg : val lat i < 0
    · obtain ⟨hd0, hri⟩ := reachIn_from_root hneg hre
      rw [if_pos hneg]
      exact ⟨lat, by rw [hri], hsz, compRel_refl N lat r⟩
    · rw [if_neg hneg]
      cases hre with
      | root _ h1 h2 h3 => omega
      | step d i r h1 h2 h3 =>
        obtain ⟨lat2, heq, hsz2, hc⟩ := ih lat (val lat i).toNat d r hsz h3 (by omega)
        rw [heq]
        refine ⟨wr lat2 i (r : Int), rfl, by rw [size_wr]; exact hsz2, ?_⟩
        intro j hj
        by_cases hji : j = i
        · subst hji
          right
          have hrneg := reachIn_root_val h3
          refine ⟨h2, ?_, ?_, rootOf_step h1 h2 ⟨d, h3⟩⟩
          · rw [val_wr_self lat2 j (r : Int) (by omega)]
          · intro hjr
            rw [hjr] at hneg
            exact hneg hrneg.1
        · rw [val_wr_other lat2 i (r : Int) j hji]
          exact hc j hj

/-! ### The weighted-union attach step -/

theorem val_latAttach (lat : Array Int) (rw rl : Nat) (hw : rw < lat.size)
    (hl : rl < lat.size) (j : Nat) :
    val (latAttach lat rw rl) j =
      if j = rl then (rw : Int)
      else if j = rw then val lat rw + val lat rl else val lat j := by
  unfold latAttach
  rw [val_wr, val_wr]
  simp only [size_wr]
  by_cases hjl : j = rl
  · rw [if_pos ⟨hjl, hl⟩, if_pos hjl]
  · rw [if_neg (by rintro ⟨h, _⟩; exact hjl h), if_neg hjl]
    by_cases hjw : j = rw
    · rw [if_pos ⟨hjw, hw⟩, if_pos hjw]
    · rw [if_neg (by rintro ⟨h, _⟩; exact hjw h), if_neg hjw]

theorem size_latAttach (lat : Array Int) (rw rl : Nat) :
    (latAttach lat rw rl).size = lat.size := by
  simp [latAttach, size_wr]

theorem attach_reachIn_keep {N : Nat} {lat : Array Int} {rw rl : Nat}
    (hsz : lat.size = N) (hwN : rw < N) (hlN : rl < N)
    (hwneg : val lat rw < 0) (hlneg : val lat rl < 0)
    (hsumE : val lat rw + val lat rl ≠ EMPTYval N)
    {d i ρ : Nat} (h : ReachIn N lat d i ρ) (hρ : ρ ≠ rl) :
    ReachIn N (latAttach lat rw rl) d i ρ := by
  have hv : ∀ j, val (latAttach lat rw rl) j =
      if j = rl then (rw : Int)
      else if j = rw then val lat rw + val lat rl else val lat j :=
    fun j => val_latAttach lat rw rl (by omega) (by omega) j
  induction h with
  | root i h1 h2 h3 =>
    refine ReachIn.root i h1 ?_ ?_ <;> rw [hv i, if_neg hρ]
    · by_cases hiw : i = rw
      · rw [if_pos hiw]; omega
      · rw [if_neg hiw]; exact h2
    · by_cases hiw : i = rw
      · rw [if_pos hiw]; exact hsumE
      · rw [if_neg hiw]; exact h3
  | step d i ρ h1 h2 h3 ih =>
    have hiw : i ≠ rw := fun he => by rw [he] at h2; omega
    have hil : i ≠ rl := fun he => by rw [he] at h2; omega
    have hvi : val (latAttach lat rw rl) i = val lat i := by
      rw [hv i, if_neg hil, if_neg hiw]
    exact ReachIn.step d i ρ h1 (by rw [hvi]; exact h2) (by rw [hvi]; exact ih hρ)

theorem attach_reachIn_loser {N : Nat} {lat : Array Int} {rw rl : Nat}
    (hsz : lat.size = N) (hwN : rw < N) (hlN : rl < N) (hne : rw ≠ rl)
    (hwneg : val lat rw < 0) (hlneg : val lat rl < 0)
    (hsumE : val lat rw + val lat rl ≠ EMPTYval N)
    {d i : Nat} (h : ReachIn N lat d i rl) :
    ReachIn N (latAttach lat rw rl) (d + 1) i rw := by
  have hv : ∀ j, val (latAttach lat rw rl) j =
      if j = rl then (rw : Int)
      else if j = rw then val lat rw + val lat rl else val lat j :=
    fun j => val_latAttach lat rw rl (by omega) (by omega) j
  have hroot : ReachIn N (latAttach lat rw rl) 0 rw rw := by
    refine ReachIn.root rw hwN ?_ ?_ <;> rw [hv rw, if_neg hne, if_pos rfl]
    · omega
    · exact hsumE
  suffices H : ∀ d i x, ReachIn N lat d i x → x = rl →
      ReachIn N (latAttach lat rw rl) (d + 1) i rw from H d i rl h rfl
  intro d i x hre
  induction hre with
  | root i h1 h2 h3 =>
    intro hx
    have hvl : val (latAttach lat rw rl) i = (rw : Int) := by rw [hv i, if_pos hx]
    refine ReachIn.step 0 i rw h1 (by rw [hvl]; positivity) ?_
    rw [hvl]
    simpa using hroot
  | step d i ρ h1 h2 h3 ih =>
    intro hx
    have hiw : i ≠ rw := fun he => by rw [he] at h2; omega
    have hil : i ≠ rl := fun he => by rw [he] at h2; omega
    have hvi : val (latAttach lat rw rl) i = val lat i := by
      rw [hv i, if_neg hil, if_neg hiw]
    exact ReachIn.step (d + 1) i rw h1 (by rw [hvi]; exact h2)
      (by rw [hvi]; exact ih hx)

theorem attach_reachIn_rev {N : Nat} {lat : Array Int} {rw rl : Nat}
    (hsz : lat.size = N) (hwN : rw < N) (hlN : rl < N) (hne : rw ≠ rl)
    (hwneg : val lat rw < 0) (hwE : val lat rw ≠ EMPTYval N)
    (hlneg : val lat rl < 0) (hlE : val lat rl ≠ EMPTYval N)
    {d i ρ : Nat} (h : ReachIn N (latAttach lat rw rl) d i ρ) :
    (ρ ≠ rl ∧ RootOf N lat i ρ) ∨ (ρ = rw ∧ RootOf N lat i rl) := by
  have hv : ∀ j, val (latAttach lat rw rl) j =
      if j = rl then (rw : Int)
      else if j = rw then val lat rw + val lat rl else val lat j :=
    fun j => val_latAttach lat rw rl (by omega) (by omega) j
  induction h with
  | root i h1 h2 h3 =>
    have hil : i ≠ rl := by
      intro he
      rw [hv i, if_pos he] at h2
      have : (0 : Int) ≤ (rw : Int) := by positivity
      omega
    by_cases hiw : i = rw
    · exact Or.inl ⟨hil, hiw ▸ rootOf_of_root hwN hwneg hwE⟩
    · rw [hv i, if_neg hil, if_neg hiw] at h2 h3
      exact Or.inl ⟨hil, rootOf_of_root h1 h2 h3⟩
  | step d i ρ h1 h2 h3 ih =>
    by_cases hil : i = rl
    · -- the loser root now points at the winner, whose chain stops at once
      have hvi : val (latAttach lat rw rl) i = (rw : Int) := by rw [hv i, if_pos hil]
      have hpar : (val (latAttach lat rw rl) i).toNat = rw := by rw [hvi]; simp
      rw [hpar] at h3
      have hwroot : val (latAttach lat rw rl) rw < 0 := by
        rw [hv rw, if_neg hne, if_pos rfl]; omega
      have hρw := (reachIn_from_root hwroot h3).2
      exact Or.inr ⟨hρw, by rw [hil]; exact rootOf_of_root hlN hlneg hlE⟩
    · have hiw : i ≠ rw := by
        intro he
        rw [hv i, if_neg hil, if_pos he] at h2
        omega
      have hvi : val (latAttach lat rw rl) i = val lat i := by
        rw [hv i, if_neg hil, if_neg hiw]
      rcases ih with ⟨hρ, hro⟩ | ⟨hρ, hro⟩
      · rw [hvi] at h2 hro
        exact Or.inl ⟨hρ, rootOf_step h1 h2 hro⟩
      · rw [hvi] at h2 hro
        exact Or.inr ⟨hρ, rootOf_step h1 h2 hro⟩

/-! ### Invariant transfer lemmas -/

theorem rootOf_mem {N : Nat} {S : Finset Nat} {lat : Array Int}
    (huf : UFInv N S lat) {i r : Nat} (hi : i ∈ S) (h : RootOf N lat i r) :
    r ∈ S := by
  obtain ⟨d, hd⟩ := h
  have h1 := (reachIn_bounds hd).2
  have h2 := (reachIn_root_val hd).2
  exact (huf.occ_iff r).1 ⟨h1, h2⟩

theorem depth_fuel {N : Nat} {S : Finset Nat} {lat : Array Int}
    (huf : UFInv N S lat) {i : Nat} (hi : i ∈ S) :
    ∃ d r, ReachIn N lat d i r ∧ d < N := by
  obtain ⟨d, r, hre, hb⟩ := huf.depth i hi
  have hrS : r ∈ S := rootOf_mem huf hi ⟨d, hre⟩
  have hrneg := (reachIn_root_val hre).1
  have hge : -(N : Int) ≤ val lat r := by
    rcases huf.vals r hrS with ⟨h0, _⟩ | ⟨_, hge⟩
    · omega
    · exact hge
  have h2d : (2 : Int) ^ d ≤ (N : Int) := le_trans hb (by omega)
  have hdlt : (d : Int) < 2 ^ d := by exact_mod_cast Nat.lt_two_pow d
  have : (d : Int) < (N : Int) := lt_of_lt_of_le hdlt h2d
  exact ⟨d, r, hre, by exact_mod_cast this⟩

theorem members_congr {S : Finset Nat} {p q : Nat → Prop}
    (h : ∀ i ∈ S, p i ↔ q i) :
    {i : Nat | i ∈ S ∧ p i} = {i : Nat | i ∈ S ∧ q i} := by
  ext a
  simp only [Set.mem_setOf_eq]
  exact and_congr_right (h a)

theorem members_finite (S : Finset Nat) (p : Nat → Prop) :
    {i : Nat | i ∈ S ∧ p i}.Finite :=
  S.finite_toSet.subset (fun _ ha => ha.1)

theorem ufInv_compRel {N : Nat} {S : Finset Nat} {lat lat' : Array Int} {r0 : Nat}
    (huf : UFInv N S lat) (hc : CompRel N lat lat' r0) (hsz' : lat'.size = N) :
    UFInv N S lat' := by
  refine ⟨hsz', ?_, ?_, ?_, ?_⟩
  · intro i
    constructor
    · rintro ⟨h1, h2⟩
      exact (huf.occ_iff i).1 ⟨h1, fun he => h2 ((compRel_occ_iff hc h1).2 he)⟩
    · intro hi
      obtain ⟨h1, h2⟩ := (huf.occ_iff i).2 hi
      exact ⟨h1, fun he => h2 ((compRel_occ_iff hc h1).1 he)⟩
  · intro i hi
    have hiN : i < N := ((huf.occ_iff i).2 hi).1
    rcases hc i hiN with hsame | ⟨h0, hval, hne, hro⟩
    · rw [hsame]
      rcases huf.vals i hi with h | h
      · exact Or.inl h
      · exact Or.inr h
    · left
      rw [hval]
      refine ⟨by positivity, ?_⟩
      have : ((r0 : Int)).toNat = r0 := by simp
      rw [this]
      exact rootOf_mem huf hi hro
  · intro i hi
    obtain ⟨d, r, hre, hb⟩ := huf.depth i hi
    obtain ⟨d', hle, hre'⟩ := compRel_reachIn_mono hc hre
    have hrneg := (reachIn_root_val hre).1
    have hvr : val lat' r = val lat r :=
      compRel_val_of_neg hc (reachIn_bounds hre).2 hrneg
    refine ⟨d', r, hre', ?_⟩
    rw [hvr]
    calc (2 : Int) ^ d' ≤ 2 ^ d := by
          apply pow_le_pow_right₀ (by omega) hle
      _ ≤ -(val lat r) := hb
  · intro r hr hneg'
    have hrN : r < N := ((huf.occ_iff r).2 hr).1
    have hvr : val lat' r = val lat r := by
      rcases hc r hrN with hsame | ⟨h0, hval, _, _⟩
      · exact hsame
      · rw [hval] at hneg'
        have : (0 : Int) ≤ (r0 : Int) := by positivity
        omega
    have hcards : {i : Nat | i ∈ S ∧ RootOf N lat i r} =
        {i : Nat | i ∈ S ∧ RootOf N lat' i r} :=
      members_congr (fun i _ => compRel_rootOf_iff hc)
    rw [hvr]
    rw [hvr] at hneg'
    rw [huf.sizes r hr hneg', hcards]

theorem sum_sizes_le {N : Nat} {S : Finset Nat} {lat : Array Int}
    (huf : UFInv N S lat) {rw rl : Nat} (hwS : rw ∈ S) (hlS : rl ∈ S)
    (hne : rw ≠ rl) (hwneg : val lat rw < 0) (hlneg : val lat rl < 0) :
    -(val lat rw) + -(val lat rl) ≤ (N : Int) := by
  rw [huf.sizes rw hwS hwneg, huf.sizes rl hlS hlneg]
  have hdisj : Disjoint {i : Nat | i ∈ S ∧ RootOf N lat i rw}
      {i : Nat | i ∈ S ∧ RootOf N lat i rl} := by
    rw [Set.disjoint_left]
    rintro a ⟨_, h1⟩ ⟨_, h2⟩
    exact hne (rootOf_unique h1 h2)
  have hunion := Set.ncard_union_eq hdisj (members_finite S _) (members_finite S _)
  have hsub : {i : Nat | i ∈ S ∧ RootOf N lat i rw} ∪
      {i : Nat | i ∈ S ∧ RootOf N lat i rl} ⊆ (S : Set Nat) := by
    rintro a (⟨h, _⟩ | ⟨h, _⟩) <;> exact h
  have hle1 := Set.ncard_le_ncard hsub S.finite_toSet
  rw [hunion, Set.ncard_coe_Finset] at hle1
  have hSN : S.card ≤ N := by
    have : S ⊆ Finset.range N := by
      intro a ha
      exact Finset.mem_range.2 ((huf.occ_iff a).2 ha).1
    simpa using Finset.card_le_card this
  push_cast
  omega

theorem ufInv_attach {N : Nat} {S : Finset Nat} {lat : Array Int} {rw rl : Nat}
    (huf : UFInv N S lat) (hwS : rw ∈ S) (hlS : rl ∈ S) (hne : rw ≠ rl)
    (hwneg : val lat rw < 0) (hlneg : val lat rl < 0)
    (hle : val lat rw ≤ val lat rl) :
    UFInv N S (latAttach lat rw rl) ∧
    (∀ i ρ, RootOf N (latAttach lat rw rl) i ρ ↔
      ((ρ ≠ rl ∧ RootOf N lat i ρ) ∨ (ρ = rw ∧ RootOf N lat i rl))) ∧
    val (latAttach lat rw rl) rw = val lat rw + val lat rl ∧
    val (latAttach lat rw rl) rl = (rw : Int) := by
  have hwN : rw < N := ((huf.occ_iff rw).2 hwS).1
  have hlN : rl < N := ((huf.occ_iff rl).2 hlS).1
  have hwE : val lat rw ≠ EMPTYval N := ((huf.occ_iff rw).2 hwS).2
  have hlE : val lat rl ≠ EMPTYval N := ((huf.occ_iff rl).2 hlS).2
  have hEv : EMPTYval N = -(N : Int) - 1 := rfl
  have hsumN : -(val lat rw) + -(val lat rl) ≤ (N : Int) :=
    sum_sizes_le huf hwS hlS hne hwneg hlneg
  have hsumE : val lat rw + val lat rl ≠ EMPTYval N := by rw [hEv]; omega
  have hsz : lat.size = N := huf.size
  have hv : ∀ j, val (latAttach lat rw rl) j =
      if j = rl then (rw : Int)
      else if j = rw then val lat rw + val lat rl else val lat j :=
    fun j => val_latAttach lat rw rl (by omega) (by omega) j
  have hvw : val (latAttach lat rw rl) rw = val lat rw + val lat rl := by
    rw [hv rw, if_neg hne, if_pos rfl]
  have hvl : val (latAttach lat rw rl) rl = (rw : Int) := by
    rw [hv rl, if_pos rfl]
  have hiff : ∀ i ρ, RootOf N (latAttach lat rw rl) i ρ ↔
      ((ρ ≠ rl ∧ RootOf N lat i ρ) ∨ (ρ = rw ∧ RootOf N lat i rl)) := by
    intro i ρ
    constructor
    · rintro ⟨d, hd⟩
      exact attach_reachIn_rev hsz hwN hlN hne hwneg hwE hlneg hlE hd
    · rintro (⟨hρ, d, hd⟩ | ⟨hρ, d, hd⟩)
      · exact ⟨d, attach_reachIn_keep hsz hwN hlN hwneg hlneg hsumE hd hρ⟩
      · exact ⟨d + 1, hρ ▸ attach_reachIn_loser hsz hwN hlN hne hwneg hlneg hsumE hd⟩
  refine ⟨⟨by rw [size_latAttach]; exact hsz, ?_, ?_, ?_, ?_⟩, hiff, hvw, hvl⟩
  · -- occ_iff
    intro i
    by_cases hil : i = rl
    · subst hil
      simp only [occupiedP, hvl]
      constructor
      · intro _; exact hlS
      · intro _
        refine ⟨hlN, ?_⟩
        rw [hEv]
        have : (0 : Int) ≤ (rw : Int) := by positivity
        omega
    · by_cases hiw : i = rw
      · subst hiw
        simp only [occupiedP, hvw]
        constructor
        · intro _; exact hwS
        · intro _; exact ⟨hwN, hsumE⟩
      · have hvi : val (latAttach lat rw rl) i = val lat i := by
          rw [hv i, if_neg hil, if_neg hiw]
        simp only [occupiedP, hvi]
        exact huf.occ_iff i
  · -- vals
    intro i hi
    by_cases hil : i = rl
    · subst hil
      left
      rw [hvl]
      refine ⟨by positivity, ?_⟩
      have : ((rw : Int)).toNat = rw := by simp
      rw [this]
      exact hwS
    · by_cases hiw : i = rw
      · subst hiw
        right
        rw [hvw]
        constructor
        · omega
        · omega
      · have hvi : val (latAttach lat rw rl) i = val lat i := by
          rw [hv i, if_neg hil, if_neg hiw]
        rw [hvi]
        exact huf.vals i hi
  · -- depth
    intro i hi
    obtain ⟨d, ρ, hre, hb⟩ := huf.depth i hi
    by_cases hρl : ρ = rl
    · rw [hρl] at hre hb
      refine ⟨d + 1, rw, attach_reachIn_loser hsz hwN hlN hne hwneg hlneg hsumE hre, ?_⟩
      rw [hvw]
      have h2 : (2 : Int) ^ (d + 1) = 2 * 2 ^ d := by ring
      rw [h2]
      omega
    · refine ⟨d, ρ, attach_reachIn_keep hsz hwN hlN hwneg hlneg hsumE hre hρl, ?_⟩
      by_cases hρw : ρ = rw
      · rw [hρw, hvw]
        rw [hρw] at hb
        omega
      · rw [hv ρ, if_neg hρl, if_neg hρw]
        exact hb
  · -- sizes
    intro r hr hrneg3
    have hrl : r ≠ rl := by
      intro he
      rw [he, hvl] at hrneg3
      have : (0 : Int) ≤ (rw : Int) := by positivity
      omega
    by_cases hrw : r = rw
    · rw [hrw, hvw]
      have hset : {i : Nat | i ∈ S ∧ RootOf N (latAttach lat rw rl) i rw} =
          {i : Nat | i ∈ S ∧ RootOf N lat i rw} ∪
          {i : Nat | i ∈ S ∧ RootOf N lat i rl} := by
        ext a
        simp only [Set.mem_setOf_eq, Set.mem_union]
        constructor
        · rintro ⟨haS, hro⟩
          rcases (hiff a rw).1 hro with ⟨_, h⟩ | ⟨_, h⟩
          · exact Or.inl ⟨haS, h⟩
          · exact Or.inr ⟨haS, h⟩
        · rintro (⟨haS, h⟩ | ⟨haS, h⟩)
          · exact ⟨haS, (hiff a rw).2 (Or.inl ⟨hne, h⟩)⟩
          · exact ⟨haS, (hiff a rw).2 (Or.inr ⟨rfl, h⟩)⟩
      rw [hset]
      have hdisj : Disjoint {i : Nat | i ∈ S ∧ RootOf N lat i rw}
          {i : Nat | i ∈ S ∧ RootOf N lat i rl} := by
        rw [Set.disjoint_left]
        rintro a ⟨_, h1⟩ ⟨_, h2⟩
        exact hne (rootOf_unique h1 h2)
      rw [Set.ncard_union_eq hdisj (members_finite S _) (members_finite S _)]
      push_cast
      rw [← huf.sizes rw hwS hwneg, ← huf.sizes rl hlS hlneg]
      ring
    · have hvr : val (latAttach lat rw rl) r = val lat r := by
        rw [hv r, if_neg hrl, if_neg hrw]
      rw [hvr]
      rw [hvr] at hrneg3
      rw [huf.sizes r hr hrneg3]
      have hmem : {i : Nat | i ∈ S ∧ RootOf N (latAttach lat rw rl) i r} =
          {i : Nat | i ∈ S ∧ RootOf N lat i r} := by
        apply members_congr
        intro a _
        rw [hiff a r]
        constructor
        · rintro (⟨_, h⟩ | ⟨he, _⟩)
          · exact h
          · exact absurd he hrw
        · intro h
          exact Or.inl ⟨hrl, h⟩
      rw [hmem]

/-! ### Connectivity closure lemmas -/

theorem stepE_symm {k : Nat} {nnf : Nat → Nat → Nat} {S : Finset Nat} {a b : Nat}
    (h : stepE k nnf S a b) : stepE k nnf S b a := by
  obtain ⟨ha, hb, hadj⟩ := h
  exact ⟨hb, ha, hadj.symm⟩

theorem stepT_symm {k : Nat} {nnf : Nat → Nat → Nat} {S : Finset Nat} {s t a b : Nat}
    (h : stepT k nnf S s t a b) : stepT k nnf S s t b a := by
  rcases h with h | ⟨j, hj, hjS, hab⟩
  · exact Or.inl (stepE_symm h)
  · refine Or.inr ⟨j, hj, hjS, ?_⟩
    rcases hab with ⟨h1, h2⟩ | ⟨h1, h2⟩
    · exact Or.inr ⟨h2, h1⟩
    · exact Or.inl ⟨h2, h1⟩

theorem connT_symm {k : Nat} {nnf : Nat → Nat → Nat} {S : Finset Nat} {s t a b : Nat}
    (h : ConnT k nnf S s t a b) : ConnT k nnf S s t b a := by
  induction h with
  | refl => exact Relation.ReflTransGen.refl
  | tail _ hstep ih =>
    exact Relation.ReflTransGen.trans
      (Relation.ReflTransGen.single (stepT_symm hstep)) ih

theorem connT_mono {k : Nat} {nnf : Nat → Nat → Nat} {S : Finset Nat} {s t t' a b : Nat}
    (htt : t ≤ t') (h : ConnT k nnf S s t a b) : ConnT k nnf S s t' a b := by
  apply Relation.ReflTransGen.mono _ h
  intro x y hxy
  rcases hxy with h | ⟨j, hj, hjS, hab⟩
  · exact Or.inl h
  · exact Or.inr ⟨j, by omega, hjS, hab⟩

theorem connT_zero_iff {k : Nat} {nnf : Nat → Nat → Nat} {S : Finset Nat} {s a b : Nat} :
    ConnT k nnf S s 0 a b ↔ Relation.ReflTransGen (stepE k nnf S) a b := by
  constructor
  · intro h
    apply Relation.ReflTransGen.mono _ h
    intro x y hxy
    rcases hxy with h | ⟨j, hj, _, _⟩
    · exact h
    · omega
  · intro h
    apply Relation.ReflTransGen.mono _ h
    intro x y hxy
    exact Or.inl hxy

theorem connT_succ_of_not_mem {k : Nat} {nnf : Nat → Nat → Nat} {S : Finset Nat}
    {s t a b : Nat} (hs2 : nnf t s ∉ S) :
    ConnT k nnf S s (t + 1) a b ↔ ConnT k nnf S s t a b := by
  constructor
  · intro h
    apply Relation.ReflTransGen.mono _ h
    intro x y hxy
    rcases hxy with h | ⟨j, hj, hjS, hab⟩
    · exact Or.inl h
    · rcases Nat.lt_or_ge j t with hjt | hjt
      · exact Or.inr ⟨j, hjt, hjS, hab⟩
      · have : j = t := by omega
        rw [this] at hjS
        exact absurd hjS hs2
  · exact connT_mono (by omega)

theorem connT_succ_iff {k : Nat} {nnf : Nat → Nat → Nat} {S : Finset Nat}
    {s t a b : Nat} (hs2 : nnf t s ∈ S) :
    ConnT k nnf S s (t + 1) a b ↔ ConnT k nnf S s t a b ∨
      (ConnT k nnf S s t a s ∧ ConnT k nnf S s t (nnf t s) b) ∨
      (ConnT k nnf S s t a (nnf t s) ∧ ConnT k nnf S s t s b) := by
  constructor
  · intro h
    induction h with
    | refl => exact Or.inl Relation.ReflTransGen.refl
    | tail hcb hstep ih =>
      rename_i c b2
      rcases hstep with hold | ⟨j, hj, hjS, hab⟩
      · -- an old step `c → b2`
        rcases ih with ih | ⟨h1, h2⟩ | ⟨h1, h2⟩
        · exact Or.inl (ih.tail (Or.inl hold))
        · exact Or.inr (Or.inl ⟨h1, h2.tail (Or.inl hold)⟩)
        · exact Or.inr (Or.inr ⟨h1, h2.tail (Or.inl hold)⟩)
      · rcases Nat.lt_or_ge j t with hjt | hjt
        · -- an already-available edge
          rcases ih with ih | ⟨h1, h2⟩ | ⟨h1, h2⟩
          · exact Or.inl (ih.tail (Or.inr ⟨j, hjt, hjS, hab⟩))
          · exact Or.inr (Or.inl ⟨h1, h2.tail (Or.inr ⟨j, hjt, hjS, hab⟩)⟩)
          · exact Or.inr (Or.inr ⟨h1, h2.tail (Or.inr ⟨j, hjt, hjS, hab⟩)⟩)
        · -- the new edge (j = t)
          have hjt2 : j = t := by omega
          subst hjt2
          rcases hab with ⟨hc, hb2⟩ | ⟨hc, hb2⟩
          · -- c = s, b2 = nnf j s
            subst hc; subst hb2
            rcases ih with ih | ⟨h1, h2⟩ | ⟨h1, h2⟩
            · exact Or.inr (Or.inl ⟨ih, Relation.ReflTransGen.refl⟩)
            · exact Or.inr (Or.inl ⟨h1, Relation.ReflTransGen.refl⟩)
            · exact Or.inl h1
          · -- c = nnf j s, b2 = s
            subst hc; subst hb2
            rcases ih with ih | ⟨h1, h2⟩ | ⟨h1, h2⟩
            · exact Or.inr (Or.inr ⟨ih, Relation.ReflTransGen.refl⟩)
            · exact Or.inl h1
            · exact Or.inr (Or.inr ⟨h1, Relation.ReflTransGen.refl⟩)
  · intro h
    have hedge : ConnT k nnf S s (t + 1) s (nnf t s) :=
      Relation.ReflTransGen.single (Or.inr ⟨t, by omega, hs2, Or.inl ⟨rfl, rfl⟩⟩)
    rcases h with h | ⟨h1, h2⟩ | ⟨h1, h2⟩
    · exact connT_mono (by omega) h
    · exact ((connT_mono (by omega) h1).trans hedge).trans (connT_mono (by omega) h2)
    · exact ((connT_mono (by omega) h1).trans
        (connT_symm hedge)).trans (connT_mono (by omega) h2)

/-- After all `k` neighbours of `s` have been processed, `ConnT` coincides
with connectivity over the enlarged occupied set, provided the neighbour
relation is symmetric. -/
theorem connT_top_iff {N k : Nat} {nnf : Nat → Nat → Nat} {S : Finset Nat} {s : Nat}
    (hsym : ∀ a < N, ∀ j < k, ∃ j2 < k, nnf j2 (nnf j a) = a)
    (hSN : ∀ x ∈ S, x < N) (hsN : s < N) (hsS : s ∉ S) {a b : Nat} :
    ConnT k nnf S s k a b ↔ Conn k nnf (insert s S) a b := by
  constructor
  · intro h
    apply Relation.ReflTransGen.mono _ h
    intro x y hxy
    rcases hxy with ⟨hx, hy, hadj⟩ | ⟨j, hj, hjS, hab⟩
    · exact ⟨Finset.mem_insert_of_mem hx, Finset.mem_insert_of_mem hy, hadj⟩
    · rcases hab with ⟨hx, hy⟩ | ⟨hx, hy⟩
      · refine ⟨?_, ?_, Or.inl ⟨j, hj, ?_⟩⟩
        · rw [hx]; exact Finset.mem_insert_self s S
        · rw [hy]; exact Finset.mem_insert_of_mem hjS
        · rw [hx, hy]
      · refine ⟨?_, ?_, Or.inr ⟨j, hj, ?_⟩⟩
        · rw [hx]; exact Finset.mem_insert_of_mem hjS
        · rw [hy]; exact Finset.mem_insert_self s S
        · rw [hy, hx]
  · intro h
    induction h with
    | refl => exact Relation.ReflTransGen.refl
    | tail hcb hstep ih =>
      rename_i c b2
      obtain ⟨hc, hb2, hadj⟩ := hstep
      -- convert a step over `insert s S` into a `stepT` at `t = k`
      have hadj2 : adjE k nnf c b2 ∨ adjE k nnf b2 c := hadj
      rcases Finset.mem_insert.1 hc with hcs | hcS
      · rcases Finset.mem_insert.1 hb2 with hbs | hbS
        · -- both are `s`: a self loop, nothing to add
          rw [hcs] at ih
          rw [hbs]
          exact ih
        · -- edge from `s` to an old site
          have hx : ∃ j < k, nnf j s = b2 := by
            rcases hadj2 with ⟨j, hj, he⟩ | ⟨j, hj, he⟩
            · exact ⟨j, hj, by rw [← hcs]; exact he⟩
            · obtain ⟨j2, hj2, he2⟩ := hsym b2 (hSN b2 hbS) j hj
              rw [he] at he2
              exact ⟨j2, hj2, by rw [← hcs]; exact he2⟩
          obtain ⟨j, hj, he⟩ := hx
          exact ih.tail (Or.inr ⟨j, hj, by rw [he]; exact hbS, Or.inl ⟨hcs, he.symm⟩⟩)
      · rcases Finset.mem_insert.1 hb2 with hbs | hbS
        · -- edge from an old site to `s`
          have hx : ∃ j < k, nnf j s = c := by
            rcases hadj2 with ⟨j, hj, he⟩ | ⟨j, hj, he⟩
            · obtain ⟨j2, hj2, he2⟩ := hsym c (hSN c hcS) j hj
              rw [he] at he2
              exact ⟨j2, hj2, by rw [← hbs]; exact he2⟩
            · exact ⟨j, hj, by rw [← hbs]; exact he⟩
          obtain ⟨j, hj, he⟩ := hx
          exact ih.tail (Or.inr ⟨j, hj, by rw [he]; exact hcS, Or.inr ⟨he.symm, hbs⟩⟩)
        · exact ih.tail (Or.inl ⟨hcS, hbS, hadj2⟩)

/-! ### The neighbour loop of `Percolate` -/

theorem conn_union_helper {N k : Nat} {nnf : Nat → Nat → Nat} {S : Finset Nat}
    {s t : Nat} {lat2 lat3 : Array Int} {rw rl rs rρ : Nat}
    (conn2 : ∀ a ∈ insert s S, ∀ b ∈ insert s S, ConnT k nnf S s t a b ↔
      ∃ r, RootOf N lat2 a r ∧ RootOf N lat2 b r)
    (hiff3 : ∀ i ρ, RootOf N lat3 i ρ ↔
      ((ρ ≠ rl ∧ RootOf N lat2 i ρ) ∨ (ρ = rw ∧ RootOf N lat2 i rl)))
    (hs2S : nnf t s ∈ S)
    (hsr : RootOf N lat2 s rs) (hs2r : RootOf N lat2 (nnf t s) rρ)
    (hpair : (rs = rl ∧ rρ = rw) ∨ (rs = rw ∧ rρ = rl)) (hne : rw ≠ rl) :
    ∀ a ∈ insert s S, ∀ b ∈ insert s S, (ConnT k nnf S s (t + 1) a b ↔
      ∃ r, RootOf N lat3 a r ∧ RootOf N lat3 b r) := by
  have hs' : s ∈ insert s S := Finset.mem_insert_self s S
  have hs2' : nnf t s ∈ insert s S := Finset.mem_insert_of_mem hs2S
  have map23 : ∀ x r, RootOf N lat2 x r →
      RootOf N lat3 x (if r = rl then rw else r) := by
    intro x r h
    by_cases hr : r = rl
    · rw [if_pos hr]
      exact (hiff3 x rw).2 (Or.inr ⟨rfl, by rw [← hr]; exact h⟩)
    · rw [if_neg hr]
      exact (hiff3 x r).2 (Or.inl ⟨hr, h⟩)
  have shared3 : ∀ a b, (∃ r, RootOf N lat2 a r ∧ RootOf N lat2 b r) →
      ∃ r, RootOf N lat3 a r ∧ RootOf N lat3 b r := by
    rintro a b ⟨r, ha, hb⟩
    exact ⟨if r = rl then rw else r, map23 a r ha, map23 b r hb⟩
  have hsw : RootOf N lat3 s rw := by
    rcases hpair with ⟨h1, _⟩ | ⟨h1, _⟩
    · have := map23 s rs hsr
      rw [h1] at this
      simpa using this
    · have := map23 s rs hsr
      rw [h1, if_neg hne] at this
      exact this
  have hs2w : RootOf N lat3 (nnf t s) rw := by
    rcases hpair with ⟨_, h2⟩ | ⟨_, h2⟩
    · have := map23 (nnf t s) rρ hs2r
      rw [h2, if_neg hne] at this
      exact this
    · have := map23 (nnf t s) rρ hs2r
      rw [h2] at this
      simpa using this
  intro a ha b hb
  rw [connT_succ_iff hs2S]
  constructor
  · rintro (h | ⟨h1, h2⟩ | ⟨h1, h2⟩)
    · exact shared3 a b ((conn2 a ha b hb).1 h)
    · obtain ⟨r, har, hsr2⟩ := (conn2 a ha s hs').1 h1
      obtain ⟨r2, hs2r2, hbr⟩ := (conn2 (nnf t s) hs2' b hb).1 h2
      have hr : r = rs := rootOf_unique hsr2 hsr
      have hr2 : r2 = rρ := rootOf_unique hs2r2 hs2r
      refine ⟨rw, ?_, ?_⟩
      · rw [hr] at har
        rcases hpair with ⟨h1p, _⟩ | ⟨h1p, _⟩
        · have := map23 a rs har
          rw [h1p] at this
          simpa using this
        · have := map23 a rs har
          rw [h1p, if_neg hne] at this
          exact this
      · rw [hr2] at hbr
        rcases hpair with ⟨_, h2p⟩ | ⟨_, h2p⟩
        · have := map23 b rρ hbr
          rw [h2p, if_neg hne] at this
          exact this
        · have := map23 b rρ hbr
          rw [h2p] at this
          simpa using this
    · obtain ⟨r, har, hs2r2⟩ := (conn2 a ha (nnf t s) hs2').1 h1
      obtain ⟨r2, hsr2, hbr⟩ := (conn2 s hs' b hb).1 h2
      have hr : r = rρ := rootOf_unique hs2r2 hs2r
      have hr2 : r2 = rs := rootOf_unique hsr2 hsr
      refine ⟨rw, ?_, ?_⟩
      · rw [hr] at har
        rcases hpair with ⟨_, h2p⟩ | ⟨_, h2p⟩
        · have := map23 a rρ har
          rw [h2p, if_neg hne] at this
          exact this
        · have := map23 a rρ har
          rw [h2p] at this
          simpa using this
      · rw [hr2] at hbr
        rcases hpair with ⟨h1p, _⟩ | ⟨h1p, _⟩
        · have := map23 b rs hbr
          rw [h1p] at this
          simpa using this
        · have := map23 b rs hbr
          rw [h1p, if_neg hne] at this
          exact this
  · rintro ⟨r, ha3, hb3⟩
    have hconn_of_shared2 : ∀ x ∈ insert s S, ∀ y ∈ insert s S,
        (∃ ρ, RootOf N lat2 x ρ ∧ RootOf N lat2 y ρ) → ConnT k nnf S s t x y := by
      intro x hx y hy h
      exact (conn2 x hx y hy).2 h
    rcases (hiff3 a r).1 ha3 with ⟨hra, ha2⟩ | ⟨hra, ha2⟩
    · rcases (hiff3 b r).1 hb3 with ⟨hrb, hb2⟩ | ⟨hrb, hb2⟩
      · exact Or.inl (hconn_of_shared2 a ha b hb ⟨r, ha2, hb2⟩)
      · -- a has old root `r = rw`, b has old root `rl`
        rcases hpair with ⟨h1p, h2p⟩ | ⟨h1p, h2p⟩
        · -- s has root rl, s2 has root rw
          refine Or.inr (Or.inr ⟨?_, ?_⟩)
          · exact hconn_of_shared2 a ha (nnf t s) hs2'
              ⟨r, ha2, by rw [hrb, ← h2p]; exact hs2r⟩
          · exact hconn_of_shared2 s hs' b hb ⟨rl, by rw [← h1p]; exact hsr, hb2⟩
        · -- s has root rw, s2 has root rl
          refine Or.inr (Or.inl ⟨?_, ?_⟩)
          · exact hconn_of_shared2 a ha s hs' ⟨r, ha2, by rw [hrb, ← h1p]; exact hsr⟩
          · exact hconn_of_shared2 (nnf t s) hs2' b hb
              ⟨rl, by rw [← h2p]; exact hs2r, hb2⟩
    · rcases (hiff3 b r).1 hb3 with ⟨hrb, hb2⟩ | ⟨hrb, hb2⟩
      · -- a has old root `rl`, b has old root `r = rw`
        rcases hpair with ⟨h1p, h2p⟩ | ⟨h1p, h2p⟩
        · refine Or.inr (Or.inl ⟨?_, ?_⟩)
          · exact hconn_of_shared2 a ha s hs' ⟨rl, ha2, by rw [← h1p]; exact hsr⟩
          · exact hconn_of_shared2 (nnf t s) hs2' b hb
              ⟨r, by rw [hra, ← h2p]; exact hs2r, hb2⟩
        · refine Or.inr (Or.inr ⟨?_, ?_⟩)
          · exact hconn_of_shared2 a ha (nnf t s) hs2'
              ⟨rl, ha2, by rw [← h2p]; exact hs2r⟩
          · exact hconn_of_shared2 s hs' b hb ⟨r, by rw [hra, ← h1p]; exact hsr, hb2⟩
      · exact Or.inl (hconn_of_shared2 a ha b hb ⟨rl, ha2, hb2⟩)

theorem unionNbr_preserve {N k : Nat} {nnf : Nat → Nat → Nat} {S : Finset Nat}
    {s t : Nat} {lat : Array Int} {r1 : Nat} {big : Int}
    (hrange : ∀ a < N, ∀ j < k, nnf j a < N)
    (hsN : s < N) (htk : t < k)
    (hinv : StepInv N k nnf S s t lat r1) :
    ∃ lat2 r12 big2,
      unionNbr (EMPTYval N) (lat, r1, big) (nnf t s) = some (lat2, r12, big2) ∧
      StepInv N k nnf S s (t + 1) lat2 r12 := by
  have huf := hinv.uf
  have hsz : lat.size = N := huf.size
  have hs2N : nnf t s < N := hrange s hsN t htk
  rw [unionNbr]
  rw [if_pos (by omega : nnf t s < lat.size)]
  by_cases hocc : val lat (nnf t s) = EMPTYval N
  · rw [if_neg (not_not_intro hocc)]
    refine ⟨lat, r1, big, rfl, huf, hinv.r1root, ?_⟩
    have hs2S : nnf t s ∉ S := by
      intro hmem
      have : occupiedP N lat (nnf t s) :=
        (huf.occ_iff _).2 (Finset.mem_insert_of_mem hmem)
      exact this.2 hocc
    intro a ha b hb
    rw [connT_succ_of_not_mem hs2S]
    exact hinv.conn a ha b hb
  · rw [if_pos hocc]
    have hs2' : nnf t s ∈ insert s S := (huf.occ_iff _).1 ⟨hs2N, hocc⟩
    obtain ⟨d, ρ, hre, hdN⟩ := depth_fuel huf hs2'
    obtain ⟨lat2, heq, hsz2, hc⟩ :=
      findRootC_spec lat.size lat (nnf t s) d ρ hsz hre (by omega)
    rw [heq]
    dsimp only
    have huf2 := ufInv_compRel huf hc hsz2
    have hρroot2 : RootOf N lat2 (nnf t s) ρ := (compRel_rootOf_iff hc).1 ⟨d, hre⟩
    have hr1root2 : RootOf N lat2 s r1 := (compRel_rootOf_iff hc).1 hinv.r1root
    have conn2 : ∀ a ∈ insert s S, ∀ b ∈ insert s S, (ConnT k nnf S s t a b ↔
        ∃ r, RootOf N lat2 a r ∧ RootOf N lat2 b r) := by
      intro a ha b hb
      rw [hinv.conn a ha b hb]
      constructor
      · rintro ⟨r, h1, h2⟩
        exact ⟨r, (compRel_rootOf_iff hc).1 h1, (compRel_rootOf_iff hc).1 h2⟩
      · rintro ⟨r, h1, h2⟩
        exact ⟨r, (compRel_rootOf_iff hc).2 h1, (compRel_rootOf_iff hc).2 h2⟩
    by_cases hr2r1 : ρ ≠ r1
    · rw [if_pos hr2r1]
      have hs2s : nnf t s ≠ s := by
        intro he
        rw [he] at hρroot2
        exact hr2r1 (rootOf_unique hρroot2 hr1root2)
      have hs2S : nnf t s ∈ S := by
        rcases Finset.mem_insert.1 hs2' with h | h
        · exact absurd h hs2s
        · exact h
      have hρS' : ρ ∈ insert s S := rootOf_mem huf2 hs2' hρroot2
      have hr1S' : r1 ∈ insert s S :=
        rootOf_mem huf2 (Finset.mem_insert_self s S) hr1root2
      have hρneg : val lat2 ρ < 0 := by
        obtain ⟨dd, hdd⟩ := hρroot2
        exact (reachIn_root_val hdd).1
      have hr1neg : val lat2 r1 < 0 := by
        obtain ⟨dd, hdd⟩ := hr1root2
        exact (reachIn_root_val hdd).1
      by_cases hcmp : val lat2 r1 > val lat2 ρ
      · rw [if_pos hcmp]
        obtain ⟨uf3, hiff3, hvw3, hvl3⟩ :=
          ufInv_attach huf2 hρS' hr1S' hr2r1 hρneg hr1neg (by omega)
        refine ⟨_, _, _, rfl, uf3, ?_, ?_⟩
        · exact (hiff3 s ρ).2 (Or.inr ⟨rfl, hr1root2⟩)
        · exact conn_union_helper conn2 hiff3 hs2S hr1root2 hρroot2
            (Or.inl ⟨rfl, rfl⟩) hr2r1
      · rw [if_neg hcmp]
        have hner : r1 ≠ ρ := fun he => hr2r1 he.symm
        obtain ⟨uf3, hiff3, hvw3, hvl3⟩ :=
          ufInv_attach huf2 hr1S' hρS' hner hr1neg hρneg (by omega)
        refine ⟨_, _, _, rfl, uf3, ?_, ?_⟩
        · exact (hiff3 s r1).2 (Or.inl ⟨hner, hr1root2⟩)
        · exact conn_union_helper conn2 hiff3 hs2S hr1root2 hρroot2
            (Or.inr ⟨rfl, rfl⟩) hner
    · rw [if_neg hr2r1]
      have hρr1 : ρ = r1 := not_not.1 hr2r1
      refine ⟨lat2, r1, big, rfl, huf2, hr1root2, ?_⟩
      intro a ha b hb
      by_cases hs2S : nnf t s ∈ S
      · rw [connT_succ_iff hs2S]
        constructor
        · rintro (h | ⟨h1, h2⟩ | ⟨h1, h2⟩)
          · exact (conn2 a ha b hb).1 h
          · obtain ⟨r, har, hsr⟩ :=
              (conn2 a ha s (Finset.mem_insert_self s S)).1 h1
            obtain ⟨r2, hs2r, hbr⟩ :=
              (conn2 (nnf t s) hs2' b hb).1 h2
            have e1 : r = r1 := rootOf_unique hsr hr1root2
            have e2 : r2 = r1 := by
              rw [← hρr1]
              exact rootOf_unique hs2r hρroot2
            exact ⟨r1, by rw [← e1]; exact har, by rw [← e2]; exact hbr⟩
          · obtain ⟨r, har, hs2r⟩ :=
              (conn2 a ha (nnf t s) hs2').1 h1
            obtain ⟨r2, hsr, hbr⟩ :=
              (conn2 s (Finset.mem_insert_self s S) b hb).1 h2
            have e1 : r = r1 := by
              rw [← hρr1]
              exact rootOf_unique hs2r hρroot2
            have e2 : r2 = r1 := rootOf_unique hsr hr1root2
            exact ⟨r1, by rw [← e1]; exact har, by rw [← e2]; exact hbr⟩
        · intro h
          exact Or.inl ((conn2 a ha b hb).2 h)
      · rw [connT_succ_of_not_mem hs2S]
        exact conn2 a ha b hb

theorem rtg_stepE_symm {k : Nat} {nnf : Nat → Nat → Nat} {S : Finset Nat}
    {a b : Nat} (h : Relation.ReflTransGen (stepE k nnf S) a b) :
    Relation.ReflTransGen (stepE k nnf S) b a := by
  induction h with
  | refl => exact Relation.ReflTransGen.refl
  | tail _ hstep ih =>
    exact Relation.ReflTransGen.trans
      (Relation.ReflTransGen.single (stepE_symm hstep)) ih

theorem stepInv_init {N k : Nat} {nnf : Nat → Nat → Nat} {S : Finset Nat}
    {s : Nat} {lat : Array Int}
    (hinv : Inv N k nnf S lat) (hsN : s < N) (hsS : s ∉ S) :
    StepInv N k nnf S s 0 (wr lat s (-1)) s := by
  have huf := hinv.toUFInv
  have hsz : lat.size = N := huf.size
  have hE : EMPTYval N = -(N : Int) - 1 := rfl
  have hvs : val (wr lat s (-1)) s = -1 := val_wr_self lat s (-1) (by omega)
  have hvo : ∀ j, j ≠ s → val (wr lat s (-1)) j = val lat j :=
    fun j hj => val_wr_other lat s (-1) j hj
  have hmemS : ∀ i ∈ S, i ≠ s := fun i hi he => hsS (he ▸ hi)
  have htransfer : ∀ i ∈ S, ∀ r, RootOf N lat i r → RootOf N (wr lat s (-1)) i r := by
    rintro i hi r ⟨d, hd⟩
    refine ⟨d, reachIn_transfer hd ?_⟩
    intro j hjN hro
    apply hvo
    apply hmemS
    obtain ⟨dj, hdj⟩ := hro
    exact (huf.occ_iff j).1 ⟨hjN, reachIn_head_occ hdj⟩
  have hroots : RootOf N (wr lat s (-1)) s s := by
    refine rootOf_of_root (by omega) (by rw [hvs]; omega) (by rw [hvs, hE]; omega)
  have hold_root : ∀ i ∈ S, ∀ r, RootOf N (wr lat s (-1)) i r →
      RootOf N lat i r ∧ r ∈ S := by
    intro i hi r hro
    obtain ⟨d0, r0, hre0, _⟩ := huf.depth i hi
    have h1 : RootOf N (wr lat s (-1)) i r0 := htransfer i hi r0 ⟨d0, hre0⟩
    have : r = r0 := rootOf_unique hro h1
    rw [this]
    exact ⟨⟨d0, hre0⟩, rootOf_mem huf hi ⟨d0, hre0⟩⟩
  refine ⟨⟨by rw [size_wr]; exact hsz, ?_, ?_, ?_, ?_⟩, hroots, ?_⟩
  · -- occ_iff
    intro i
    by_cases his : i = s
    · rw [his]
      simp only [occupiedP, hvs]
      constructor
      · intro _; exact Finset.mem_insert_self s S
      · intro _
        refine ⟨hsN, ?_⟩
        rw [hE]
        omega
    · simp only [occupiedP, hvo i his]
      rw [Finset.mem_insert]
      constructor
      · intro h; exact Or.inr ((huf.occ_iff i).1 h)
      · rintro (h | h)
        · exact absurd h his
        · exact (huf.occ_iff i).2 h
  · -- vals
    intro i hi
    rcases Finset.mem_insert.1 hi with his | hiS
    · rw [his, hvs]
      right
      constructor
      · omega
      · omega
    · have his := hmemS i hiS
      rw [hvo i his]
      rcases huf.vals i hiS with ⟨h0, hmem⟩ | h
      · exact Or.inl ⟨h0, Finset.mem_insert_of_mem hmem⟩
      · exact Or.inr h
  · -- depth
    intro i hi
    rcases Finset.mem_insert.1 hi with his | hiS
    · refine ⟨0, s, ?_, ?_⟩
      · rw [his]
        obtain ⟨d, hd⟩ := hroots
        cases hd with
        | root _ h1 h2 h3 => exact ReachIn.root s h1 h2 h3
        | step _ _ _ h1 h2 h3 => rw [hvs] at h2; omega
      · rw [hvs]
        norm_num
    · obtain ⟨d, r, hre, hb⟩ := huf.depth i hiS
      obtain ⟨d2, hre2⟩ := htransfer i hiS r ⟨d, hre⟩
      have hrS : r ∈ S := rootOf_mem huf hiS ⟨d, hre⟩
      have hvr : val (wr lat s (-1)) r = val lat r := hvo r (hmemS r hrS)
      -- the transferred chain has the same length by determinism
      have hdd : d2 = d ∧ r = r := by
        have hre3 := reachIn_transfer hre (fun j hjN hro => by
          apply hvo
          apply hmemS
          obtain ⟨dj, hdj⟩ := hro
          exact (huf.occ_iff j).1 ⟨hjN, reachIn_head_occ hdj⟩)
        exact ⟨(reachIn_det hre2 hre3).1, rfl⟩
      refine ⟨d, r, ?_, by rw [hvr]; exact hb⟩
      rw [← hdd.1]
      exact hre2
  · -- sizes
    intro r hr hneg
    rcases Finset.mem_insert.1 hr with hrs | hrS
    · -- the new singleton root
      rw [hrs, hvs]
      have hset : {i : Nat | i ∈ insert s S ∧ RootOf N (wr lat s (-1)) i s} = {s} := by
        ext a
        simp only [Set.mem_setOf_eq, Set.mem_singleton_iff, Finset.mem_insert]
        constructor
        · rintro ⟨has | haS, hro⟩
          · exact has
          · obtain ⟨hro2, hrS⟩ := hold_root a haS s hro
            exact absurd hrS hsS
        · intro ha
          exact ⟨Or.inl ha, by rw [ha]; exact hroots⟩
      rw [hset]
      simp
    · -- an old root
      have hrs := hmemS r hrS
      rw [hvo r hrs]
      rw [hvo r hrs] at hneg
      rw [huf.sizes r hrS hneg]
      congr 1
      have hset : {i : Nat | i ∈ insert s S ∧ RootOf N (wr lat s (-1)) i r} =
          {i : Nat | i ∈ S ∧ RootOf N lat i r} := by
        ext a
        simp only [Set.mem_setOf_eq, Finset.mem_insert]
        constructor
        · rintro ⟨has | haS, hro⟩
          · rw [has] at hro
            have : r = s := rootOf_unique hro hroots
            exact absurd (this ▸ hrS) hsS
          · exact ⟨haS, (hold_root a haS r hro).1⟩
        · rintro ⟨haS, hro⟩
          exact ⟨Or.inr haS, htransfer a haS r hro⟩
      rw [hset]
  · -- conn at t = 0
    intro a ha b hb
    rw [connT_zero_iff]
    have hnot_from_s : ∀ x, x ∈ S →
        ¬ Relation.ReflTransGen (stepE k nnf S) s x := by
      intro x hx h
      rcases Relation.ReflTransGen.cases_head h with he | ⟨c, hstep, _⟩
      · exact hsS (he ▸ hx)
      · exact hsS hstep.1
    rcases Finset.mem_insert.1 ha with has | haS
    · rcases Finset.mem_insert.1 hb with hbs | hbS
      · rw [has, hbs]
        constructor
        · intro _; exact ⟨s, hroots, hroots⟩
        · intro _; exact Relation.ReflTransGen.refl
      · rw [has]
        constructor
        · intro h; exact absurd h (hnot_from_s b hbS)
        · rintro ⟨r, hsr, hbr⟩
          have : r = s := rootOf_unique hsr hroots
          rw [this] at hbr
          obtain ⟨_, hmem⟩ := hold_root b hbS s hbr
          exact absurd hmem hsS
    · rcases Finset.mem_insert.1 hb with hbs | hbS
      · rw [hbs]
        constructor
        · intro h
          exact absurd (rtg_stepE_symm h) (hnot_from_s a haS)
        · rintro ⟨r, har, hsr⟩
          have : r = s := rootOf_unique hsr hroots
          rw [this] at har
          obtain ⟨_, hmem⟩ := hold_root a haS s har
          exact absurd hmem hsS
      · have hciff := hinv.conn a haS b hbS
        unfold Conn at hciff
        rw [hciff]
        constructor
        · rintro ⟨r, h1, h2⟩
          exact ⟨r, htransfer a haS r h1, htransfer b hbS r h2⟩
        · rintro ⟨r, h1, h2⟩
          exact ⟨r, (hold_root a haS r h1).1, (hold_root b hbS r h2).1⟩

theorem fold_union {N k : Nat} {nnf : Nat → Nat → Nat} {S : Finset Nat} {s : Nat}
    (hrange : ∀ a < N, ∀ j < k, nnf j a < N) (hsN : s < N) :
    ∀ (ts t : Nat), t + ts = k → ∀ (lat : Array Int) (r1 : Nat) (big : Int),
      StepInv N k nnf S s t lat r1 →
      ∃ lat2 r12 big2,
        ((List.range' t ts).foldlM
          (fun q j => unionNbr (EMPTYval N) q (nnf j s)) (lat, r1, big)) =
            some (lat2, r12, big2) ∧
        StepInv N k nnf S s k lat2 r12 := by
  intro ts
  induction ts with
  | zero =>
    intro t ht lat r1 big hinv
    have ht2 : t = k := by omega
    subst ht2
    exact ⟨lat, r1, big, by simp [List.range'], hinv⟩
  | succ m ih =>
    intro t ht lat r1 big hinv
    obtain ⟨lat2, r12, big2, heq, hinv2⟩ :=
      @unionNbr_preserve N k nnf S s t lat r1 big hrange hsN (by omega) hinv
    rw [List.range'_succ]
    refine ?_
    have hfold : ((t :: List.range' (t + 1) m).foldlM
        (fun q j => unionNbr (EMPTYval N) q (nnf j s)) (lat, r1, big)) =
        (unionNbr (EMPTYval N) (lat, r1, big) (nnf t s)).bind
          (fun q => (List.range' (t + 1) m).foldlM
            (fun q j => unionNbr (EMPTYval N) q (nnf j s)) q) := by
      simp [List.foldlM_cons]
    rw [hfold, heq]
    exact ih (t + 1) (by omega) lat2 r12 big2 hinv2

theorem occupySite_preserve {N k : Nat} {nnf : Nat → Nat → Nat} {S : Finset Nat}
    {s : Nat} {lat : Array Int} {big : Int}
    (hsym : ∀ a < N, ∀ j < k, ∃ j2 < k, nnf j2 (nnf j a) = a)
    (hrange : ∀ a < N, ∀ j < k, nnf j a < N)
    (hinv : Inv N k nnf S lat) (hsN : s < N) (hsS : s ∉ S) :
    ∃ lat2 big2, occupySite (EMPTYval N) k nnf (lat, big) s = some (lat2, big2) ∧
      Inv N k nnf (insert s S) lat2 := by
  have hsz : lat.size = N := hinv.size
  rw [occupySite]
  rw [if_pos (by omega : s < lat.size)]
  have hinit := stepInv_init hinv hsN hsS
  obtain ⟨lat2, r12, big2, heq, hfin⟩ :=
    fold_union hrange hsN k 0 (by omega) (wr lat s (-1)) s big hinit
  rw [List.range_eq_range', heq]
  refine ⟨lat2, big2, rfl, hfin.uf, ?_⟩
  intro a ha b hb
  have hSN : ∀ x ∈ S, x < N := fun x hx => ((hinv.occ_iff x).2 hx).1
  rw [← connT_top_iff hsym hSN hsN hsS]
  exact hfin.conn a ha b hb

theorem inv_empty (N k : Nat) (nnf : Nat → Nat → Nat) :
    Inv N k nnf ∅ (mkArray N (EMPTYval N)) := by
  have hval : ∀ i, i < N → val (mkArray N (EMPTYval N)) i = EMPTYval N := by
    intro i hi
    rw [val_mkArray, if_pos hi]
  refine ⟨⟨by simp, ?_, ?_, ?_, ?_⟩, ?_⟩
  · intro i
    simp only [Finset.not_mem_empty, iff_false]
    rintro ⟨h1, h2⟩
    exact h2 (hval i h1)
  · intro i hi
    exact absurd hi (Finset.not_mem_empty i)
  · intro i hi
    exact absurd hi (Finset.not_mem_empty i)
  · intro r hr
    exact absurd hr (Finset.not_mem_empty r)
  · intro a ha
    exact absurd ha (Finset.not_mem_empty a)

theorem percolateList_fold {N k : Nat} {nnf : Nat → Nat → Nat}
    (hsym : ∀ a < N, ∀ j < k, ∃ j2 < k, nnf j2 (nnf j a) = a)
    (hrange : ∀ a < N, ∀ j < k, nnf j a < N) :
    ∀ (sites : List Nat) (S : Finset Nat) (lat : Array Int) (big : Int),
      Inv N k nnf S lat → (∀ x ∈ sites, x < N) → sites.Nodup →
      (∀ x ∈ sites, x ∉ S) →
      ∃ lat2 big2,
        (sites.foldlM (occupySite (EMPTYval N) k nnf) (lat, big)) =
          some (lat2, big2) ∧
        Inv N k nnf (S ∪ sites.toFinset) lat2 := by
  intro sites
  induction sites with
  | nil =>
    intro S lat big hinv _ _ _
    refine ⟨lat, big, by simp, ?_⟩
    simpa using hinv
  | cons x xs ih =>
    intro S lat big hinv hmem hnd hdisj
    obtain ⟨lat2, big2, heq, hinv2⟩ :=
      @occupySite_preserve N k nnf S x lat big hsym hrange hinv
        (hmem x (List.mem_cons_self x xs)) (hdisj x (List.mem_cons_self x xs))
    have hx_not_xs : x ∉ xs := (List.nodup_cons.1 hnd).1
    obtain ⟨lat3, big3, heq3, hinv3⟩ := ih (insert x S) lat2 big2 hinv2
      (fun y hy => hmem y (List.mem_cons_of_mem x hy))
      (List.nodup_cons.1 hnd).2
      (fun y hy hins => by
        rcases Finset.mem_insert.1 hins with h | h
        · exact hx_not_xs (h ▸ hy)
        · exact hdisj y (List.mem_cons_of_mem x hy) h)
    refine ⟨lat3, big3, ?_, ?_⟩
    · rw [List.foldlM_cons, heq]
      simpa using heq3
    · have hset : insert x S ∪ xs.toFinset = S ∪ (x :: xs).toFinset := by
        rw [List.toFinset_cons]
        rw [Finset.insert_union, Finset.union_insert]
      rw [← hset]
      exact hinv3

theorem percolateList_some_inv {N k : Nat} {nnf : Nat → Nat → Nat}
    (hsym : ∀ a < N, ∀ j < k, ∃ j2 < k, nnf j2 (nnf j a) = a)
    (hrange : ∀ a < N, ∀ j < k, nnf j a < N)
    (sites : List Nat) (hmem : ∀ x ∈ sites, x < N) (hnd : sites.Nodup) :
    ∃ lat, percolateList N k nnf sites = some lat ∧
      Inv N k nnf sites.toFinset lat := by
  obtain ⟨lat2, big2, heq, hinv⟩ :=
    percolateList_fold hsym hrange sites ∅ (mkArray N (EMPTYval N)) 0
      (inv_empty N k nnf) hmem hnd (fun x _ => Finset.not_mem_empty x)
  refine ⟨lat2, ?_, by simpa using hinv⟩
  rw [percolateList, heq]
  rfl

theorem inv_rootD {N k : Nat} {nnf : Nat → Nat → Nat} {S : Finset Nat}
    {lat : Array Int} (hinv : Inv N k nnf S lat) {i : Nat} (hi : i ∈ S) :
    ∃ r, rootD lat i = some r ∧ RootOf N lat i r := by
  obtain ⟨d, r, hre, hdN⟩ := depth_fuel hinv.toUFInv hi
  obtain ⟨lat2, heq, _, _⟩ :=
    findRootC_spec lat.size lat i d r hinv.size hre (by rw [hinv.size]; omega)
  exact ⟨r, by rw [rootD, heq]; rfl, ⟨d, hre⟩⟩

theorem occ_finset_eq {N k : Nat} {nnf : Nat → Nat → Nat} {S : Finset Nat}
    {lat : Array Int} (hinv : Inv N k nnf S lat) :
    (Finset.range N).filter (fun i => val lat i ≠ EMPTYval N) = S := by
  ext i
  rw [Finset.mem_filter, Finset.mem_range]
  rw [← hinv.occ_iff i]
  rfl

theorem numOccupied_eq_card {N k : Nat} {nnf : Nat → Nat → Nat} {S : Finset Nat}
    {lat : Array Int} (hinv : Inv N k nnf S lat) :
    numOccupied N lat = S.card := by
  rw [← occ_finset_eq hinv]
  rfl

theorem inv_sum_sizes {N k : Nat} {nnf : Nat → Nat → Nat} {S : Finset Nat}
    {lat : Array Int} (hinv : Inv N k nnf S lat) :
    (∑ r ∈ (Finset.range N).filter
        (fun r => val lat r ≠ EMPTYval N ∧ val lat r < 0),
      (-(val lat r)).toNat) = numOccupied N lat := by
  classical
  have huf := hinv.toUFInv
  set roots := (Finset.range N).filter
    (fun r => val lat r ≠ EMPTYval N ∧ val lat r < 0) with hroots_def
  have hfib : S.card = ∑ r ∈ roots,
      (S.filter (fun i => (rootPure lat N i).getD 0 = r)).card := by
    apply Finset.card_eq_sum_card_fiberwise
    intro x hx
    obtain ⟨d, r, hre, hdN⟩ := depth_fuel huf hx
    have hrp := rootPure_eq huf.size hre N hdN
    rw [hroots_def, Finset.mem_filter, Finset.mem_range]
    rw [hrp]
    have hrv := reachIn_root_val hre
    exact ⟨(reachIn_bounds hre).2, hrv.2, hrv.1⟩
  have hterm : ∀ r ∈ roots,
      (S.filter (fun i => (rootPure lat N i).getD 0 = r)).card =
        (-(val lat r)).toNat := by
    intro r hr
    rw [hroots_def, Finset.mem_filter, Finset.mem_range] at hr
    obtain ⟨hrN, hrE, hrneg⟩ := hr
    have hrS : r ∈ S := (huf.occ_iff r).1 ⟨hrN, hrE⟩
    have hsz := huf.sizes r hrS hrneg
    have hset : {i : Nat | i ∈ S ∧ RootOf N lat i r} =
        ((S.filter (fun i => (rootPure lat N i).getD 0 = r)) : Set Nat) := by
      ext i
      simp only [Set.mem_setOf_eq, Finset.coe_filter]
      constructor
      · rintro ⟨hiS, d, hd⟩
        obtain ⟨d2, r2, hre2, hdN2⟩ := depth_fuel huf hiS
        have : d = d2 ∧ r = r2 := reachIn_det hd hre2
        refine ⟨hiS, ?_⟩
        rw [rootPure_eq huf.size hd N (by omega)]
        rfl
      · rintro ⟨hiS, hrp⟩
        obtain ⟨d2, r2, hre2, hdN2⟩ := depth_fuel huf hiS
        have := rootPure_eq huf.size hre2 N hdN2
        rw [this] at hrp
        simp only [Option.getD_some] at hrp
        exact ⟨hiS, ⟨d2, hrp ▸ hre2⟩⟩
    rw [hset, Set.ncard_coe_Finset] at hsz
    omega
  rw [numOccupied_eq_card hinv, hfib]
  exact (Finset.sum_congr rfl hterm).symm

/-- C1: after `Percolate()` runs, for every site `i`, `lattice(i)` is either
`EMPTY` (`= -N-1`) or encodes a valid union-find tree over occupied sites:
every occupied site's pointer chain reaches a root (a site with negative
stored value) within `N` hops, the sum of the magnitudes of the root values
over all roots equals the number of occupied sites, and two occupied sites
are connected through occupied neighbours iff `FindRoot` gives them the same
root. -/
theorem percolate_union_find (N k : Nat) (nnf : Nat → Nat → Nat) (q : ℚ)
    (occf : Nat → Nat)
    (hsym : ∀ a < N, ∀ j < k, ∃ j2 < k, nnf j2 (nnf j a) = a)
    (hrange : ∀ a < N, ∀ j < k, nnf j a < N)
    (hcount : nSites q N ≤ N)
    (hoccr : ∀ i < N, occf i < N)
    (hinj : ∀ i < N, ∀ j < N, occf i = occf j → i = j) :
    ∃ lat, percolate q N k nnf occf = some lat ∧ lat.size = N ∧
      (∀ i < N, val lat i = EMPTYval N ∨
        (∃ r d, d ≤ N ∧ ReachIn N lat d i r ∧ val lat r < 0)) ∧
      ((∑ r ∈ (Finset.range N).filter
          (fun r => val lat r ≠ EMPTYval N ∧ val lat r < 0),
        (-(val lat r)).toNat) = numOccupied N lat) ∧
      (∀ a b, occupiedP N lat a → occupiedP N lat b →
        (Conn k nnf ((Finset.range N).filter
            (fun i => val lat i ≠ EMPTYval N)) a b ↔
          (∃ r, rootD lat a = some r ∧ rootD lat b = some r))) := by
  have hmem : ∀ x ∈ (List.range (nSites q N)).map occf, x < N := by
    intro x hx
    obtain ⟨i, hi, he⟩ := List.mem_map.1 hx
    rw [← he]
    exact hoccr i (by have := List.mem_range.1 hi; omega)
  have hnd : ((List.range (nSites q N)).map occf).Nodup := by
    refine List.Nodup.map_on ?_ (List.nodup_range _)
    intro x hx y hy hxy
    exact hinj x (by have := List.mem_range.1 hx; omega)
      y (by have := List.mem_range.1 hy; omega) hxy
  obtain ⟨lat, heq, hinv⟩ := percolateList_some_inv hsym hrange _ hmem hnd
  refine ⟨lat, heq, hinv.size, ?_, inv_sum_sizes hinv, ?_⟩
  · intro i hiN
    by_cases hocc : val lat i = EMPTYval N
    · exact Or.inl hocc
    · right
      have hiS := (hinv.occ_iff i).1 ⟨hiN, hocc⟩
      obtain ⟨d, r, hre, hdN⟩ := depth_fuel hinv.toUFInv hiS
      exact ⟨r, d, by omega, hre, (reachIn_root_val hre).1⟩
  · intro a b ha hb
    rw [occ_finset_eq hinv]
    have haS := (hinv.occ_iff a).1 ha
    have hbS := (hinv.occ_iff b).1 hb
    rw [hinv.conn a haS b hbS]
    constructor
    · rintro ⟨r, hra, hrb⟩
      obtain ⟨ra2, hda, hroa⟩ := inv_rootD hinv haS
      obtain ⟨rb2, hdb, hrob⟩ := inv_rootD hinv hbS
      have e1 : ra2 = r := rootOf_unique hroa hra
      have e2 : rb2 = r := rootOf_unique hrob hrb
      exact ⟨r, by rw [← e1]; exact hda, by rw [← e2]; exact hdb⟩
    · rintro ⟨r, hda, hdb⟩
      obtain ⟨ra2, hda2, hroa⟩ := inv_rootD hinv haS
      obtain ⟨rb2, hdb2, hrob⟩ := inv_rootD hinv hbS
      rw [hda2] at hda
      rw [hdb2] at hdb
      have e1 : ra2 = r := by injection hda
      have e2 : rb2 = r := by injection hdb
      exact ⟨r, e1 ▸ hroa, e2 ▸ hrob⟩

theorem percolate_union_find_witness :
    ∃ lat, percolate ((3 : ℚ)/4) 4 4 (nnFun 0 2) id = some lat ∧ lat.size = 4 ∧
      (∀ i < 4, val lat i = EMPTYval 4 ∨
        (∃ r d, d ≤ 4 ∧ ReachIn 4 lat d i r ∧ val lat r < 0)) ∧
      ((∑ r ∈ (Finset.range 4).filter
          (fun r => val lat r ≠ EMPTYval 4 ∧ val lat r < 0),
        (-(val lat r)).toNat) = numOccupied 4 lat) ∧
      (∀ a b, occupiedP 4 lat a → occupiedP 4 lat b →
        (Conn 4 (nnFun 0 2) ((Finset.range 4).filter
            (fun i => val lat i ≠ EMPTYval 4)) a b ↔
          (∃ r, rootD lat a = some r ∧ rootD lat b = some r))) :=
  percolate_union_find 4 4 (nnFun 0 2) ((3 : ℚ)/4) id
    (by decide) (by decide)
    (by norm_num [nSites])
    (fun i hi => by simpa using hi) (fun i _ j _ h => h)

/-! ### C2: how many sites `Percolate` occupies -/

/-- The loop guard of `Percolate` (`i < threshold*N - 1`, compared in
doubles) admits exactly the iteration indices below `nSites q N`. -/
theorem nSites_guard (q : ℚ) (N : Nat) (i : Nat) :
    i < nSites q N ↔ (i : ℚ) < q * (N : ℚ) - 1 := by
  unfold nSites
  rw [Int.lt_toNat]
  constructor
  · intro h
    have h2 : (i : Int) + 1 + 1 ≤ ⌈q * (N : ℚ)⌉ := by omega
    have h3 : ((i : Int) + 1 : ℚ) < q * (N : ℚ) := by
      have := Int.add_one_le_ceil_iff.1 h2
      push_cast at this ⊢
      linarith
    push_cast at h3
    linarith
  · intro h
    have h2 : (((i : Int) + 1 : Int) : ℚ) < q * (N : ℚ) := by push_cast; linarith
    have h3 : (i : Int) + 1 + 1 ≤ ⌈q * (N : ℚ)⌉ := Int.add_one_le_ceil_iff.2 h2
    omega

/-- The claim that `Percolate` occupies exactly `floor(threshold*N) - 1`
sites fails on the code: with `gridSize = 3` (so `N = 9`) and
`threshold = 1/2`, the loop `for (i = 0; i < threshold*N - 1; i++)` runs for
`i = 0,1,2,3` and occupies 4 sites, while `floor(4.5) - 1 = 3`. -/
theorem percolate_count_counterexample :
    (Int.toNat (⌊(1/2 : ℚ) * ((9 : Nat) : ℚ)⌋ - 1) = 3) ∧
    (percolate (1/2 : ℚ) 9 4 (nnFun 0 3) id).map (numOccupied 9) = some 4 ∧
    (4 : Nat) ≠ 3 := by
  have hceil : ⌈(1/2 : ℚ) * ((9 : Nat) : ℚ)⌉ = 5 := by
    rw [Int.ceil_eq_iff]
    norm_num
  have hns : nSites (1/2 : ℚ) 9 = 4 := by
    unfold nSites
    rw [hceil]
    rfl
  refine ⟨?_, ?_, by omega⟩
  · have hfl : ⌊(1/2 : ℚ) * ((9 : Nat) : ℚ)⌋ = 4 := by
      rw [Int.floor_eq_iff]
      norm_num
    rw [hfl]
    rfl
  · unfold percolate
    rw [hns]
    decide

/-- C2 amended: for every configuration, `Percolate()` occupies exactly
`max (⌈threshold*N⌉ - 1) 0` sites (the number of loop indices `i` with
`i < threshold*N - 1`; this equals `floor(threshold*N)` when `threshold*N`
is not an integer, and `threshold*N - 1` when it is), and the occupied set
is exactly the first `nSites` entries of the occupation permutation. -/
theorem percolate_occupies (N k : Nat) (nnf : Nat → Nat → Nat) (q : ℚ)
    (occf : Nat → Nat)
    (hsym : ∀ a < N, ∀ j < k, ∃ j2 < k, nnf j2 (nnf j a) = a)
    (hrange : ∀ a < N, ∀ j < k, nnf j a < N)
    (hcount : nSites q N ≤ N)
    (hoccr : ∀ i < N, occf i < N)
    (hinj : ∀ i < N, ∀ j < N, occf i = occf j → i = j) :
    ∃ lat, percolate q N k nnf occf = some lat ∧
      numOccupied N lat = nSites q N ∧
      (∀ i, occupiedP N lat i ↔ ∃ j < nSites q N, occf j = i) ∧
      (∀ i : Nat, i < nSites q N ↔ (i : ℚ) < q * (N : ℚ) - 1) := by
  have hmem : ∀ x ∈ (List.range (nSites q N)).map occf, x < N := by
    intro x hx
    obtain ⟨i, hi, he⟩ := List.mem_map.1 hx
    rw [← he]
    exact hoccr i (by have := List.mem_range.1 hi; omega)
  have hnd : ((List.range (nSites q N)).map occf).Nodup := by
    refine List.Nodup.map_on ?_ (List.nodup_range _)
    intro x hx y hy hxy
    exact hinj x (by have := List.mem_range.1 hx; omega)
      y (by have := List.mem_range.1 hy; omega) hxy
  obtain ⟨lat, heq, hinv⟩ := percolateList_some_inv hsym hrange _ hmem hnd
  refine ⟨lat, heq, ?_, ?_, fun i => nSites_guard q N i⟩
  · rw [numOccupied_eq_card hinv]
    rw [List.toFinset_card_of_nodup hnd]
    simp
  · intro i
    rw [hinv.occ_iff i]
    rw [List.mem_toFinset]
    constructor
    · intro h
      obtain ⟨j, hj, he⟩ := List.mem_map.1 h
      exact ⟨j, List.mem_range.1 hj, he⟩
    · rintro ⟨j, hj, he⟩
      exact List.mem_map.2 ⟨j, List.mem_range.2 hj, he⟩

theorem percolate_occupies_witness :
    (nSites (1/2 : ℚ) 9 ≤ 9) ∧
    ∃ lat, percolate (1/2 : ℚ) 9 4 (nnFun 0 3) id = some lat ∧
      numOccupied 9 lat = nSites (1/2 : ℚ) 9 ∧
      (∀ i, occupiedP 9 lat i ↔ ∃ j < nSites (1/2 : ℚ) 9, id j = i) ∧
      (∀ i : Nat, i < nSites (1/2 : ℚ) 9 ↔ (i : ℚ) < (1/2 : ℚ) * (9 : ℚ) - 1) := by
  have hceil : ⌈(1/2 : ℚ) * ((9 : Nat) : ℚ)⌉ = 5 := by
    rw [Int.ceil_eq_iff]
    norm_num
  have hns : nSites (1/2 : ℚ) 9 = 4 := by
    unfold nSites
    rw [hceil]
    rfl
  refine ⟨by rw [hns]; omega, ?_⟩
  exact percolate_occupies 9 4 (nnFun 0 3) (1/2 : ℚ) id
    (by decide) (by decide) (by rw [hns]; omega)
    (fun i hi => by simpa using hi) (fun i _ j _ h => h)

/-! ### C3: the union rule -/

/-- The tie-break of the claim fails on the code: merging two singleton
roots (sizes 1 and 1, with `r1 = 1` the root of the newly occupied site and
`r2 = 0` the neighbour's root) attaches the SECOND root under the FIRST:
afterwards `lattice(0) = 1` and `lattice(1) = -2`, whereas the claim
predicts `lattice(1) = 0`. -/
theorem union_tie_counterexample :
    unionNbr (EMPTYval 4) (#[(-1 : Int), -1, -5, -5], 1, 0) 0 =
      some (#[(1 : Int), -2, -5, -5], 1, 2) ∧
    val #[(1 : Int), -2, -5, -5] 1 ≠ (0 : Int) ∧
    val #[(1 : Int), -2, -5, -5] 0 = (1 : Int) := by
  refine ⟨by decide, by decide, by decide⟩

/-- C3 amended: whenever the union step merges two distinct roots `r1` (root
of the newly occupied site) and `r2` (root of an already-occupied
neighbour), the root with the smaller cluster size is attached beneath the
root with the larger cluster size and the sizes are summed; when the two
cluster sizes are equal, the SECOND root (`r2`) is attached under the first
(`r1`). -/
theorem union_rule (N : Nat) (lat lat2 : Array Int) (r1 r2 s2 : Nat)
    (big : Int) (a b : Nat)
    (hs2 : s2 < lat.size) (hocc : val lat s2 ≠ EMPTYval N)
    (hfr : findRootC lat lat.size s2 = some (lat2, r2))
    (hne : r2 ≠ r1)
    (hr1v : val lat2 r1 = -(a : Int)) (hr2v : val lat2 r2 = -(b : Int))
    (ha : 0 < a) (hb : 0 < b)
    (hr1N : r1 < lat2.size) (hr2N : r2 < lat2.size) :
    (a < b →
      unionNbr (EMPTYval N) (lat, r1, big) s2 =
        some (latAttach lat2 r2 r1, r2,
          if -(val (latAttach lat2 r2 r1) r2) > big
          then -(val (latAttach lat2 r2 r1) r2) else big) ∧
      val (latAttach lat2 r2 r1) r1 = (r2 : Int) ∧
      val (latAttach lat2 r2 r1) r2 = -(((a : Int)) + (b : Int))) ∧
    (b ≤ a →
      unionNbr (EMPTYval N) (lat, r1, big) s2 =
        some (latAttach lat2 r1 r2, r1,
          if -(val (latAttach lat2 r1 r2) r1) > big
          then -(val (latAttach lat2 r1 r2) r1) else big) ∧
      val (latAttach lat2 r1 r2) r2 = (r1 : Int) ∧
      val (latAttach lat2 r1 r2) r1 = -(((a : Int)) + (b : Int))) := by
  have hvA1 := val_latAttach lat2 r2 r1 hr2N hr1N
  have hvA2 := val_latAttach lat2 r1 r2 hr1N hr2N
  have hne2 : r1 ≠ r2 := fun h => hne h.symm
  constructor
  · intro hab
    have hcmp : val lat2 r1 > val lat2 r2 := by rw [hr1v, hr2v]; push_cast; omega
    refine ⟨?_, ?_, ?_⟩
    · rw [unionNbr]
      rw [if_pos hs2, if_pos hocc, hfr]
      dsimp only
      rw [if_pos hne, if_pos hcmp]
      rfl
    · rw [hvA1 r1, if_pos rfl]
    · rw [hvA1 r2, if_neg hne, if_pos rfl, hr1v, hr2v]
      push_cast
      ring
  · intro hab
    have hcmp : ¬ (val lat2 r1 > val lat2 r2) := by
      rw [hr1v, hr2v]; push_cast; omega
    refine ⟨?_, ?_, ?_⟩
    · rw [unionNbr]
      rw [if_pos hs2, if_pos hocc, hfr]
      dsimp only
      rw [if_pos hne, if_neg hcmp]
      rfl
    · rw [hvA2 r2, if_pos rfl]
    · rw [hvA2 r1, if_neg hne2, if_pos rfl, hr1v, hr2v]
      push_cast
      ring

theorem union_rule_witness :
    ((0 : Nat) < (#[(-1 : Int), -2, 1, -7, -7, -7] : Array Int).size) ∧
    (val #[(-1 : Int), -2, 1, -7, -7, -7] 0 ≠ EMPTYval 6) ∧
    (findRootC #[(-1 : Int), -2, 1, -7, -7, -7] 6 0 =
      some (#[(-1 : Int), -2, 1, -7, -7, -7], 0)) ∧
    (((2 : Nat) < 1 →
      unionNbr (EMPTYval 6) (#[(-1 : Int), -2, 1, -7, -7, -7], 1, 7) 0 =
        some (latAttach #[(-1 : Int), -2, 1, -7, -7, -7] 0 1, 0,
          if -(val (latAttach #[(-1 : Int), -2, 1, -7, -7, -7] 0 1) 0) > 7
          then -(val (latAttach #[(-1 : Int), -2, 1, -7, -7, -7] 0 1) 0) else 7) ∧
      val (latAttach #[(-1 : Int), -2, 1, -7, -7, -7] 0 1) 1 = (0 : Int) ∧
      val (latAttach #[(-1 : Int), -2, 1, -7, -7, -7] 0 1) 0 =
        -(((2 : Int)) + (1 : Int))) ∧
    ((1 : Nat) ≤ 2 →
      unionNbr (EMPTYval 6) (#[(-1 : Int), -2, 1, -7, -7, -7], 1, 7) 0 =
        some (latAttach #[(-1 : Int), -2, 1, -7, -7, -7] 1 0, 1,
          if -(val (latAttach #[(-1 : Int), -2, 1, -7, -7, -7] 1 0) 1) > 7
          then -(val (latAttach #[(-1 : Int), -2, 1, -7, -7, -7] 1 0) 1) else 7) ∧
      val (latAttach #[(-1 : Int), -2, 1, -7, -7, -7] 1 0) 0 = (1 : Int) ∧
      val (latAttach #[(-1 : Int), -2, 1, -7, -7, -7] 1 0) 1 =
        -(((2 : Int)) + (1 : Int)))) := by
  refine ⟨by decide, by decide, by decide, ?_⟩
  exact union_rule 6 #[(-1 : Int), -2, 1, -7, -7, -7]
    #[(-1 : Int), -2, 1, -7, -7, -7] 1 0 0 7 2 1
    (by decide) (by decide) (by decide) (by decide) (by decide) (by decide)
    (by decide) (by decide) (by decide) (by decide)

/-! ### C4: the neighbour tables (square lattice) -/

theorem enc_lt {L r c : Nat} (hr : r < L) (hc : c < L) : r * L + c < L * L := by
  have h1 : (r + 1) * L = r * L + L := by ring
  have h2 : (r + 1) * L ≤ L * L := Nat.mul_le_mul_right L (by omega)
  omega

theorem div_lt_of_lt_sq {L i : Nat} (hi : i < L * L) : i / L < L := by
  rcases Nat.eq_zero_or_pos L with h | h
  · subst h; simp at hi
  · exact Nat.div_lt_of_lt_mul (by rw [Nat.mul_comm]; exact hi)

theorem row_of_enc {L r c : Nat} (hL : 0 < L) (hc : c < L) : (r * L + c) / L = r := by
  rw [Nat.mul_comm r L, Nat.mul_add_div hL]
  simp [Nat.div_eq_of_lt hc]

theorem col_of_enc {L r c : Nat} (hc : c < L) : (r * L + c) % L = c := by
  rw [Nat.mul_comm r L, Nat.mul_add_mod]
  exact Nat.mod_eq_of_lt hc

theorem modInv1 {L c : Nat} (hL : 0 < L) (hc : c < L) :
    ((c + 1) % L + (L - 1)) % L = c := by
  by_cases h : c + 1 = L
  · rw [h, Nat.mod_self, Nat.zero_add, Nat.mod_eq_of_lt (show L - 1 < L by omega)]
    omega
  · rw [Nat.mod_eq_of_lt (show c + 1 < L by omega),
      show c + 1 + (L - 1) = c + L by omega, Nat.add_mod_right,
      Nat.mod_eq_of_lt hc]

theorem modInv2 {L c : Nat} (hL : 0 < L) (hc : c < L) :
    ((c + (L - 1)) % L + 1) % L = c := by
  by_cases h : c = 0
  · subst h
    rw [Nat.zero_add, Nat.mod_eq_of_lt (show L - 1 < L by omega),
      show L - 1 + 1 = L by omega, Nat.mod_self]
  · rw [show c + (L - 1) = (c - 1) + L by omega, Nat.add_mod_right,
      Nat.mod_eq_of_lt (show c - 1 < L by omega),
      show c - 1 + 1 = c by omega, Nat.mod_eq_of_lt hc]

theorem sqNb_lt {L dr dc i : Nat} (hL : 0 < L) : sqNb L dr dc i < L * L :=
  enc_lt (Nat.mod_lt _ hL) (Nat.mod_lt _ hL)

theorem sqNb_div {L dr dc i : Nat} (hL : 0 < L) :
    sqNb L dr dc i / L = (i / L + dr) % L :=
  row_of_enc hL (Nat.mod_lt _ hL)

theorem sqNb_mod {L dr dc i : Nat} (hL : 0 < L) :
    sqNb L dr dc i % L = (i % L + dc) % L :=
  col_of_enc (Nat.mod_lt _ hL)

theorem nbrsSquare_eq {L : Nat} (hL : 0 < L) {i : Nat} (hi : i < L * L) :
    nbrsSquare L i =
      [sqNb L 0 1 i, sqNb L 0 (L - 1) i, sqNb L 1 0 i, sqNb L (L - 1) 0 i] := by
  have hrc := Nat.div_add_mod i L
  have hr : i / L < L := div_lt_of_lt_sq hi
  have hc : i % L < L := Nat.mod_lt _ hL
  have hiL : i = (i / L) * L + i % L := by rw [Nat.mul_comm]; omega
  unfold nbrsSquare sqNb
  simp only [List.cons.injEq, and_true]
  refine ⟨?_, ?_, ?_, ?_⟩
  · -- right neighbour
    by_cases h : (i + 1) % L = 0
    · rw [if_pos h]
      have hmod : (i + 1) % L = (i % L + 1) % L := by
        conv_lhs => rw [hiL]
        rw [Nat.add_assoc, Nat.mul_comm, Nat.mul_add_mod]
      rw [hmod] at h
      have hcL : i % L + 1 = L := by
        have hdvd : L ∣ (i % L + 1) := Nat.dvd_of_mod_eq_zero h
        have hle : L ≤ i % L + 1 := Nat.le_of_dvd (by omega) hdvd
        omega
      simp only [Nat.add_zero]
      rw [Nat.mod_eq_of_lt hr, h]
      omega
    · rw [if_neg h]
      have hmod : (i + 1) % L = (i % L + 1) % L := by
        conv_lhs => rw [hiL]
        rw [Nat.add_assoc, Nat.mul_comm, Nat.mul_add_mod]
      rw [hmod] at h
      have hlt : i % L + 1 < L := by
        rcases Nat.lt_or_ge (i % L + 1) L with h2 | h2
        · exact h2
        · have he : i % L + 1 = L := by omega
          rw [he, Nat.mod_self] at h
          exact absurd rfl h
      have hi1 : i + 1 < L * L := by
        rw [show i + 1 = (i / L) * L + (i % L + 1) by omega]
        exact enc_lt hr hlt
      simp only [Nat.add_zero]
      rw [Nat.mod_eq_of_lt hi1, Nat.mod_eq_of_lt hr, Nat.mod_eq_of_lt hlt]
      omega
  · -- left neighbour
    by_cases h : i % L = 0
    · rw [if_pos h]
      simp only [Nat.add_zero]
      rw [Nat.mod_eq_of_lt hr, h]
      simp only [Nat.zero_add]
      rw [Nat.mod_eq_of_lt (show L - 1 < L by omega)]
      omega
    · rw [if_neg h, show i + L * L - 1 = (i - 1) + L * L by omega,
        Nat.add_mod_right, Nat.mod_eq_of_lt (show i - 1 < L * L by omega)]
      simp only [Nat.add_zero]
      rw [Nat.mod_eq_of_lt hr,
        show i % L + (L - 1) = (i % L - 1) + L by omega, Nat.add_mod_right,
        Nat.mod_eq_of_lt (show i % L - 1 < L by omega)]
      omega
  · -- down neighbour
    simp only [Nat.add_zero]
    rw [Nat.mod_eq_of_lt hc]
    by_cases h : i / L + 1 = L
    · have hmul : (i / L + 1) * L = (i / L) * L + L := by ring
      have hLL : (i / L) * L + L = L * L := by rw [← hmul, h]
      have hLle : L ≤ L * L := Nat.le_mul_of_pos_left L hL
      rw [show i + L = i % L + L * L by omega, Nat.add_mod_right,
        Nat.mod_eq_of_lt (show i % L < L * L by omega), h, Nat.mod_self]
      omega
    · have hlt : i / L + 1 < L := by omega
      have hmul : (i / L + 1) * L = (i / L) * L + L := by ring
      rw [show i + L = (i / L + 1) * L + i % L by omega,
        Nat.mod_eq_of_lt (enc_lt hlt hc), Nat.mod_eq_of_lt hlt]
  · -- up neighbour
    simp only [Nat.add_zero]
    rw [Nat.mod_eq_of_lt hc]
    by_cases h : i / L = 0
    · have hmul : (L - 1 + 1) * L = (L - 1) * L + L := by ring
      have hLL : (L - 1) * L + L = L * L := by
        rw [← hmul, show L - 1 + 1 = L by omega]
      have hi0 : i = i % L := by
        rw [h] at hiL
        omega
      rw [show i + L * L - L = (L - 1) * L + i % L by omega,
        Nat.mod_eq_of_lt (enc_lt (show L - 1 < L by omega) hc), h, Nat.zero_add,
        Nat.mod_eq_of_lt (show L - 1 < L by omega)]
    · have hpos : 1 ≤ i / L := Nat.pos_of_ne_zero h
      have hmul : (i / L - 1 + 1) * L = (i / L - 1) * L + L := by ring
      have hmm : (i / L - 1) * L + L = (i / L) * L := by
        rw [← hmul, show i / L - 1 + 1 = i / L by omega]
      rw [show i + L * L - L = (i / L - 1) * L + i % L + L * L by omega,
        Nat.add_mod_right,
        Nat.mod_eq_of_lt (enc_lt (show i / L - 1 < L by omega) hc),
        show i / L + (L - 1) = (i / L - 1) + L by omega, Nat.add_mod_right,
        Nat.mod_eq_of_lt (show i / L - 1 < L by omega)]

/-! ### C4: the neighbour tables (honeycomb lattice) -/

theorem nnFun_eq_nbrsList (mode L j i : Nat) :
    nnFun mode L j i = (nbrsList mode L i).getD j 0 := by
  unfold nnFun nbrsList
  split <;> rfl

/-- The `firstRow` double arithmetic is exact: it computes `firstRowN`. -/
theorem firstRowEntry_eq_cast (L m : Nat) (hm : 1 ≤ m) :
    firstRowEntry L m = (firstRowN L m : ℚ) := by
  unfold firstRowEntry firstRowN
  by_cases hp : m % 2 = 0
  · rw [if_pos hp]
    have h2 : ((-1 : ℚ)) ^ m = 1 := Even.neg_one_pow (Nat.even_iff.mpr hp)
    have hge : L ≤ 2 * m * L := by
      calc L = 1 * L := (Nat.one_mul L).symm
      _ ≤ 2 * m * L := Nat.mul_le_mul_right L (by omega)
    rw [h2, Nat.cast_sub hge]
    push_cast
    ring
  · rw [if_neg hp]
    have h2 : ((-1 : ℚ)) ^ m = -1 :=
      Odd.neg_one_pow (Nat.odd_iff.mpr (by omega))
    have hge : 2 * L ≤ 2 * m * L := by
      have : 2 * L = 2 * 1 * L := by ring
      rw [this]
      exact Nat.mul_le_mul_right L (by omega)
    rw [h2, Nat.cast_sub hge]
    push_cast
    ring

/-- The `lastRow` double arithmetic is exact: it computes `lastRowN`. -/
theorem lastRowEntry_eq_cast (L m : Nat) (hL : 1 ≤ L) (hm : 1 ≤ m) :
    lastRowEntry L m = (lastRowN L m : ℚ) := by
  unfold lastRowEntry lastRowN
  by_cases hp : m % 2 = 0
  · rw [if_pos hp]
    have h2 : ((-1 : ℚ)) ^ (m + 1) = -1 :=
      Odd.neg_one_pow (Nat.odd_iff.mpr (by omega))
    have hge : L + 1 ≤ 2 * m * L := by
      have h3 : 2 * 1 * L ≤ 2 * m * L := Nat.mul_le_mul_right L (by omega)
      have h4 : 2 * 1 * L = 2 * L := by ring
      omega
    rw [h2, Nat.cast_sub hge]
    push_cast
    ring
  · rw [if_neg hp]
    have h2 : ((-1 : ℚ)) ^ (m + 1) = 1 :=
      Even.neg_one_pow (Nat.even_iff.mpr (by omega))
    have hge : 1 ≤ 2 * m * L := by
      have h3 : 2 * 1 * L ≤ 2 * m * L := Nat.mul_le_mul_right L (by omega)
      omega
    rw [h2, Nat.cast_sub hge]
    push_cast
    ring

/-- `arma::any(firstRow == i)` holds exactly at position `0` of a column with
phase `0` or `3`. -/
theorem inFirstRow_iff {L i : Nat} (hL : 0 < L) :
    inFirstRow L i ↔
      i % L = 0 ∧ i / L < 4 * L ∧ ((i / L) % 4 = 0 ∨ (i / L) % 4 = 3) := by
  constructor
  · rintro ⟨m, hm1, hm2, heq⟩
    by_cases hp : m % 2 = 0
    · have hKL : firstRowN L m = (2 * m - 1) * L := by
        unfold firstRowN
        rw [if_pos hp, Nat.sub_mul, Nat.one_mul]
      have hI : i = (2 * m - 1) * L := by rw [← heq, hKL]
      rw [hI, Nat.mul_mod_left, Nat.mul_div_cancel _ hL]
      omega
    · have hge : 2 * L ≤ 2 * m * L := by
        have h3 : 2 * 1 * L ≤ 2 * m * L := Nat.mul_le_mul_right L (by omega)
        have h4 : 2 * 1 * L = 2 * L := by ring
        omega
      have hB : (2 * m - 2) * L + 2 * L = 2 * m * L := by
        rw [← Nat.add_mul, show 2 * m - 2 + 2 = 2 * m by omega]
      have hI : i = (2 * m - 2) * L := by
        unfold firstRowN at heq
        rw [if_neg hp] at heq
        omega
      rw [hI, Nat.mul_mod_left, Nat.mul_div_cancel _ hL]
      omega
  · rintro ⟨h0, hlt, hφ | hφ⟩
    · refine ⟨2 * (i / L / 4) + 1, by omega, by omega, ?_⟩
      have ht : i / L = 4 * (i / L / 4) := by omega
      have h1 : 2 * (2 * (i / L / 4) + 1) * L = i / L * L + 2 * L := by
        rw [show 2 * (2 * (i / L / 4) + 1) = i / L + 2 by omega, Nat.add_mul]
      have h2 : i = i / L * L := by
        have h3 := Nat.div_add_mod i L
        have h4 : L * (i / L) = i / L * L := Nat.mul_comm _ _
        omega
      unfold firstRowN
      rw [if_neg (by omega)]
      omega
    · refine ⟨2 * (i / L / 4) + 2, by omega, by omega, ?_⟩
      have ht : i / L = 4 * (i / L / 4) + 3 := by omega
      have h1 : 2 * (2 * (i / L / 4) + 2) * L = i / L * L + L := by
        rw [show 2 * (2 * (i / L / 4) + 2) = i / L + 1 by omega, Nat.add_mul,
          Nat.one_mul]
      have h2 : i = i / L * L := by
        have h3 := Nat.div_add_mod i L
        have h4 : L * (i / L) = i / L * L := Nat.mul_comm _ _
        omega
      unfold firstRowN
      rw [if_pos (by omega)]
      omega

/-- `arma::any(lastRow == i)` holds exactly at position `L - 1` of a column
with phase `1` or `2`. -/
theorem inLastRow_iff {L i : Nat} (hL : 0 < L) :
    inLastRow L i ↔
      i % L = L - 1 ∧ i / L < 4 * L ∧ ((i / L) % 4 = 1 ∨ (i / L) % 4 = 2) := by
  constructor
  · rintro ⟨m, hm1, hm2, heq⟩
    by_cases hp : m % 2 = 0
    · have hge : L + 1 ≤ 2 * m * L := by
        have h3 : 2 * 1 * L ≤ 2 * m * L := Nat.mul_le_mul_right L (by omega)
        have h4 : 2 * 1 * L = 2 * L := by ring
        omega
      have hB : (2 * m - 2) * L + 2 * L = 2 * m * L := by
        rw [← Nat.add_mul, show 2 * m - 2 + 2 = 2 * m by omega]
      have hI : i = (2 * m - 2) * L + (L - 1) := by
        unfold lastRowN at heq
        rw [if_pos hp] at heq
        omega
      rw [hI, col_of_enc (by omega), row_of_enc hL (by omega)]
      omega
    · have hge : 1 ≤ 2 * m * L := by
        have h3 : 2 * 1 * L ≤ 2 * m * L := Nat.mul_le_mul_right L (by omega)
        omega
      have hB : (2 * m - 1) * L + L = 2 * m * L := by
        have h5 : (2 * m - 1) * L + 1 * L = (2 * m - 1 + 1) * L :=
          (Nat.add_mul _ _ _).symm
        rw [Nat.one_mul] at h5
        rw [h5, Nat.sub_add_cancel (by omega)]
      have hI : i = (2 * m - 1) * L + (L - 1) := by
        unfold lastRowN at heq
        rw [if_neg hp] at heq
        omega
      rw [hI, col_of_enc (by omega), row_of_enc hL (by omega)]
      omega
  · rintro ⟨h0, hlt, hφ | hφ⟩
    · refine ⟨2 * (i / L / 4) + 1, by omega, by omega, ?_⟩
      have ht : i / L = 4 * (i / L / 4) + 1 := by omega
      have h1 : 2 * (2 * (i / L / 4) + 1) * L = i / L * L + L := by
        rw [show 2 * (2 * (i / L / 4) + 1) = i / L + 1 by omega, Nat.add_mul,
          Nat.one_mul]
      have h2 : i = i / L * L + (L - 1) := by
        have h3 := Nat.div_add_mod i L
        have h4 : L * (i / L) = i / L * L := Nat.mul_comm _ _
        omega
      unfold lastRowN
      rw [if_neg (by omega)]
      omega
    · refine ⟨2 * (i / L / 4) + 2, by omega, by omega, ?_⟩
      have ht : i / L = 4 * (i / L / 4) + 2 := by omega
      have h1 : 2 * (2 * (i / L / 4) + 2) * L = i / L * L + 2 * L := by
        rw [show 2 * (2 * (i / L / 4) + 2) = i / L + 2 by omega, Nat.add_mul]
      have h2 : i = i / L * L + (L - 1) := by
        have h3 := Nat.div_add_mod i L
        have h4 : L * (i / L) = i / L * L := Nat.mul_comm _ _
        omega
      unfold lastRowN
      rw [if_pos (by omega)]
      omega


theorem enc_lt2 {C L r c : Nat} (hr : r < C) (hc : c < L) : r * L + c < C * L := by
  have h1 : (r + 1) * L = r * L + L := by ring
  have h2 : (r + 1) * L ≤ C * L := Nat.mul_le_mul_right L (by omega)
  omega

theorem hT0_eq {L i : Nat} (h : (i / L) % 4 = 0) :
    hT L i = ((i / L + 1) % (4 * L)) * L + (i % L + (L - 1)) % L := by
  unfold hT
  rw [if_pos h]

theorem hT1_eq {L i : Nat} (h : (i / L) % 4 = 1) :
    hT L i = ((i / L + (4 * L - 1)) % (4 * L)) * L + (i % L + 1) % L := by
  unfold hT
  rw [if_neg (show ¬ (i / L) % 4 = 0 by omega), if_pos h]

theorem hT2_eq {L i : Nat} (h : (i / L) % 4 = 2) :
    hT L i = ((i / L + 1) % (4 * L)) * L + (i % L + 1) % L := by
  unfold hT
  rw [if_neg (show ¬ (i / L) % 4 = 0 by omega),
    if_neg (show ¬ (i / L) % 4 = 1 by omega), if_pos h]

theorem hT3_eq {L i : Nat} (h : (i / L) % 4 = 3) :
    hT L i = ((i / L + (4 * L - 1)) % (4 * L)) * L + (i % L + (L - 1)) % L := by
  unfold hT
  rw [if_neg (show ¬ (i / L) % 4 = 0 by omega),
    if_neg (show ¬ (i / L) % 4 = 1 by omega),
    if_neg (show ¬ (i / L) % 4 = 2 by omega)]

theorem hAm_lt {L i : Nat} (hL : 0 < L) : hAm L i < 4 * L * L :=
  enc_lt2 (Nat.mod_lt _ (by omega)) (Nat.mod_lt _ hL)

theorem hAp_lt {L i : Nat} (hL : 0 < L) : hAp L i < 4 * L * L :=
  enc_lt2 (Nat.mod_lt _ (by omega)) (Nat.mod_lt _ hL)

theorem hT_lt {L i : Nat} (hL : 0 < L) : hT L i < 4 * L * L := by
  unfold hT
  repeat' split
  all_goals exact enc_lt2 (Nat.mod_lt _ (by omega)) (Nat.mod_lt _ hL)

theorem nbrsHoney_length (L i : Nat) : (nbrsHoney L i).length = 3 := by
  unfold nbrsHoney
  dsimp only
  repeat' split
  all_goals rfl

theorem nbrsSquare_length (L i : Nat) : (nbrsSquare L i).length = 4 := rfl

set_option maxHeartbeats 2000000 in
/-- Key bridge: on a valid site, membership in the `BoundariesHoneycomb`
column of `i` is membership in the unified three-neighbour form. -/
theorem mem_nbrsHoney_iff {L i : Nat} (hL : 0 < L) (hi : i < 4 * L * L)
    (b : Nat) :
    b ∈ nbrsHoney L i ↔ b = hAm L i ∨ b = hAp L i ∨ b = hT L i := by
  have hρ : i % L < L := Nat.mod_lt _ hL
  have hc4 : i / L < 4 * L := by
    have hi' : i < L * (4 * L) := by rw [Nat.mul_comm L (4 * L)]; exact hi
    exact Nat.div_lt_of_lt_mul hi'
  have hiL : i = i / L * L + i % L := by
    have h3 := Nat.div_add_mod i L
    have h4 : L * (i / L) = i / L * L := Nat.mul_comm _ _
    omega
  have hb1 : (4 * L - 1) * L + L = 4 * L * L := by
    have h5 : (4 * L - 1 + 1) * L = (4 * L - 1) * L + L := by ring
    rw [show 4 * L - 1 + 1 = 4 * L by omega] at h5
    omega
  have hb2 : (4 * L - 2) * L + L = (4 * L - 1) * L := by
    have h5 : (4 * L - 2 + 1) * L = (4 * L - 2) * L + L := by ring
    rw [show 4 * L - 2 + 1 = 4 * L - 1 by omega] at h5
    omega
  unfold nbrsHoney
  by_cases h0 : i = 0
  · have hcv : i / L = 0 := by rw [h0]; exact Nat.zero_div _
    have hρv : i % L = 0 := by rw [h0]; exact Nat.zero_mod _
    have hφ : (i / L) % 4 = 0 := by rw [hcv]
    have hAmv : hAm L i = (4 * L - 1) * L + 0 := by
      unfold hAm
      rw [hcv, hρv]
      simp only [Nat.zero_add]
      rw [Nat.mod_eq_of_lt (show 4 * L - 1 < 4 * L by omega)]
    have hApv : hAp L i = 1 * L + 0 := by
      unfold hAp
      rw [hcv, hρv]
      simp only [Nat.zero_add]
      rw [Nat.mod_eq_of_lt (show 1 < 4 * L by omega)]
    have hTv : hT L i = 1 * L + (L - 1) := by
      rw [hT0_eq hφ, hcv, hρv]
      simp only [Nat.zero_add]
      rw [Nat.mod_eq_of_lt (show 1 < 4 * L by omega),
        Nat.mod_eq_of_lt (show L - 1 < L by omega)]
    rw [if_pos h0, hAmv, hApv, hTv]
    simp only [List.mem_cons, List.not_mem_nil, or_false]
    omega
  · rw [if_neg h0]
    by_cases h1 : i = 4 * L * L - L
    · have hI : i = (4 * L - 1) * L := by omega
      have hcv : i / L = 4 * L - 1 := by rw [hI, Nat.mul_div_cancel _ hL]
      have hρv : i % L = 0 := by rw [hI, Nat.mul_mod_left]
      have hφ : (i / L) % 4 = 3 := by omega
      have hAmv : hAm L i = (4 * L - 2) * L + 0 := by
        unfold hAm
        rw [hcv, hρv, show 4 * L - 1 + (4 * L - 1) = (4 * L - 2) + 4 * L by omega,
          Nat.add_mod_right, Nat.mod_eq_of_lt (show 4 * L - 2 < 4 * L by omega)]
      have hApv : hAp L i = 0 := by
        unfold hAp
        rw [hcv, hρv, show 4 * L - 1 + 1 = 4 * L by omega, Nat.mod_self]
        simp only [Nat.zero_mul, Nat.add_zero]
      have hTv : hT L i = (4 * L - 2) * L + (L - 1) := by
        rw [hT3_eq hφ, hcv, hρv,
          show 4 * L - 1 + (4 * L - 1) = (4 * L - 2) + 4 * L by omega,
          Nat.add_mod_right, Nat.mod_eq_of_lt (show 4 * L - 2 < 4 * L by omega)]
        simp only [Nat.zero_add]
        rw [Nat.mod_eq_of_lt (show L - 1 < L by omega)]
      rw [if_pos h1, hAmv, hApv, hTv]
      simp only [List.mem_cons, List.not_mem_nil, or_false]
      omega
    · rw [if_neg h1]
      by_cases h2 : i = 4 * L * L - L - 1
      · have hb3 : (4 * L - 3) * L + L = (4 * L - 2) * L := by
          have h5 : (4 * L - 3 + 1) * L = (4 * L - 3) * L + L := by ring
          rw [show 4 * L - 3 + 1 = 4 * L - 2 by omega] at h5
          omega
        have hI : i = (4 * L - 2) * L + (L - 1) := by omega
        have hcv : i / L = 4 * L - 2 := by rw [hI, row_of_enc hL (by omega)]
        have hρv : i % L = L - 1 := by rw [hI, col_of_enc (by omega)]
        have hφ : (i / L) % 4 = 2 := by omega
        have hAmv : hAm L i = (4 * L - 3) * L + (L - 1) := by
          unfold hAm
          rw [hcv, hρv,
            show 4 * L - 2 + (4 * L - 1) = (4 * L - 3) + 4 * L by omega,
            Nat.add_mod_right, Nat.mod_eq_of_lt (show 4 * L - 3 < 4 * L by omega)]
        have hApv : hAp L i = (4 * L - 1) * L + (L - 1) := by
          unfold hAp
          rw [hcv, hρv, show 4 * L - 2 + 1 = 4 * L - 1 by omega,
            Nat.mod_eq_of_lt (show 4 * L - 1 < 4 * L by omega)]
        have hTv : hT L i = (4 * L - 1) * L + 0 := by
          rw [hT2_eq hφ, hcv, hρv, show 4 * L - 2 + 1 = 4 * L - 1 by omega,
            Nat.mod_eq_of_lt (show 4 * L - 1 < 4 * L by omega),
            show L - 1 + 1 = L by omega, Nat.mod_self]
        rw [if_pos h2, hAmv, hApv, hTv]
        simp only [List.mem_cons, List.not_mem_nil, or_false]
        omega
      · rw [if_neg h2]
        by_cases h3 : i < L
        · have hcv : i / L = 0 := Nat.div_eq_of_lt h3
          have hρv : i % L = i := Nat.mod_eq_of_lt h3
          have hφ : (i / L) % 4 = 0 := by rw [hcv]
          have hAmv : hAm L i = (4 * L - 1) * L + i := by
            unfold hAm
            rw [hcv, hρv]
            simp only [Nat.zero_add]
            rw [Nat.mod_eq_of_lt (show 4 * L - 1 < 4 * L by omega)]
          have hApv : hAp L i = 1 * L + i := by
            unfold hAp
            rw [hcv, hρv]
            simp only [Nat.zero_add]
            rw [Nat.mod_eq_of_lt (show 1 < 4 * L by omega)]
          have hTv : hT L i = 1 * L + (i - 1) := by
            rw [hT0_eq hφ, hcv, hρv]
            simp only [Nat.zero_add]
            rw [Nat.mod_eq_of_lt (show 1 < 4 * L by omega),
              show i + (L - 1) = (i - 1) + L by omega, Nat.add_mod_right,
              Nat.mod_eq_of_lt (show i - 1 < L by omega)]
          rw [if_pos h3, hAmv, hApv, hTv]
          simp only [List.mem_cons, List.not_mem_nil, or_false]
          omega
        · rw [if_neg h3]
          by_cases h4 : 4 * L * L - L < i
          · have hc' : 4 * L - 1 ≤ i / L := by
              rw [Nat.le_div_iff_mul_le hL]
              omega
            have hcv : i / L = 4 * L - 1 := by omega
            rw [hcv] at hiL
            have hρ1 : 1 ≤ i % L := by omega
            have hφ : (i / L) % 4 = 3 := by omega
            have hAmv : hAm L i = (4 * L - 2) * L + i % L := by
              unfold hAm
              rw [hcv, show 4 * L - 1 + (4 * L - 1) = (4 * L - 2) + 4 * L by omega,
                Nat.add_mod_right,
                Nat.mod_eq_of_lt (show 4 * L - 2 < 4 * L by omega)]
            have hApv : hAp L i = i % L := by
              unfold hAp
              rw [hcv, show 4 * L - 1 + 1 = 4 * L by omega, Nat.mod_self]
              simp only [Nat.zero_mul, Nat.zero_add]
            have hTv : hT L i = (4 * L - 2) * L + (i % L - 1) := by
              rw [hT3_eq hφ, hcv,
                show 4 * L - 1 + (4 * L - 1) = (4 * L - 2) + 4 * L by omega,
                Nat.add_mod_right,
                Nat.mod_eq_of_lt (show 4 * L - 2 < 4 * L by omega),
                show i % L + (L - 1) = (i % L - 1) + L by omega,
                Nat.add_mod_right, Nat.mod_eq_of_lt (show i % L - 1 < L by omega)]
            rw [if_pos h4, hAmv, hApv, hTv]
            simp only [List.mem_cons, List.not_mem_nil, or_false]
            omega
          · rw [if_neg h4]
            have hc1 : 1 ≤ i / L := by
              rw [Nat.le_div_iff_mul_le hL]
              omega
            have hc2 : i / L < 4 * L - 1 := by
              have h6 : i < (4 * L - 1) * L := by omega
              have h7 : i < L * (4 * L - 1) := by
                rw [Nat.mul_comm L (4 * L - 1)]
                exact h6
              exact Nat.div_lt_of_lt_mul h7
            have hbm : (i / L - 1) * L + L = i / L * L := by
              have h5 : (i / L - 1 + 1) * L = (i / L - 1) * L + L := by ring
              rw [show i / L - 1 + 1 = i / L by omega] at h5
              omega
            have hbp : (i / L + 1) * L = i / L * L + L := by ring
            have hAmv : hAm L i = (i / L - 1) * L + i % L := by
              unfold hAm
              rw [show i / L + (4 * L - 1) = (i / L - 1) + 4 * L by omega,
                Nat.add_mod_right,
                Nat.mod_eq_of_lt (show i / L - 1 < 4 * L by omega)]
            have hApv : hAp L i = (i / L + 1) * L + i % L := by
              unfold hAp
              rw [Nat.mod_eq_of_lt (show i / L + 1 < 4 * L by omega)]
            by_cases hφ0 : (i / L) % 4 = 0
            · rw [if_pos hφ0]
              by_cases hfr : inFirstRow L i
              · obtain ⟨hρ0, -, -⟩ := (inFirstRow_iff hL).mp hfr
                have hTv : hT L i = (i / L + 1) * L + (L - 1) := by
                  rw [hT0_eq hφ0, hρ0,
                    Nat.mod_eq_of_lt (show i / L + 1 < 4 * L by omega)]
                  simp only [Nat.zero_add]
                  rw [Nat.mod_eq_of_lt (show L - 1 < L by omega)]
                rw [if_pos hfr, hAmv, hApv, hTv]
                simp only [List.mem_cons, List.not_mem_nil, or_false]
                omega
              · have hρne : ¬ i % L = 0 := fun hh => hfr
                  ((inFirstRow_iff hL).mpr ⟨hh, hc4, Or.inl hφ0⟩)
                have hTv : hT L i = (i / L + 1) * L + (i % L - 1) := by
                  rw [hT0_eq hφ0,
                    Nat.mod_eq_of_lt (show i / L + 1 < 4 * L by omega),
                    show i % L + (L - 1) = (i % L - 1) + L by omega,
                    Nat.add_mod_right,
                    Nat.mod_eq_of_lt (show i % L - 1 < L by omega)]
                rw [if_neg hfr, hAmv, hApv, hTv]
                simp only [List.mem_cons, List.not_mem_nil, or_false]
                omega
            · rw [if_neg hφ0]
              by_cases hφ1 : (i / L) % 4 = 1
              · rw [if_pos hφ1]
                by_cases hlr : inLastRow L i
                · obtain ⟨hρL, -, -⟩ := (inLastRow_iff hL).mp hlr
                  have hTv : hT L i = (i / L - 1) * L + 0 := by
                    rw [hT1_eq hφ1,
                      show i / L + (4 * L - 1) = (i / L - 1) + 4 * L by omega,
                      Nat.add_mod_right,
                      Nat.mod_eq_of_lt (show i / L - 1 < 4 * L by omega), hρL,
                      show L - 1 + 1 = L by omega, Nat.mod_self]
                  rw [if_pos hlr, hAmv, hApv, hTv]
                  simp only [List.mem_cons, List.not_mem_nil, or_false]
                  omega
                · have hρne : ¬ i % L = L - 1 := fun hh => hlr
                    ((inLastRow_iff hL).mpr ⟨hh, hc4, Or.inl hφ1⟩)
                  have hTv : hT L i = (i / L - 1) * L + (i % L + 1) := by
                    rw [hT1_eq hφ1,
                      show i / L + (4 * L - 1) = (i / L - 1) + 4 * L by omega,
                      Nat.add_mod_right,
                      Nat.mod_eq_of_lt (show i / L - 1 < 4 * L by omega),
                      Nat.mod_eq_of_lt (show i % L + 1 < L by omega)]
                  rw [if_neg hlr, hAmv, hApv, hTv]
                  simp only [List.mem_cons, List.not_mem_nil, or_false]
                  omega
              · rw [if_neg hφ1]
                by_cases hφ2 : (i / L) % 4 = 2
                · rw [if_pos hφ2]
                  by_cases hlr : inLastRow L i
                  · obtain ⟨hρL, -, -⟩ := (inLastRow_iff hL).mp hlr
                    have hTv : hT L i = (i / L + 1) * L + 0 := by
                      rw [hT2_eq hφ2,
                        Nat.mod_eq_of_lt (show i / L + 1 < 4 * L by omega), hρL,
                        show L - 1 + 1 = L by omega, Nat.mod_self]
                    rw [if_pos hlr, hAmv, hApv, hTv]
                    simp only [List.mem_cons, List.not_mem_nil, or_false]
                    omega
                  · have hρne : ¬ i % L = L - 1 := fun hh => hlr
                      ((inLastRow_iff hL).mpr ⟨hh, hc4, Or.inr hφ2⟩)
                    have hTv : hT L i = (i / L + 1) * L + (i % L + 1) := by
                      rw [hT2_eq hφ2,
                        Nat.mod_eq_of_lt (show i / L + 1 < 4 * L by omega),
                        Nat.mod_eq_of_lt (show i % L + 1 < L by omega)]
                    rw [if_neg hlr, hAmv, hApv, hTv]
                    simp only [List.mem_cons, List.not_mem_nil, or_false]
                    omega
                · rw [if_neg hφ2]
                  have hφ3 : (i / L) % 4 = 3 := by omega
                  by_cases hfr : inFirstRow L i
                  · obtain ⟨hρ0, -, -⟩ := (inFirstRow_iff hL).mp hfr
                    have hTv : hT L i = (i / L - 1) * L + (L - 1) := by
                      rw [hT3_eq hφ3,
                        show i / L + (4 * L - 1) = (i / L - 1) + 4 * L by omega,
                        Nat.add_mod_right,
                        Nat.mod_eq_of_lt (show i / L - 1 < 4 * L by omega), hρ0]
                      simp only [Nat.zero_add]
                      rw [Nat.mod_eq_of_lt (show L - 1 < L by omega)]
                    rw [if_pos hfr, hAmv, hApv, hTv]
                    simp only [List.mem_cons, List.not_mem_nil, or_false]
                    omega
                  · have hρne : ¬ i % L = 0 := fun hh => hfr
                      ((inFirstRow_iff hL).mpr ⟨hh, hc4, Or.inr hφ3⟩)
                    have hTv : hT L i = (i / L - 1) * L + (i % L - 1) := by
                      rw [hT3_eq hφ3,
                        show i / L + (4 * L - 1) = (i / L - 1) + 4 * L by omega,
                        Nat.add_mod_right,
                        Nat.mod_eq_of_lt (show i / L - 1 < 4 * L by omega),
                        show i % L + (L - 1) = (i % L - 1) + L by omega,
                        Nat.add_mod_right,
                        Nat.mod_eq_of_lt (show i % L - 1 < L by omega)]
                    rw [if_neg hfr, hAmv, hApv, hTv]
                    simp only [List.mem_cons, List.not_mem_nil, or_false]
                    omega

theorem sq_inv1 {L a : Nat} (hL : 0 < L) (ha : a < L * L) :
    sqNb L 0 (L - 1) (sqNb L 0 1 a) = a := by
  have hr : a / L < L := div_lt_of_lt_sq ha
  have hρ : a % L < L := Nat.mod_lt _ hL
  have haL : a = a / L * L + a % L := by
    have h3 := Nat.div_add_mod a L
    have h4 : L * (a / L) = a / L * L := Nat.mul_comm _ _
    omega
  have h0 : sqNb L 0 (L - 1) (sqNb L 0 1 a)
      = ((sqNb L 0 1 a / L + 0) % L) * L + ((sqNb L 0 1 a % L + (L - 1)) % L) :=
    rfl
  rw [h0, sqNb_div hL, sqNb_mod hL]
  simp only [Nat.add_zero]
  rw [Nat.mod_eq_of_lt (Nat.mod_lt _ hL), Nat.mod_eq_of_lt hr, modInv1 hL hρ]
  exact haL.symm

theorem sq_inv2 {L a : Nat} (hL : 0 < L) (ha : a < L * L) :
    sqNb L 0 1 (sqNb L 0 (L - 1) a) = a := by
  have hr : a / L < L := div_lt_of_lt_sq ha
  have hρ : a % L < L := Nat.mod_lt _ hL
  have haL : a = a / L * L + a % L := by
    have h3 := Nat.div_add_mod a L
    have h4 : L * (a / L) = a / L * L := Nat.mul_comm _ _
    omega
  have h0 : sqNb L 0 1 (sqNb L 0 (L - 1) a)
      = ((sqNb L 0 (L - 1) a / L + 0) % L) * L
        + ((sqNb L 0 (L - 1) a % L + 1) % L) := rfl
  rw [h0, sqNb_div hL, sqNb_mod hL]
  simp only [Nat.add_zero]
  rw [Nat.mod_eq_of_lt (Nat.mod_lt _ hL), Nat.mod_eq_of_lt hr, modInv2 hL hρ]
  exact haL.symm

theorem sq_inv3 {L a : Nat} (hL : 0 < L) (ha : a < L * L) :
    sqNb L (L - 1) 0 (sqNb L 1 0 a) = a := by
  have hr : a / L < L := div_lt_of_lt_sq ha
  have hρ : a % L < L := Nat.mod_lt _ hL
  have haL : a = a / L * L + a % L := by
    have h3 := Nat.div_add_mod a L
    have h4 : L * (a / L) = a / L * L := Nat.mul_comm _ _
    omega
  have h0 : sqNb L (L - 1) 0 (sqNb L 1 0 a)
      = ((sqNb L 1 0 a / L + (L - 1)) % L) * L
        + ((sqNb L 1 0 a % L + 0) % L) := rfl
  rw [h0, sqNb_div hL, sqNb_mod hL]
  simp only [Nat.add_zero]
  rw [Nat.mod_eq_of_lt (Nat.mod_lt _ hL), Nat.mod_eq_of_lt hρ, modInv1 hL hr]
  exact haL.symm

theorem sq_inv4 {L a : Nat} (hL : 0 < L) (ha : a < L * L) :
    sqNb L 1 0 (sqNb L (L - 1) 0 a) = a := by
  have hr : a / L < L := div_lt_of_lt_sq ha
  have hρ : a % L < L := Nat.mod_lt _ hL
  have haL : a = a / L * L + a % L := by
    have h3 := Nat.div_add_mod a L
    have h4 : L * (a / L) = a / L * L := Nat.mul_comm _ _
    omega
  have h0 : sqNb L 1 0 (sqNb L (L - 1) 0 a)
      = ((sqNb L (L - 1) 0 a / L + 1) % L) * L
        + ((sqNb L (L - 1) 0 a % L + 0) % L) := rfl
  rw [h0, sqNb_div hL, sqNb_mod hL]
  simp only [Nat.add_zero]
  rw [Nat.mod_eq_of_lt (Nat.mod_lt _ hL), Nat.mod_eq_of_lt hρ, modInv2 hL hr]
  exact haL.symm

/-- `BoundariesSquare` is a symmetric adjacency. -/
theorem square_symm {L a b : Nat} (hL : 0 < L) (ha : a < L * L)
    (hb : b ∈ nbrsSquare L a) : a ∈ nbrsSquare L b := by
  have hb2 := hb
  rw [nbrsSquare_eq hL ha] at hb2
  simp only [List.mem_cons, List.not_mem_nil, or_false] at hb2
  have hbN : b < L * L := by
    rcases hb2 with rfl | rfl | rfl | rfl <;> exact sqNb_lt hL
  rw [nbrsSquare_eq hL hbN]
  simp only [List.mem_cons, List.not_mem_nil, or_false]
  rcases hb2 with rfl | rfl | rfl | rfl
  · exact Or.inr (Or.inl (sq_inv1 hL ha).symm)
  · exact Or.inl (sq_inv2 hL ha).symm
  · exact Or.inr (Or.inr (Or.inr (sq_inv3 hL ha).symm))
  · exact Or.inr (Or.inr (Or.inl (sq_inv4 hL ha).symm))

theorem hAp_hAm {L a : Nat} (hL : 0 < L) (hc4 : a / L < 4 * L) :
    hAp L (hAm L a) = a / L * L + a % L := by
  have hρa : a % L < L := Nat.mod_lt _ hL
  have h1 : hAm L a / L = (a / L + (4 * L - 1)) % (4 * L) := row_of_enc hL hρa
  have h2 : hAm L a % L = a % L := col_of_enc hρa
  unfold hAp
  rw [h1, h2, modInv2 (show 0 < 4 * L by omega) hc4]

theorem hAm_hAp {L a : Nat} (hL : 0 < L) (hc4 : a / L < 4 * L) :
    hAm L (hAp L a) = a / L * L + a % L := by
  have hρa : a % L < L := Nat.mod_lt _ hL
  have h1 : hAp L a / L = (a / L + 1) % (4 * L) := row_of_enc hL hρa
  have h2 : hAp L a % L = a % L := col_of_enc hρa
  unfold hAm
  rw [h1, h2, modInv1 (show 0 < 4 * L by omega) hc4]

theorem hT_symm0 {L a : Nat} (hL : 0 < L) (hc4 : a / L < 4 * L)
    (hφ0 : (a / L) % 4 = 0) : hT L (hT L a) = a / L * L + a % L := by
  have hρa : a % L < L := Nat.mod_lt _ hL
  have hmlt : (a % L + (L - 1)) % L < L := Nat.mod_lt _ hL
  have h1 : (((a / L + 1) % (4 * L)) * L + (a % L + (L - 1)) % L) / L
      = (a / L + 1) % (4 * L) := row_of_enc hL hmlt
  have h2 : (((a / L + 1) % (4 * L)) * L + (a % L + (L - 1)) % L) % L
      = (a % L + (L - 1)) % L := col_of_enc hmlt
  have hφb : ((((a / L + 1) % (4 * L)) * L + (a % L + (L - 1)) % L) / L) % 4
      = 1 := by
    rw [h1, Nat.mod_mod_of_dvd _ ⟨L, by ring⟩]
    omega
  rw [hT0_eq hφ0, hT1_eq hφb, h1, h2,
    modInv1 (show 0 < 4 * L by omega) hc4, modInv2 hL hρa]

theorem hT_symm1 {L a : Nat} (hL : 0 < L) (hc4 : a / L < 4 * L)
    (hφ1 : (a / L) % 4 = 1) : hT L (hT L a) = a / L * L + a % L := by
  have hρa : a % L < L := Nat.mod_lt _ hL
  have hmlt : (a % L + 1) % L < L := Nat.mod_lt _ hL
  have h1 : (((a / L + (4 * L - 1)) % (4 * L)) * L + (a % L + 1) % L) / L
      = (a / L + (4 * L - 1)) % (4 * L) := row_of_enc hL hmlt
  have h2 : (((a / L + (4 * L - 1)) % (4 * L)) * L + (a % L + 1) % L) % L
      = (a % L + 1) % L := col_of_enc hmlt
  have hφb : ((((a / L + (4 * L - 1)) % (4 * L)) * L + (a % L + 1) % L) / L) % 4
      = 0 := by
    rw [h1, Nat.mod_mod_of_dvd _ ⟨L, by ring⟩]
    omega
  rw [hT1_eq hφ1, hT0_eq hφb, h1, h2,
    modInv2 (show 0 < 4 * L by omega) hc4, modInv1 hL hρa]

theorem hT_symm2 {L a : Nat} (hL : 0 < L) (hc4 : a / L < 4 * L)
    (hφ2 : (a / L) % 4 = 2) : hT L (hT L a) = a / L * L + a % L := by
  have hρa : a % L < L := Nat.mod_lt _ hL
  have hmlt : (a % L + 1) % L < L := Nat.mod_lt _ hL
  have h1 : (((a / L + 1) % (4 * L)) * L + (a % L + 1) % L) / L
      = (a / L + 1) % (4 * L) := row_of_enc hL hmlt
  have h2 : (((a / L + 1) % (4 * L)) * L + (a % L + 1) % L) % L
      = (a % L + 1) % L := col_of_enc hmlt
  have hφb : ((((a / L + 1) % (4 * L)) * L + (a % L + 1) % L) / L) % 4 = 3 := by
    rw [h1, Nat.mod_mod_of_dvd _ ⟨L, by ring⟩]
    omega
  rw [hT2_eq hφ2, hT3_eq hφb, h1, h2,
    modInv1 (show 0 < 4 * L by omega) hc4, modInv1 hL hρa]

theorem hT_symm3 {L a : Nat} (hL : 0 < L) (hc4 : a / L < 4 * L)
    (hφ3 : (a / L) % 4 = 3) : hT L (hT L a) = a / L * L + a % L := by
  have hρa : a % L < L := Nat.mod_lt _ hL
  have hmlt : (a % L + (L - 1)) % L < L := Nat.mod_lt _ hL
  have h1 : (((a / L + (4 * L - 1)) % (4 * L)) * L + (a % L + (L - 1)) % L) / L
      = (a / L + (4 * L - 1)) % (4 * L) := row_of_enc hL hmlt
  have h2 : (((a / L + (4 * L - 1)) % (4 * L)) * L + (a % L + (L - 1)) % L) % L
      = (a % L + (L - 1)) % L := col_of_enc hmlt
  have hφb : ((((a / L + (4 * L - 1)) % (4 * L)) * L
      + (a % L + (L - 1)) % L) / L) % 4 = 2 := by
    rw [h1, Nat.mod_mod_of_dvd _ ⟨L, by ring⟩]
    omega
  rw [hT3_eq hφ3, hT2_eq hφb, h1, h2,
    modInv2 (show 0 < 4 * L by omega) hc4, modInv2 hL hρa]

/-- `BoundariesHoneycomb` is a symmetric adjacency. -/
theorem honey_symm {L a b : Nat} (hL : 0 < L) (ha : a < 4 * L * L)
    (hb : b ∈ nbrsHoney L a) : a ∈ nbrsHoney L b := by
  have hc4 : a / L < 4 * L := by
    have ha' : a < L * (4 * L) := by rw [Nat.mul_comm L (4 * L)]; exact ha
    exact Nat.div_lt_of_lt_mul ha'
  have haL : a = a / L * L + a % L := by
    have h3 := Nat.div_add_mod a L
    have h4 : L * (a / L) = a / L * L := Nat.mul_comm _ _
    omega
  rw [mem_nbrsHoney_iff hL ha] at hb
  have hbN : b < 4 * L * L := by
    rcases hb with rfl | rfl | rfl
    · exact hAm_lt hL
    · exact hAp_lt hL
    · exact hT_lt hL
  rw [mem_nbrsHoney_iff hL hbN]
  rcases hb with rfl | rfl | rfl
  · exact Or.inr (Or.inl (by rw [hAp_hAm hL hc4]; exact haL))
  · exact Or.inl (by rw [hAm_hAp hL hc4]; exact haL)
  · refine Or.inr (Or.inr ?_)
    have hφlt : (a / L) % 4 < 4 := Nat.mod_lt _ (by omega)
    by_cases hφ0 : (a / L) % 4 = 0
    · rw [hT_symm0 hL hc4 hφ0]; exact haL
    · by_cases hφ1 : (a / L) % 4 = 1
      · rw [hT_symm1 hL hc4 hφ1]; exact haL
      · by_cases hφ2 : (a / L) % 4 = 2
        · rw [hT_symm2 hL hc4 hφ2]; exact haL
        · rw [hT_symm3 hL hc4 (by omega)]; exact haL

/-- C4: for every `gridSize >= 1` and both lattice modes, the neighbour table
gives every site exactly `k` entries (`k = 4` square, `k = 3` honeycomb), each
entry an index in `[0, N)`, and the adjacency is symmetric: if `b` appears
among the neighbours of `a` then `a` appears among the neighbours of `b`. -/
theorem neighbour_table_props (mode L N k : Nat) (hL : 1 ≤ L)
    (hsq : mode = 0 ∧ N = L * L ∧ k = 4 ∨ mode = 1 ∧ N = 4 * L * L ∧ k = 3) :
    ∀ i, i < N →
      (nbrsList mode L i).length = k ∧
      (∀ b ∈ nbrsList mode L i, b < N) ∧
      (∀ b ∈ nbrsList mode L i, i ∈ nbrsList mode L b) := by
  intro i hi
  rcases hsq with ⟨hm, hN, hk⟩ | ⟨hm, hN, hk⟩
  · subst hm
    subst hN
    subst hk
    have hlist : ∀ j, nbrsList 0 L j = nbrsSquare L j := fun j => by
      unfold nbrsList
      rw [if_neg (by omega)]
    simp only [hlist]
    refine ⟨nbrsSquare_length L i, ?_, ?_⟩
    · intro b hb
      rw [nbrsSquare_eq (by omega) hi] at hb
      simp only [List.mem_cons, List.not_mem_nil, or_false] at hb
      rcases hb with rfl | rfl | rfl | rfl <;> exact sqNb_lt (by omega)
    · intro b hb
      exact square_symm (by omega) hi hb
  · subst hm
    subst hN
    subst hk
    have hlist : ∀ j, nbrsList 1 L j = nbrsHoney L j := fun j => by
      unfold nbrsList
      rw [if_pos rfl]
    simp only [hlist]
    refine ⟨nbrsHoney_length L i, ?_, ?_⟩
    · intro b hb
      rcases (mem_nbrsHoney_iff (by omega) hi b).mp hb with rfl | rfl | rfl
      · exact hAm_lt (by omega)
      · exact hAp_lt (by omega)
      · exact hT_lt (by omega)
    · intro b hb
      exact honey_symm (by omega) hi hb

/-- Witness for `neighbour_table_props`: the honeycomb table at `gridSize = 2`
(`N = 16`, `k = 3`). -/
theorem neighbour_table_props_witness :
    (1 ≤ 2 ∧ (1 = 1 ∧ 16 = 4 * 2 * 2 ∧ 3 = 3)) ∧
    ∀ i, i < 16 →
      (nbrsList 1 2 i).length = 3 ∧
      (∀ b ∈ nbrsList 1 2 i, b < 16) ∧
      (∀ b ∈ nbrsList 1 2 i, i ∈ nbrsList 1 2 b) :=
  ⟨⟨by decide, rfl, by decide, rfl⟩,
   neighbour_table_props 1 2 16 3 (by decide) (Or.inr ⟨rfl, by decide, rfl⟩)⟩

/-! ### C5: the candidate start pool of `RandomWalks` -/

theorem startPool_other_eq {w N : Nat} {lat : Array Int} (hw : ¬ w = 1) :
    startPool w N lat = (List.range N).filter fun i => ¬ val lat i = EMPTYval N := by
  unfold startPool
  rw [if_neg hw]

theorem startPool_one_eq {N : Nat} {lat : Array Int} {m : Int} {r : Nat}
    {rest : List Nat}
    (hm : (((List.range N).filter fun i => EMPTYval N < val lat i).map
        fun i => val lat i).min? = some m)
    (hr : (List.range N).filter (fun i => val lat i = m) = r :: rest) :
    startPool 1 N lat
      = ((List.range N).filter fun i => val lat i = (r : Int)) ++ [r] := by
  unfold startPool
  rw [if_pos rfl, hm]
  dsimp only
  rw [hr]

/-- C5 amended: under the percolation invariant, for `walkMode != 1` the pool
is exactly the occupied sites; for `walkMode == 1` the pool consists of a root
`r` of maximal cluster size together with exactly the sites whose stored
parent pointer is `r` (the root's direct children) — a subset of the largest
cluster, not the whole cluster. -/
theorem start_pool_spec {N k : Nat} {nnf : Nat → Nat → Nat} {S : Finset Nat}
    {lat : Array Int} (hinv : Inv N k nnf S lat) :
    (∀ w, ¬ w = 1 → ∀ i, i ∈ startPool w N lat ↔ i ∈ S) ∧
    (S.Nonempty →
      ∃ r, r ∈ S ∧ val lat r < 0 ∧ RootOf N lat r r ∧
        (∀ r', r' ∈ S → val lat r' < 0 →
          Set.ncard {j : Nat | j ∈ S ∧ RootOf N lat j r'}
            ≤ Set.ncard {j : Nat | j ∈ S ∧ RootOf N lat j r}) ∧
        (∀ i ∈ startPool 1 N lat, i ∈ S ∧ RootOf N lat i r) ∧
        (∀ i, i ∈ startPool 1 N lat ↔
          (i ∈ S ∧ val lat i = (r : Int)) ∨ i = r)) := by
  have hE : EMPTYval N = -(N : Int) - 1 := rfl
  have hgt : ∀ i ∈ S, EMPTYval N < val lat i := by
    intro i hi
    rcases hinv.vals i hi with ⟨h1, -⟩ | ⟨-, h1⟩ <;> omega
  have hoccm : ∀ i,
      i ∈ (List.range N).filter (fun i => EMPTYval N < val lat i) ↔ i ∈ S := by
    intro i
    rw [List.mem_filter, List.mem_range]
    constructor
    · rintro ⟨h1, h2⟩
      have h3 : EMPTYval N < val lat i := by simpa using h2
      exact (hinv.occ_iff i).mp ⟨h1, by omega⟩
    · intro hi
      exact ⟨((hinv.occ_iff i).mpr hi).1, by simpa using hgt i hi⟩
  constructor
  · intro w hw i
    rw [startPool_other_eq hw, List.mem_filter, List.mem_range]
    constructor
    · rintro ⟨h1, h2⟩
      exact (hinv.occ_iff i).mp ⟨h1, by simpa using h2⟩
    · intro hi
      have h2 := (hinv.occ_iff i).mpr hi
      exact ⟨h2.1, by simpa using h2.2⟩
  · rintro ⟨s0, hs0⟩
    have hocc0 : s0 ∈ (List.range N).filter (fun i => EMPTYval N < val lat i) :=
      (hoccm s0).mpr hs0
    have hmape : val lat s0 ∈ ((List.range N).filter
        fun i => EMPTYval N < val lat i).map (fun i => val lat i) :=
      List.mem_map_of_mem _ hocc0
    obtain ⟨m, hm⟩ : ∃ m, (((List.range N).filter
        fun i => EMPTYval N < val lat i).map (fun i => val lat i)).min?
          = some m := by
      cases h : (((List.range N).filter
          fun i => EMPTYval N < val lat i).map (fun i => val lat i)).min? with
      | none =>
        rw [List.min?_eq_none_iff] at h
        rw [h] at hmape
        cases hmape
      | some m => exact ⟨m, rfl⟩
    have hmle : ∀ b ∈ ((List.range N).filter
        fun i => EMPTYval N < val lat i).map (fun i => val lat i), m ≤ b :=
      (List.le_min?_iff (fun a b c => le_min_iff) hm).mp (le_refl m)
    have hmmem := List.min?_mem (fun a b => min_choice a b) hm
    obtain ⟨rm, hrmocc, hrmval⟩ := List.mem_map.mp hmmem
    have hrmS : rm ∈ S := (hoccm rm).mp hrmocc
    have hEm : EMPTYval N < m := hrmval ▸ hgt rm hrmS
    obtain ⟨d0, r0, hre0, -⟩ := hinv.depth s0 hs0
    have hr0v := reachIn_root_val hre0
    have hr0S : r0 ∈ S := (hinv.occ_iff r0).mp ⟨(reachIn_bounds hre0).2, hr0v.2⟩
    have hr0map : val lat r0 ∈ ((List.range N).filter
        fun i => EMPTYval N < val lat i).map (fun i => val lat i) :=
      List.mem_map_of_mem _ ((hoccm r0).mpr hr0S)
    have hmneg : m < 0 := by
      have h4 := hmle _ hr0map
      have h5 := hr0v.1
      omega
    have hrm2 : rm ∈ (List.range N).filter (fun i => val lat i = m) :=
      List.mem_filter.mpr ⟨(List.mem_filter.mp hrmocc).1, by simpa using hrmval⟩
    cases hIdx : (List.range N).filter (fun i => val lat i = m) with
    | nil =>
      rw [hIdx] at hrm2
      cases hrm2
    | cons r rest =>
      have hrmem : r ∈ (List.range N).filter (fun i => val lat i = m) := by
        rw [hIdx]
        exact List.mem_cons_self r rest
      have hrN : r < N := List.mem_range.mp (List.mem_filter.mp hrmem).1
      have hrval : val lat r = m := by simpa using (List.mem_filter.mp hrmem).2
      have hrS : r ∈ S := (hinv.occ_iff r).mp ⟨hrN, by omega⟩
      have hrroot : RootOf N lat r r :=
        ⟨0, ReachIn.root r hrN (by omega) (by omega)⟩
      refine ⟨r, hrS, by omega, hrroot, ?_, ?_, ?_⟩
      · intro r' hr'S hr'neg
        have h1 := hinv.sizes r hrS (by omega)
        have h2 := hinv.sizes r' hr'S hr'neg
        have h3 : m ≤ val lat r' :=
          hmle _ (List.mem_map_of_mem _ ((hoccm r').mpr hr'S))
        omega
      · intro i hip
        rw [startPool_one_eq hm hIdx, List.mem_append] at hip
        rcases hip with hchild | hself
        · have h1 := List.mem_filter.mp hchild
          have hiN : i < N := List.mem_range.mp h1.1
          have hival : val lat i = (r : Int) := by simpa using h1.2
          have hiS : i ∈ S := (hinv.occ_iff i).mp ⟨hiN, by omega⟩
          refine ⟨hiS, 1, ?_⟩
          have ht : (val lat i).toNat = r := by
            rw [hival]
            simp
          refine ReachIn.step 0 i r hiN (by omega) ?_
          rw [ht]
          exact ReachIn.root r hrN (by omega) (by omega)
        · have hir : i = r := by simpa using hself
          rw [hir]
          exact ⟨hrS, hrroot⟩
      · intro i
        rw [startPool_one_eq hm hIdx, List.mem_append]
        constructor
        · rintro (hchild | hself)
          · have h1 := List.mem_filter.mp hchild
            have hiN : i < N := List.mem_range.mp h1.1
            have hival : val lat i = (r : Int) := by simpa using h1.2
            exact Or.inl ⟨(hinv.occ_iff i).mp ⟨hiN, by omega⟩, hival⟩
          · exact Or.inr (by simpa using hself)
        · rintro (⟨hiS, hival⟩ | rfl)
          · refine Or.inl (List.mem_filter.mpr
              ⟨List.mem_range.mpr ((hinv.occ_iff i).mpr hiS).1, ?_⟩)
            simpa using hival
          · exact Or.inr (List.mem_cons_self _ _)

/-- C5 counterexample: on the 3x3 square lattice occupy `0, 1, 5, 8, 2`.  The
largest cluster `{0, 1, 2, 5, 8}` has root `1`, but site `5` stores the
pointer `8` (a grandchild of the root), so the `walkMode == 1` pool
`[0, 2, 8, 1]` misses the cluster member `5`. -/
theorem largest_cluster_pool_counterexample :
    percolateList 9 4 (nnFun 0 3) [0, 1, 5, 8, 2]
      = some #[1, -5, 1, -10, -10, 8, -10, -10, 1] ∧
    startPool 1 9 #[1, -5, 1, -10, -10, 8, -10, -10, 1] = [0, 2, 8, 1] ∧
    occupiedP 9 #[1, -5, 1, -10, -10, 8, -10, -10, 1] 5 ∧
    RootOf 9 #[1, -5, 1, -10, -10, 8, -10, -10, 1] 5 1 ∧
    RootOf 9 #[1, -5, 1, -10, -10, 8, -10, -10, 1] 1 1 ∧
    ¬ (5 : Nat) ∈ startPool 1 9 #[1, -5, 1, -10, -10, 8, -10, -10, 1] := by
  refine ⟨by decide, by decide, by decide, ⟨2, ?_⟩, ⟨0, ?_⟩, by decide⟩
  · exact ReachIn.step 1 5 1 (by decide) (by decide)
      (ReachIn.step 0 8 1 (by decide) (by decide)
        (ReachIn.root 1 (by decide) (by decide) (by decide)))
  · exact ReachIn.root 1 (by decide) (by decide) (by decide)

/-- Witness for `start_pool_spec` on the percolated 3x3 lattice of the
counterexample configuration. -/
theorem start_pool_spec_witness :
    (∀ w, ¬ w = 1 → ∀ i,
        i ∈ startPool w 9 #[1, -5, 1, -10, -10, 8, -10, -10, 1] ↔
          i ∈ ([0, 1, 5, 8, 2] : List Nat).toFinset) ∧
    (([0, 1, 5, 8, 2] : List Nat).toFinset.Nonempty →
      ∃ r, r ∈ ([0, 1, 5, 8, 2] : List Nat).toFinset ∧
        val #[1, -5, 1, -10, -10, 8, -10, -10, 1] r < 0 ∧
        RootOf 9 #[1, -5, 1, -10, -10, 8, -10, -10, 1] r r ∧
        (∀ r', r' ∈ ([0, 1, 5, 8, 2] : List Nat).toFinset →
          val #[1, -5, 1, -10, -10, 8, -10, -10, 1] r' < 0 →
          Set.ncard {j : Nat | j ∈ ([0, 1, 5, 8, 2] : List Nat).toFinset ∧
              RootOf 9 #[1, -5, 1, -10, -10, 8, -10, -10, 1] j r'}
            ≤ Set.ncard {j : Nat | j ∈ ([0, 1, 5, 8, 2] : List Nat).toFinset ∧
              RootOf 9 #[1, -5, 1, -10, -10, 8, -10, -10, 1] j r}) ∧
        (∀ i ∈ startPool 1 9 #[1, -5, 1, -10, -10, 8, -10, -10, 1],
          i ∈ ([0, 1, 5, 8, 2] : List Nat).toFinset ∧
            RootOf 9 #[1, -5, 1, -10, -10, 8, -10, -10, 1] i r) ∧
        (∀ i, i ∈ startPool 1 9 #[1, -5, 1, -10, -10, 8, -10, -10, 1] ↔
          (i ∈ ([0, 1, 5, 8, 2] : List Nat).toFinset ∧
            val #[1, -5, 1, -10, -10, 8, -10, -10, 1] i = (r : Int)) ∨
          i = r)) := by
  obtain ⟨lat, heq, hinv⟩ := @percolateList_some_inv 9 4 (nnFun 0 3)
    (by decide) (by decide) [0, 1, 5, 8, 2] (by decide) (by decide)
  have heq2 : percolateList 9 4 (nnFun 0 3) [0, 1, 5, 8, 2]
      = some #[1, -5, 1, -10, -10, 8, -10, -10, 1] := by decide
  rw [heq2] at heq
  have hlat : lat = #[1, -5, 1, -10, -10, 8, -10, -10, 1] := by
    injection heq with h
    exact h.symm
  rw [hlat] at hinv
  exact start_pool_spec hinv

/-! ### C6: the start-site rejection cap -/

theorem searchFrom_spec (pos : Nat → Nat) (ok : Nat → Bool) (countMax : Nat) :
    ∀ fuel count, count + fuel = countMax + 1 → count ≤ countMax →
      count ≤ (searchFrom pos ok countMax fuel count).2 ∧
      (searchFrom pos ok countMax fuel count).2 ≤ countMax ∧
      (searchFrom pos ok countMax fuel count).1
        = pos (searchFrom pos ok countMax fuel count).2 ∧
      ((searchFrom pos ok countMax fuel count).2 < countMax →
        ok (pos (searchFrom pos ok countMax fuel count).2) = true) := by
  intro fuel
  induction fuel with
  | zero =>
    intro count h1 h2
    omega
  | succ fuel ih =>
    intro count h1 h2
    simp only [searchFrom]
    by_cases hc : ok (pos count) = true ∨ countMax ≤ count
    · rw [if_pos hc]
      refine ⟨le_refl _, h2, rfl, ?_⟩
      intro hlt
      rcases hc with h | h
      · exact h
      · omega
    · rw [if_neg hc]
      push_neg at hc
      obtain ⟨hok, hcc⟩ := hc
      obtain ⟨a1, a2, a3, a4⟩ := ih (count + 1) (by omega) (by omega)
      exact ⟨by omega, a2, a3, a4⟩

/-- C6: the rejection loop performs at most `clamp(N, 1e5, 1e8)` rejection
attempts; the returned site is the last sampled one; if the search accepted
below the cap the site has an occupied neighbour; and when the cap is hit the
walk is the constant trajectory at the last sampled site with all
boundary-crossing flags zero (no error path exists). -/
theorem rejection_cap (N k : Nat) (nnf : Nat → Nat → Nat) (lat : Array Int)
    (pos : Nat → Nat) (simLength : Nat)
    (stepped : Nat → List Int × List Nat) :
    (100000 ≤ countMaxOf N ∧ countMaxOf N ≤ 100000000 ∧
      (100000 ≤ N → N ≤ 100000000 → countMaxOf N = N)) ∧
    ((startSearch pos (fun p => decide
        (¬ occupiedNeighbours N k nnf lat p = [])) (countMaxOf N)).2
      ≤ countMaxOf N) ∧
    ((startSearch pos (fun p => decide
        (¬ occupiedNeighbours N k nnf lat p = [])) (countMaxOf N)).1
      = pos (startSearch pos (fun p => decide
        (¬ occupiedNeighbours N k nnf lat p = [])) (countMaxOf N)).2) ∧
    ((startSearch pos (fun p => decide
        (¬ occupiedNeighbours N k nnf lat p = [])) (countMaxOf N)).2
        < countMaxOf N →
      ¬ occupiedNeighbours N k nnf lat
        (pos (startSearch pos (fun p => decide
          (¬ occupiedNeighbours N k nnf lat p = [])) (countMaxOf N)).2) = []) ∧
    ((startSearch pos (fun p => decide
        (¬ occupiedNeighbours N k nnf lat p = [])) (countMaxOf N)).2
        = countMaxOf N →
      walkBuild simLength (countMaxOf N)
        (startSearch pos (fun p => decide
          (¬ occupiedNeighbours N k nnf lat p = [])) (countMaxOf N)) stepped
        = (List.replicate simLength
            (((startSearch pos (fun p => decide
              (¬ occupiedNeighbours N k nnf lat p = [])) (countMaxOf N)).1
                : Int)),
           List.replicate simLength 0)) := by
  obtain ⟨a1, a2, a3, a4⟩ := searchFrom_spec pos
    (fun p => decide (¬ occupiedNeighbours N k nnf lat p = []))
    (countMaxOf N) (countMaxOf N + 1) 0 (by omega) (by omega)
  refine ⟨?_, a2, a3, ?_, ?_⟩
  · unfold countMaxOf
    omega
  · intro hlt
    have h5 := a4 hlt
    simpa using h5
  · intro hcap
    unfold walkBuild
    rw [if_pos hcap]
    rfl

/-- Witness for `rejection_cap`: a 2-site lattice where the first draw is
accepted immediately. -/
theorem rejection_cap_witness :
    (100000 ≤ countMaxOf 2 ∧ countMaxOf 2 ≤ 100000000 ∧
      (100000 ≤ 2 → 2 ≤ 100000000 → countMaxOf 2 = 2)) ∧
    ((startSearch (fun t => 0) (fun p => decide
        (¬ occupiedNeighbours 2 1 (fun j i => 1 - i) #[0, 0] p = []))
        (countMaxOf 2)).2 ≤ countMaxOf 2) ∧
    ((startSearch (fun t => 0) (fun p => decide
        (¬ occupiedNeighbours 2 1 (fun j i => 1 - i) #[0, 0] p = []))
        (countMaxOf 2)).1
      = (fun t : Nat => 0) (startSearch (fun t => 0) (fun p => decide
        (¬ occupiedNeighbours 2 1 (fun j i => 1 - i) #[0, 0] p = []))
        (countMaxOf 2)).2) ∧
    ((startSearch (fun t => 0) (fun p => decide
        (¬ occupiedNeighbours 2 1 (fun j i => 1 - i) #[0, 0] p = []))
        (countMaxOf 2)).2 < countMaxOf 2 →
      ¬ occupiedNeighbours 2 1 (fun j i => 1 - i) #[0, 0]
        ((fun t : Nat => 0) (startSearch (fun t => 0) (fun p => decide
          (¬ occupiedNeighbours 2 1 (fun j i => 1 - i) #[0, 0] p = []))
          (countMaxOf 2)).2) = []) ∧
    ((startSearch (fun t => 0) (fun p => decide
        (¬ occupiedNeighbours 2 1 (fun j i => 1 - i) #[0, 0] p = []))
        (countMaxOf 2)).2 = countMaxOf 2 →
      walkBuild 3 (countMaxOf 2)
        (startSearch (fun t => 0) (fun p => decide
          (¬ occupiedNeighbours 2 1 (fun j i => 1 - i) #[0, 0] p = []))
          (countMaxOf 2)) (fun p => ([], []))
        = (List.replicate 3
            (((startSearch (fun t => 0) (fun p => decide
              (¬ occupiedNeighbours 2 1 (fun j i => 1 - i) #[0, 0] p = []))
              (countMaxOf 2)).1 : Int)),
           List.replicate 3 0)) :=
  rejection_cap 2 1 (fun j i => 1 - i) #[0, 0] (fun t => 0) 3
    (fun p => ([], []))

/-! ### C7, C8: `TAMSD` and the `AnalyseWalks` zeroing -/

theorem foldl_optAdd_none (l : List (Option ℚ)) : l.foldl optAdd none = none := by
  induction l with
  | nil => rfl
  | cons x xs ih =>
    simp only [List.foldl_cons]
    have h : optAdd none x = none := by cases x <;> rfl
    rw [h]
    exact ih

theorem foldl_optAdd_mem_none :
    ∀ (l : List (Option ℚ)) (acc : Option ℚ), none ∈ l →
      l.foldl optAdd acc = none := by
  intro l
  induction l with
  | nil =>
    intro acc h
    cases h
  | cons x xs ih =>
    intro acc h
    simp only [List.foldl_cons]
    rcases List.mem_cons.mp h with h1 | h1
    · rw [← h1]
      have h2 : optAdd acc none = none := by cases acc <;> rfl
      rw [h2]
      exact foldl_optAdd_none xs
    · exact ih _ h1

theorem optSum_none {l : List (Option ℚ)} (h : none ∈ l) : optSum l = none :=
  foldl_optAdd_mem_none l (some 0) h

/-- C7: `TAMSD(walk, t, delta)` computes the mean over `i < t - delta` of the
squared displacements (`(t - delta) * TAMSD = integral`); with `delta = t` it
is non-finite (`0/0`), and the value contributed to column `1` of the
analysis result at the degenerate row is neutralised to `0` — every entry of
that column is finite. -/
theorem tamsd_degenerate_neutralised (walks : Nat → Nat → ℚ × ℚ) (n : Nat)
    (hn : 1 ≤ n) :
    (∀ (w : Nat → ℚ × ℚ) (t delta : Nat), delta < t →
      ∃ m, TAMSD w t delta = some m ∧
        ((t - delta : Nat) : ℚ) * m
          = ((List.range (t - delta)).map fun i =>
              sqDist (w (i + delta)) (w i)).sum) ∧
    (∀ (w : Nat → ℚ × ℚ) (t : Nat), TAMSD w t t = none) ∧
    (∀ i, eataMSDall walks i 0 = none) ∧
    analysisCol1 walks n 0 = some 0 ∧
    (∀ j, ∃ q, analysisCol1 walks n j = some q) := by
  have h11 : ∀ (w : Nat → ℚ × ℚ) (t : Nat), TAMSD w t t = none := by
    intro w t
    unfold TAMSD
    rw [if_pos (Nat.sub_self t)]
  refine ⟨?_, h11, ?_, ?_, ?_⟩
  · intro w t delta h
    unfold TAMSD
    rw [if_neg (by omega)]
    refine ⟨_, rfl, ?_⟩
    rw [mul_comm]
    refine div_mul_cancel₀ _ ?_
    exact Nat.cast_ne_zero.mpr (by omega)
  · intro i
    unfold eataMSDall
    exact h11 (walks i) 1
  · unfold analysisCol1
    have hmem : (none : Option ℚ) ∈ (List.range n).map
        (fun i => eataMSDall walks i 0) := by
      refine List.mem_map.mpr ⟨0, List.mem_range.mpr (by omega), ?_⟩
      unfold eataMSDall
      exact h11 (walks 0) 1
    unfold rowMean
    rw [if_neg (by omega), optSum_none hmem]
    rfl
  · intro j
    exact ⟨_, rfl⟩

/-- Witness for `tamsd_degenerate_neutralised`: one unit-speed walk. -/
theorem tamsd_degenerate_neutralised_witness :
    1 ≤ 1 ∧
    ((∀ (w : Nat → ℚ × ℚ) (t delta : Nat), delta < t →
      ∃ m, TAMSD w t delta = some m ∧
        ((t - delta : Nat) : ℚ) * m
          = ((List.range (t - delta)).map fun i =>
              sqDist (w (i + delta)) (w i)).sum) ∧
    (∀ (w : Nat → ℚ × ℚ) (t : Nat), TAMSD w t t = none) ∧
    (∀ i, eataMSDall (fun i t => ((t : ℚ), 0)) i 0 = none) ∧
    analysisCol1 (fun i t => ((t : ℚ), 0)) 1 0 = some 0 ∧
    (∀ j, ∃ q, analysisCol1 (fun i t => ((t : ℚ), 0)) 1 j = some q)) :=
  ⟨le_refl 1,
   tamsd_degenerate_neutralised (fun i t => ((t : ℚ), 0)) 1 (le_refl 1)⟩

/-- C8: the cross-indexed zeroing bug.  With one walk of two ticks moving one
unit in `x`, the per-walk ensemble contribution at lag `1` is `1` and is
finite, yet the code zeroes it because the zeroing mask is taken from
`eataMSDall` (`eaMSDall.elem(find_nonfinite(eataMSDall)).zeros()`): the
ensemble-MSD column of the result is `0` where the spec's reading (zero
`eaMSDall`'s own non-finite entries, then average) gives `1`. -/
theorem analysis_cross_zeroing_bug :
    eaMSDallM (fun i t => if t = 0 then (0, 0) else (1, 0)) 0 0 = some 1 ∧
    eataMSDall (fun i t => if t = 0 then (0, 0) else (1, 0)) 0 0 = none ∧
    analysisCol0 (fun i t => if t = 0 then (0, 0) else (1, 0)) 1 0 = some 0 ∧
    analysisCol0Spec (fun i t => if t = 0 then (0, 0) else (1, 0)) 1 0
      = some 1 := by
  refine ⟨?_, ?_, ?_, ?_⟩
  · unfold eaMSDallM sqDist
    norm_num
  · unfold eataMSDall TAMSD
    rw [if_pos rfl]
  · norm_num [analysisCol0, rowMean, eaMSDallZeroed, eataMSDall, TAMSD,
      optSum, optAdd, List.range_succ, List.range_zero]
  · norm_num [analysisCol0Spec, rowMean, finZero, eaMSDallM, sqDist,
      optSum, optAdd, List.range_succ, List.range_zero]

/-! ### C9: determinism for non-negative seeds -/

/-- C9: with a fixed non-negative seed and identical configuration, two
complete runs are bit-identical — same occupation order, same percolated
lattice, same walk trajectory — whatever entropy `std::random_device` would
have supplied. -/
theorem run_deterministic (q : ℚ) (N k L mode wm simLength : Nat)
    (seed : Int) (hseed : 0 ≤ seed) (e1 e2 : Nat → Nat) :
    runModel q N k L mode wm simLength seed e1
      = runModel q N k L mode wm simLength seed e2 := by
  unfold runModel seedRNG
  simp only [if_neg (show ¬ seed < 0 by omega)]

/-- Witness for `run_deterministic`: seed `3` on the 3x3 square lattice, two
different entropy sources. -/
theorem run_deterministic_witness :
    (0 : Int) ≤ 3 ∧
    runModel (1 / 2) 9 4 3 0 1 5 3 (fun t => t)
      = runModel (1 / 2) 9 4 3 0 1 5 3 (fun t => t + 7) :=
  ⟨by decide,
   run_deterministic (1 / 2) 9 4 3 0 1 5 3 (by decide)
     (fun t => t) (fun t => t + 7)⟩

end Perc
